import Mathlib

/-!
Verification of the page release engine of the scudo allocator
(compiler-rt scudo standalone, file release.h).

The first part of this file is a shallow embedding of the code: every
definition mirrors the corresponding C++ entity of release.h (names are kept).
Machine words (uptr) are modelled as Nat; the packed counter array stores
64-bit words and the word update operations reduce modulo 2 ^ 64 exactly where
the C++ code performs wrapping uptr arithmetic.  External effects (the
platform call releasePagesToOS) are modelled by a log of the emitted
(From, To) byte ranges inside ReleaseRecorder.  The cached OS page size
(getPageSizeCached) is modelled as an explicit PageSize argument.

The second part states and proves the specification claims.
-/

namespace scudo

/-! ### Helpers from common.h -/

/-- common.h roundUp / roundUpSlow.  The source computes the power-of-two
variant with bit masking; for a power-of-two boundary both forms agree with
this division form, which is also what roundUpSlow computes. -/
def roundUp (X Boundary : Nat) : Nat :=
  (X + Boundary - 1) / Boundary * Boundary

/-- common.h roundUpSlow (arbitrary boundary). -/
def roundUpSlow (X Boundary : Nat) : Nat :=
  (X + Boundary - 1) / Boundary * Boundary

/-- common.h roundDown (power-of-two boundary). -/
def roundDown (X Boundary : Nat) : Nat :=
  X / Boundary * Boundary

/-- common.h isPowerOfTwo: (X & (X - 1)) == 0. -/
def isPowerOfTwo (X : Nat) : Bool :=
  X &&& (X - 1) == 0

/-- Base-2 logarithm with explicit structural fuel (so that the kernel can
evaluate it; proved equal to Nat.log2 below). -/
def log2Fuel : Nat → Nat → Nat
  | 0, _ => 0
  | fuel + 1, n => if n ≥ 2 then log2Fuel fuel (n / 2) + 1 else 0

/-- common.h getMostSignificantSetBitIndex: index of the most significant set
bit, i.e. the base-2 logarithm for positive input. -/
def getMostSignificantSetBitIndex (X : Nat) : Nat :=
  log2Fuel X X

/-- common.h roundUpPowerOfTwo. -/
def roundUpPowerOfTwo (Size : Nat) : Nat :=
  if isPowerOfTwo Size then Size
  else 1 <<< (getMostSignificantSetBitIndex Size + 1)

/-- common.h getLog2 (the argument is a power of two in every use). -/
def getLog2 (X : Nat) : Nat :=
  log2Fuel X X

/-! ### ReleaseRecorder -/

/-- ReleaseRecorder.  The field released is the model of the external
releasePagesToOS platform calls: the chronological log of the (From, To)
byte ranges handed back to the OS. -/
structure ReleaseRecorder where
  ReleasedRangesCount : Nat
  ReleasedBytes : Nat
  Base : Nat
  released : List (Nat × Nat)
deriving Repr, DecidableEq

/-- ReleaseRecorder constructor: counters start at zero, no range released. -/
def ReleaseRecorder.mk' (Base : Nat) : ReleaseRecorder :=
  { ReleasedRangesCount := 0, ReleasedBytes := 0, Base := Base, released := [] }

/-- ReleaseRecorder::releasePageRangeToOS.  Releases [From, To), increments
the range counter and adds To - From to the byte counter. -/
def ReleaseRecorder.releasePageRangeToOS (r : ReleaseRecorder) (From To : Nat) :
    ReleaseRecorder :=
  let Size := To - From
  { r with
    released := r.released ++ [(From, To)]
    ReleasedRangesCount := r.ReleasedRangesCount + 1
    ReleasedBytes := r.ReleasedBytes + Size }

/-- A finite sequence of releasePageRangeToOS calls, in order. -/
def applyCalls (r : ReleaseRecorder) (calls : List (Nat × Nat)) :
    ReleaseRecorder :=
  calls.foldl (fun r p => r.releasePageRangeToOS p.1 p.2) r

/-! ### RegionPageMap -/

/-- RegionPageMap: a packed array of counters, one per (region, page).  Each
counter occupies CounterSizeBits = 2 ^ CounterSizeBitsLog bits inside a 64-bit
word; Buffer maps a word index to the word value.  The allocated flag models
the Buffer-is-not-null check of isAllocated(); the storage-selection and
allocation-failure behaviour of reset() is modelled separately (see
resetStorage below), here reset models the successful path, which zeroes the
buffer. -/
structure RegionPageMap where
  Regions : Nat
  NumCounters : Nat
  CounterSizeBitsLog : Nat
  CounterMask : Nat
  PackingRatioLog : Nat
  BitOffsetMask : Nat
  SizePerRegion : Nat
  BufferSize : Nat
  Buffer : Nat → Nat
  allocated : Bool

/-- The default RegionPageMap constructor: everything zero, no buffer. -/
def RegionPageMap.empty : RegionPageMap :=
  { Regions := 0, NumCounters := 0, CounterSizeBitsLog := 0, CounterMask := 0
    PackingRatioLog := 0, BitOffsetMask := 0, SizePerRegion := 0
    BufferSize := 0, Buffer := fun _ => 0, allocated := false }

/-- RegionPageMap::StaticBufferCount. -/
def RegionPageMap.StaticBufferCount : Nat := 2048

/-- RegionPageMap::reset, successful path.  MaxCounterBits is 64
(sizeof(uptr) * 8); the buffer is zero-initialized (memset for the static
buffer, zeroed mapping otherwise). -/
def RegionPageMap.reset (NumberOfRegion CountersPerRegion MaxValue : Nat) :
    RegionPageMap :=
  let MaxCounterBits := 64
  let CounterSizeBits :=
    roundUpPowerOfTwo (getMostSignificantSetBitIndex MaxValue + 1)
  let CounterSizeBitsLog := getLog2 CounterSizeBits
  let CounterMask := (2 ^ 64 - 1) >>> (MaxCounterBits - CounterSizeBits)
  let PackingRatio := MaxCounterBits >>> CounterSizeBitsLog
  let PackingRatioLog := getLog2 PackingRatio
  let BitOffsetMask := PackingRatio - 1
  let SizePerRegion :=
    roundUp CountersPerRegion (1 <<< PackingRatioLog) >>> PackingRatioLog
  { Regions := NumberOfRegion
    NumCounters := CountersPerRegion
    CounterSizeBitsLog := CounterSizeBitsLog
    CounterMask := CounterMask
    PackingRatioLog := PackingRatioLog
    BitOffsetMask := BitOffsetMask
    SizePerRegion := SizePerRegion
    BufferSize := SizePerRegion * 8 * NumberOfRegion
    Buffer := fun _ => 0
    allocated := true }

/-- RegionPageMap::isAllocated. -/
def RegionPageMap.isAllocated (s : RegionPageMap) : Bool :=
  s.allocated

/-- Point update of the word buffer (Buffer[i] = v). -/
def RegionPageMap.writeWord (s : RegionPageMap) (i v : Nat) : RegionPageMap :=
  { s with Buffer := fun j => if j = i then v else s.Buffer j }

/-- RegionPageMap::get. -/
def RegionPageMap.get (s : RegionPageMap) (Region I : Nat) : Nat :=
  let Index := I >>> s.PackingRatioLog
  let BitOffset := (I &&& s.BitOffsetMask) <<< s.CounterSizeBitsLog
  (s.Buffer (Region * s.SizePerRegion + Index) >>> BitOffset) &&& s.CounterMask

/-- RegionPageMap::inc.  The C++ word addition wraps at 2 ^ 64. -/
def RegionPageMap.inc (s : RegionPageMap) (Region I : Nat) : RegionPageMap :=
  let Index := I >>> s.PackingRatioLog
  let BitOffset := (I &&& s.BitOffsetMask) <<< s.CounterSizeBitsLog
  let w := Region * s.SizePerRegion + Index
  s.writeWord w ((s.Buffer w + (1 <<< BitOffset) % 2 ^ 64) % 2 ^ 64)

/-- RegionPageMap::incN. -/
def RegionPageMap.incN (s : RegionPageMap) (Region I N : Nat) : RegionPageMap :=
  let Index := I >>> s.PackingRatioLog
  let BitOffset := (I &&& s.BitOffsetMask) <<< s.CounterSizeBitsLog
  let w := Region * s.SizePerRegion + Index
  s.writeWord w ((s.Buffer w + (N <<< BitOffset) % 2 ^ 64) % 2 ^ 64)

/-- RegionPageMap::incRange: inc each counter of [From, min(To+1, NumCounters)). -/
def RegionPageMap.incRange (s : RegionPageMap) (Region From To : Nat) :
    RegionPageMap :=
  let Top := min (To + 1) s.NumCounters
  (List.range' From (Top - From)).foldl (fun t I => t.inc Region I) s

/-- RegionPageMap::setAsAllCounted: or the full counter mask into the field. -/
def RegionPageMap.setAsAllCounted (s : RegionPageMap) (Region I : Nat) :
    RegionPageMap :=
  let Index := I >>> s.PackingRatioLog
  let BitOffset := (I &&& s.BitOffsetMask) <<< s.CounterSizeBitsLog
  let w := Region * s.SizePerRegion + Index
  s.writeWord w (s.Buffer w ||| (s.CounterMask <<< BitOffset) % 2 ^ 64)

/-- RegionPageMap::setAsAllCountedRange. -/
def RegionPageMap.setAsAllCountedRange (s : RegionPageMap) (Region From To : Nat) :
    RegionPageMap :=
  let Top := min (To + 1) s.NumCounters
  (List.range' From (Top - From)).foldl (fun t I => t.setAsAllCounted Region I) s

/-- RegionPageMap::updateAsAllCountedIf, returning the Bool result together
with the possibly updated map. -/
def RegionPageMap.updateAsAllCountedIf (s : RegionPageMap)
    (Region I MaxCount : Nat) : Bool × RegionPageMap :=
  let Count := s.get Region I
  if Count = s.CounterMask then (true, s)
  else if Count = MaxCount then (true, s.setAsAllCounted Region I)
  else (false, s)

/-- RegionPageMap::isAllCounted. -/
def RegionPageMap.isAllCounted (s : RegionPageMap) (Region I : Nat) : Bool :=
  s.get Region I == s.CounterMask

/-- Storage selection of RegionPageMap::reset: result is the number of bytes
requested from the platform map call (none when the static buffer is used)
together with the resulting isAllocated() value.  tryLockSucceeds models the
non-blocking Mutex.tryLock(), mapSucceeds models the MAP_ALLOWNOMEM map call
outcome (the mapped pointer is null exactly when the request fails). -/
def RegionPageMap.resetStorage (BufferSize PageSize : Nat)
    (tryLockSucceeds mapSucceeds : Bool) : Option Nat × Bool :=
  if BufferSize ≤ RegionPageMap.StaticBufferCount * 8 ∧ tryLockSucceeds then
    (none, true)
  else
    (some (roundUp BufferSize PageSize), mapSucceeds)

/-! ### FreePagesRangeTracker -/

/-- FreePagesRangeTracker: coalesces consecutive releasable pages and reports
the closed ranges to the recorder, in bytes (page << PageSizeLog). -/
structure FreePagesRangeTracker where
  Recorder : ReleaseRecorder
  PageSizeLog : Nat
  InRange : Bool
  CurrentPage : Nat
  CurrentRangeStatePage : Nat

/-- FreePagesRangeTracker constructor (PageSizeLog = getLog2 of the cached
page size). -/
def FreePagesRangeTracker.mk' (Recorder : ReleaseRecorder) (PageSizeLog : Nat) :
    FreePagesRangeTracker :=
  { Recorder := Recorder, PageSizeLog := PageSizeLog, InRange := false
    CurrentPage := 0, CurrentRangeStatePage := 0 }

/-- FreePagesRangeTracker::closeOpenedRange. -/
def FreePagesRangeTracker.closeOpenedRange (rt : FreePagesRangeTracker) :
    FreePagesRangeTracker :=
  if rt.InRange then
    { rt with
      Recorder := rt.Recorder.releasePageRangeToOS
        (rt.CurrentRangeStatePage <<< rt.PageSizeLog)
        (rt.CurrentPage <<< rt.PageSizeLog)
      InRange := false }
  else rt

/-- FreePagesRangeTracker::processNextPage. -/
def FreePagesRangeTracker.processNextPage (rt : FreePagesRangeTracker)
    (Released : Bool) : FreePagesRangeTracker :=
  let rt :=
    if Released then
      if !rt.InRange then
        { rt with CurrentRangeStatePage := rt.CurrentPage, InRange := true }
      else rt
    else rt.closeOpenedRange
  { rt with CurrentPage := rt.CurrentPage + 1 }

/-- FreePagesRangeTracker::skipPages. -/
def FreePagesRangeTracker.skipPages (rt : FreePagesRangeTracker) (N : Nat) :
    FreePagesRangeTracker :=
  let rt := rt.closeOpenedRange
  { rt with CurrentPage := rt.CurrentPage + N }

/-- FreePagesRangeTracker::finish. -/
def FreePagesRangeTracker.finish (rt : FreePagesRangeTracker) :
    FreePagesRangeTracker :=
  rt.closeOpenedRange

/-! ### PageReleaseContext -/

/-- PageReleaseContext: precomputed geometry plus the page map. -/
structure PageReleaseContext where
  BlockSize : Nat
  RegionSize : Nat
  NumberOfRegions : Nat
  ReleasePageOffset : Nat
  PageSize : Nat
  PagesCount : Nat
  PageSizeLog : Nat
  RoundedRegionSize : Nat
  RoundedSize : Nat
  FullPagesBlockCountMax : Nat
  SameBlockCountPerPage : Bool
  PageMap : RegionPageMap

/-- The PageReleaseContext constructor.  PageSize is the model of
getPageSizeCached().  The C++ parameter order after it is kept:
(BlockSize, RegionSize, NumberOfRegions, ReleaseSize, ReleaseOffset). -/
def PageReleaseContext.mk' (PageSize BlockSize RegionSize NumberOfRegions
    ReleaseSize ReleaseOffset : Nat) : PageReleaseContext :=
  let geo : Nat × Bool :=
    if BlockSize ≤ PageSize then
      if PageSize % BlockSize = 0 then
        (PageSize / BlockSize, true)
      else if BlockSize % (PageSize % BlockSize) = 0 then
        (PageSize / BlockSize + 1, true)
      else
        (PageSize / BlockSize + 2, false)
    else
      if BlockSize % PageSize = 0 then (1, true) else (2, false)
  { BlockSize := BlockSize
    RegionSize := RegionSize
    NumberOfRegions := NumberOfRegions
    PageSize := PageSize
    FullPagesBlockCountMax := geo.1
    SameBlockCountPerPage := geo.2
    PagesCount := roundUp ReleaseSize PageSize / PageSize
    PageSizeLog := getLog2 PageSize
    RoundedRegionSize := roundUp RegionSize PageSize
    RoundedSize := NumberOfRegions * roundUp RegionSize PageSize
    ReleasePageOffset := ReleaseOffset >>> getLog2 PageSize
    PageMap := RegionPageMap.empty }

/-- PageReleaseContext::hasBlockMarked. -/
def PageReleaseContext.hasBlockMarked (ctx : PageReleaseContext) : Bool :=
  ctx.PageMap.isAllocated

/-- PageReleaseContext::ensurePageMapAllocated (successful path of the lazy
PageMap.reset). -/
def PageReleaseContext.ensurePageMapAllocated (ctx : PageReleaseContext) :
    PageReleaseContext :=
  if ctx.PageMap.isAllocated then ctx
  else
    { ctx with
      PageMap := RegionPageMap.reset ctx.NumberOfRegions ctx.PagesCount
        ctx.FullPagesBlockCountMax }

/-- getPageIndex with explicit geometry arguments:
(P >> PageSizeLog) - ReleasePageOffset. -/
def getPageIndexAux (PageSizeLog ReleasePageOffset P : Nat) : Nat :=
  (P >>> PageSizeLog) - ReleasePageOffset

/-- PageReleaseContext::getPageIndex. -/
def PageReleaseContext.getPageIndex (ctx : PageReleaseContext) (P : Nat) : Nat :=
  getPageIndexAux ctx.PageSizeLog ctx.ReleasePageOffset P

/-- The markLastBlock while loop of markFreeBlocks: starting from PInRegion,
step BlockSize while PInRegion < RoundedRegionSize, incRange over the pages of
each pretend block.  The C++ loop does not terminate for BlockSize = 0 (no
caller passes it); the model returns the map unchanged in that degenerate
case. -/
def markLastBlockFuel (BlockSize RoundedRegionSize PageSizeLog
    ReleasePageOffset RegionIndex : Nat) :
    Nat → RegionPageMap → Nat → RegionPageMap
  | 0, pm, _ => pm
  | fuel + 1, pm, PInRegion =>
    if 0 < BlockSize ∧ PInRegion < RoundedRegionSize then
      markLastBlockFuel BlockSize RoundedRegionSize PageSizeLog
        ReleasePageOffset RegionIndex fuel
        (pm.incRange RegionIndex
          (getPageIndexAux PageSizeLog ReleasePageOffset PInRegion)
          (getPageIndexAux PageSizeLog ReleasePageOffset
            (PInRegion + BlockSize - 1)))
        (PInRegion + BlockSize)
    else pm

def markLastBlockLoop (BlockSize RoundedRegionSize PageSizeLog
    ReleasePageOffset RegionIndex : Nat) (pm : RegionPageMap)
    (PInRegion : Nat) : RegionPageMap :=
  markLastBlockFuel BlockSize RoundedRegionSize PageSizeLog
    ReleasePageOffset RegionIndex (RoundedRegionSize + 1 - PInRegion) pm
    PInRegion

/-- PageReleaseContext::markFreeBlocks.  The free list is a list of transfer
batches, each a list of compacted block pointers; DecompactPtr maps a
compacted pointer to an address.  The nested batch loops are modelled by a
fold over the flattened list, which visits the entries in the same order. -/
def PageReleaseContext.markFreeBlocks (ctx : PageReleaseContext)
    (FreeList : List (List Nat)) (DecompactPtr : Nat → Nat) (Base : Nat) :
    PageReleaseContext :=
  let ctx1 := ctx.ensurePageMapAllocated
  let LastBlockInRegion := (ctx1.RegionSize / ctx1.BlockSize - 1) * ctx1.BlockSize
  let markLastBlock := fun (pm : RegionPageMap) (RegionIndex : Nat) =>
    markLastBlockLoop ctx1.BlockSize ctx1.RoundedRegionSize ctx1.PageSizeLog
      ctx1.ReleasePageOffset RegionIndex pm (LastBlockInRegion + ctx1.BlockSize)
  let pm :=
    if ctx1.BlockSize ≤ ctx1.PageSize ∧ ctx1.PageSize % ctx1.BlockSize = 0 then
      -- each chunk affects one page only
      FreeList.flatten.foldl (fun pm x =>
        let P := DecompactPtr x - Base
        if P ≥ ctx1.RoundedSize then pm
        else
          let RegionIndex :=
            if ctx1.NumberOfRegions = 1 then 0 else P / ctx1.RegionSize
          let PInRegion := P - RegionIndex * ctx1.RegionSize
          let pm := pm.inc RegionIndex (ctx1.getPageIndex PInRegion)
          if PInRegion = LastBlockInRegion then markLastBlock pm RegionIndex
          else pm) ctx1.PageMap
    else
      -- chunks may affect more than one page
      FreeList.flatten.foldl (fun pm x =>
        let P := DecompactPtr x - Base
        if P ≥ ctx1.RoundedSize then pm
        else
          let RegionIndex :=
            if ctx1.NumberOfRegions = 1 then 0 else P / ctx1.RegionSize
          let PInRegion := P - RegionIndex * ctx1.RegionSize
          let pm := pm.incRange RegionIndex (ctx1.getPageIndex PInRegion)
            (ctx1.getPageIndex (PInRegion + ctx1.BlockSize - 1))
          if PInRegion = LastBlockInRegion then markLastBlock pm RegionIndex
          else pm) ctx1.PageMap
  { ctx1 with PageMap := pm }

/-! ### The release scan -/

/-- One page of the slow path of releaseFreeMemoryToOS: from the previous
page boundary and the current block boundary cursor, compute BlocksPerPage
for the current page and the advanced block boundary cursor.  Pn and Pnc are
the per-call constants of the source, recomputed here (they only depend on
BlockSize and PageSize). -/
def slowPageCount (BlockSize PageSize PrevPageBoundary CurrentBoundary : Nat) :
    Nat × Nat :=
  let Pn := if BlockSize < PageSize then PageSize / BlockSize else 1
  let Pnc := Pn * BlockSize
  let PageBoundary := PrevPageBoundary + PageSize
  if CurrentBoundary < PageBoundary then
    let BlocksPerPage := if CurrentBoundary > PrevPageBoundary then Pn + 1 else Pn
    let CurrentBoundary := CurrentBoundary + Pnc
    if CurrentBoundary < PageBoundary then
      (BlocksPerPage + 1, CurrentBoundary + BlockSize)
    else
      (BlocksPerPage, CurrentBoundary)
  else (Pn, CurrentBoundary)

/-- releaseFreeMemoryToOS(Context, Recorder, SkipRegion): the release scan.
Returns the context (with the updated page map) and the recorder. -/
def releaseFreeMemoryToOS (Context : PageReleaseContext)
    (Recorder : ReleaseRecorder) (SkipRegion : Nat → Bool) :
    PageReleaseContext × ReleaseRecorder :=
  let PageSize := Context.PageSize
  let BlockSize := Context.BlockSize
  let PagesCount := Context.PagesCount
  let NumberOfRegions := Context.NumberOfRegions
  let ReleasePageOffset := Context.ReleasePageOffset
  let FullPagesBlockCountMax := Context.FullPagesBlockCountMax
  let RangeTracker := FreePagesRangeTracker.mk' Recorder Context.PageSizeLog
  if Context.SameBlockCountPerPage then
    -- fast path: every page has the same number of chunks affecting it
    let s := (List.range NumberOfRegions).foldl
      (fun (s : RegionPageMap × FreePagesRangeTracker) I =>
        if SkipRegion I then (s.1, s.2.skipPages PagesCount)
        else (List.range PagesCount).foldl
          (fun (s : RegionPageMap × FreePagesRangeTracker) J =>
            let u := s.1.updateAsAllCountedIf I J FullPagesBlockCountMax
            (u.2, s.2.processNextPage u.1)) s)
      (Context.PageMap, RangeTracker)
    ({ Context with PageMap := s.1 }, s.2.finish.Recorder)
  else
    -- slow path: count how many chunks affect each page
    let s := (List.range NumberOfRegions).foldl
      (fun (s : RegionPageMap × FreePagesRangeTracker) I =>
        if SkipRegion I then (s.1, s.2.skipPages PagesCount)
        else
          let b0 : Nat × Nat :=
            if ReleasePageOffset > 0 then
              (ReleasePageOffset * PageSize,
               roundUpSlow (ReleasePageOffset * PageSize) BlockSize)
            else (0, 0)
          let t := (List.range PagesCount).foldl
            (fun (t : (Nat × Nat) × RegionPageMap × FreePagesRangeTracker) J =>
              let r := slowPageCount BlockSize PageSize t.1.1 t.1.2
              let u := t.2.1.updateAsAllCountedIf I J r.1
              ((t.1.1 + PageSize, r.2), u.2, t.2.2.processNextPage u.1))
            (b0, s.1, s.2)
          (t.2.1, t.2.2))
      (Context.PageMap, RangeTracker)
    ({ Context with PageMap := s.1 }, s.2.finish.Recorder)

/-- The convenience overload
releaseFreeMemoryToOS(FreeList, RegionSize, NumberOfRegions, BlockSize,
Recorder, DecompactPtr, SkipRegion) of the source, which constructs the
context, marks the free blocks and runs the scan.  The constructor call
mirrors the source argument order exactly: the source passes
(BlockSize, RegionSize, RegionSize, NumberOfRegions), with an inline comment
labelling the second argument ReleaseSize although the second constructor
parameter is RegionSize, so after the model PageSize argument the constructor
receives RegionSize := RegionSize, NumberOfRegions := RegionSize and
ReleaseSize := NumberOfRegions. -/
def releaseFreeMemoryToOSFromFreeList (PageSize : Nat)
    (FreeList : List (List Nat)) (RegionSize NumberOfRegions BlockSize : Nat)
    (Recorder : ReleaseRecorder) (DecompactPtr : Nat → Nat)
    (SkipRegion : Nat → Bool) : PageReleaseContext × ReleaseRecorder :=
  let Context :=
    PageReleaseContext.mk' PageSize BlockSize RegionSize RegionSize
      NumberOfRegions 0
  let Context := Context.markFreeBlocks FreeList DecompactPtr Recorder.Base
  releaseFreeMemoryToOS Context Recorder SkipRegion

/-! ### Specification-side definitions

Everything below is not part of the embedded code: these are the abstractions
and predicates in which the claims are stated and proved. -/

/-- Structural well-formedness of a RegionPageMap as established by reset:
the counter size is 2 ^ CounterSizeBitsLog bits, counters per word is
2 ^ PackingRatioLog, a word holds 64 bits, the masks have their canonical
values, every buffer word is a 64-bit value, and a region owns enough words
for its counters. -/
def RegionPageMap.Inv (s : RegionPageMap) : Prop :=
  s.CounterSizeBitsLog + s.PackingRatioLog = 6 ∧
  s.CounterMask = 2 ^ 2 ^ s.CounterSizeBitsLog - 1 ∧
  s.BitOffsetMask = 2 ^ s.PackingRatioLog - 1 ∧
  (∀ w, s.Buffer w < 2 ^ 64) ∧
  s.NumCounters ≤ s.SizePerRegion * 2 ^ s.PackingRatioLog

/-- Two maps with identical layout fields (everything except the word
buffer); all counter operations preserve the layout. -/
def SameLayout (s t : RegionPageMap) : Prop :=
  t.Regions = s.Regions ∧ t.NumCounters = s.NumCounters ∧
  t.CounterSizeBitsLog = s.CounterSizeBitsLog ∧
  t.CounterMask = s.CounterMask ∧
  t.PackingRatioLog = s.PackingRatioLog ∧
  t.BitOffsetMask = s.BitOffsetMask ∧
  t.SizePerRegion = s.SizePerRegion

/-- The mutating counter operations of RegionPageMap, for stating properties
of arbitrary operation sequences. -/
inductive PageMapOp where
  | inc (Region I : Nat)
  | incN (Region I N : Nat)
  | incRange (Region From To : Nat)
  | setAsAllCounted (Region I : Nat)
  | setAsAllCountedRange (Region From To : Nat)

/-- Apply one operation to the map. -/
def PageMapOp.apply (s : RegionPageMap) : PageMapOp → RegionPageMap
  | .inc R I => s.inc R I
  | .incN R I N => s.incN R I N
  | .incRange R F T => s.incRange R F T
  | .setAsAllCounted R I => s.setAsAllCounted R I
  | .setAsAllCountedRange R F T => s.setAsAllCountedRange R F T

/-- The stated precondition of each operation (the DCHECK contracts of the
source: indices in range, no increment past CounterMask, From ≤ To). -/
def PageMapOp.legal (s : RegionPageMap) : PageMapOp → Bool
  | .inc R I =>
    decide (R < s.Regions) && decide (I < s.NumCounters) &&
    decide (s.get R I < s.CounterMask)
  | .incN R I N =>
    decide (R < s.Regions) && decide (I < s.NumCounters) &&
    decide (0 < N) && decide (N ≤ s.CounterMask) &&
    decide (s.get R I + N ≤ s.CounterMask)
  | .incRange R F T =>
    decide (R < s.Regions) && decide (F ≤ T) &&
    (List.range' F (min (T + 1) s.NumCounters - F)).all
      (fun I => decide (s.get R I < s.CounterMask))
  | .setAsAllCounted R I =>
    decide (R < s.Regions) && decide (I < s.NumCounters)
  | .setAsAllCountedRange R F T =>
    decide (R < s.Regions) && decide (F ≤ T)

/-- A whole sequence of operations is legal when each operation satisfies its
precondition in the state it is applied to. -/
def legalSeq (s : RegionPageMap) : List PageMapOp → Bool
  | [] => true
  | op :: ops => op.legal s && legalSeq (op.apply s) ops

/-- Apply a sequence of operations. -/
def applySeq (s : RegionPageMap) (ops : List PageMapOp) : RegionPageMap :=
  ops.foldl PageMapOp.apply s

/-- The counters an operation is meant to change. -/
def PageMapOp.targets (NumCounters R I : Nat) : PageMapOp → Prop
  | .inc R' I' => R = R' ∧ I = I'
  | .incN R' I' _ => R = R' ∧ I = I'
  | .incRange R' F T => R = R' ∧ F ≤ I ∧ I < min (T + 1) NumCounters
  | .setAsAllCounted R' I' => R = R' ∧ I = I'
  | .setAsAllCountedRange R' F T => R = R' ∧ F ≤ I ∧ I < min (T + 1) NumCounters

/-- Calls on a FreePagesRangeTracker (finish is modelled as the terminal
call, as in the release scan which calls it exactly once at the end). -/
inductive TrackerStep where
  | page (Released : Bool)
  | skipN (N : Nat)

/-- Run a list of tracker calls. -/
def FreePagesRangeTracker.runSteps (rt : FreePagesRangeTracker)
    (steps : List TrackerStep) : FreePagesRangeTracker :=
  steps.foldl
    (fun rt s => match s with
      | .page b => rt.processNextPage b
      | .skipN n => rt.skipPages n) rt

/-- The sequence of page slots a step list walks over: one Bool per page
(skipped pages count as non-released slots). -/
def TrackerStep.bools : TrackerStep → List Bool
  | .page b => [b]
  | .skipN n => List.replicate n false

/-- All page slots of a step list. -/
def stepsBools (steps : List TrackerStep) : List Bool :=
  (steps.map TrackerStep.bools).flatten

/-- Page-level simulator of the tracker with emission annotations: the log
collects ((fromPage, toPage), epoch) per emitted range, where the epoch is
the number of skipPages calls made before the emission. -/
structure RangeSim where
  InRange : Bool
  cur : Nat
  start : Nat
  epoch : Nat
  log : List ((Nat × Nat) × Nat)

/-- Initial simulator state. -/
def RangeSim.init : RangeSim :=
  { InRange := false, cur := 0, start := 0, epoch := 0, log := [] }

/-- Simulator counterpart of closeOpenedRange. -/
def RangeSim.close (s : RangeSim) : RangeSim :=
  if s.InRange then
    { s with log := s.log ++ [((s.start, s.cur), s.epoch)], InRange := false }
  else s

/-- Simulator counterpart of one tracker call. -/
def RangeSim.step (s : RangeSim) : TrackerStep → RangeSim
  | .page b =>
    let s :=
      if b then
        if !s.InRange then { s with start := s.cur, InRange := true } else s
      else s.close
    { s with cur := s.cur + 1 }
  | .skipN n =>
    let s := s.close
    { s with cur := s.cur + n, epoch := s.epoch + 1 }

/-- Run the simulator over a list of tracker calls. -/
def RangeSim.run (s : RangeSim) (steps : List TrackerStep) : RangeSim :=
  steps.foldl RangeSim.step s

/-- Byte range of an annotated page range: pages are turned into byte
offsets by the PageSizeLog shift, the epoch annotation is dropped. -/
def shiftRange (L : Nat) (e : (Nat × Nat) × Nat) : Nat × Nat :=
  (e.1.1 <<< L, e.1.2 <<< L)

/-- Order of two annotated emissions: strictly increasing in from,
non-overlapping, and strictly separated (non-adjacent) when both were
emitted in the same epoch, i.e. with no skipPages call in between. -/
def RangeR (a b : (Nat × Nat) × Nat) : Prop :=
  a.1.1 < b.1.1 ∧ a.1.2 ≤ b.1.1 ∧ (a.2 = b.2 → a.1.2 < b.1.1)

/-- Lower bound for the start page of the next emission. -/
def simBnd (s : RangeSim) : Nat :=
  if s.InRange then s.start else s.cur

/-- Reachability invariant of the annotated simulator. -/
def SimInv (s : RangeSim) : Prop :=
  (∀ e ∈ s.log, e.1.1 < e.1.2) ∧
  List.Pairwise RangeR s.log ∧
  (∀ e ∈ s.log, e.2 ≤ s.epoch) ∧
  (s.InRange = true → s.start < s.cur) ∧
  (∀ e ∈ s.log, e.1.2 ≤ simBnd s ∧ (e.2 = s.epoch → e.1.2 < simBnd s))

/-- Simulation relation between a live tracker (with base recorder r0) and
the annotated page-level simulator. -/
def TrackSim (r0 : ReleaseRecorder) (L : Nat) (rt : FreePagesRangeTracker)
    (s : RangeSim) : Prop :=
  rt.PageSizeLog = L ∧ rt.InRange = s.InRange ∧ rt.CurrentPage = s.cur ∧
  (s.InRange = true → rt.CurrentRangeStatePage = s.start) ∧
  rt.Recorder.released = r0.released ++ s.log.map (shiftRange L)

/-- Page g lies inside one of the released byte ranges of the recorder. -/
def pageCovered (rec : ReleaseRecorder) (PageSize g : Nat) : Prop :=
  ∃ p ∈ rec.released, p.1 ≤ g * PageSize ∧ (g + 1) * PageSize ≤ p.2

instance (rec : ReleaseRecorder) (PageSize g : Nat) :
    Decidable (pageCovered rec PageSize g) := by
  unfold pageCovered; infer_instance

/-- The byte footprint [b * BlockSize, (b+1) * BlockSize) of block b meets
the byte footprint [j * PageSize, (j+1) * PageSize) of page j. -/
def blockIntersectsPage (BlockSize PageSize b j : Nat) : Prop :=
  b * BlockSize < (j + 1) * PageSize ∧ j * PageSize < b * BlockSize + BlockSize

instance (BlockSize PageSize b j : Nat) :
    Decidable (blockIntersectsPage BlockSize PageSize b j) := by
  unfold blockIntersectsPage; infer_instance

/-- Number of block slots (of the infinite pitch-BlockSize grid) whose
footprint meets page j. -/
def numBlocksInPage (BlockSize PageSize j : Nat) : Nat :=
  ((j + 1) * PageSize - 1) / BlockSize + 1 - j * PageSize / BlockSize

/-- Number of pretend-block slots at offsets st, st + BlockSize, ... strictly
below RoundedRegionSize whose page span [st >> log, (st + BlockSize - 1) >> log]
contains page j.  Mirrors the markLastBlock loop of markFreeBlocks. -/
def pretendTouchFuel (BlockSize PageSize RoundedRegionSize : Nat) :
    Nat → Nat → Nat → Nat
  | 0, _, _ => 0
  | fuel + 1, st, j =>
    if 0 < BlockSize ∧ st < RoundedRegionSize then
      (if st / PageSize ≤ j ∧ j ≤ (st + BlockSize - 1) / PageSize then 1
       else 0) +
      pretendTouchFuel BlockSize PageSize RoundedRegionSize fuel
        (st + BlockSize) j
    else 0

def pretendTouch (BlockSize PageSize RoundedRegionSize st j : Nat) : Nat :=
  pretendTouchFuel BlockSize PageSize RoundedRegionSize
    (RoundedRegionSize + 1 - st) st j

/-- Contribution of one listed region offset o to counter (r, j): one if the
block of o lies in region r and meets page j, plus the pretend tail count if
the block of o is the last whole block of its region. -/
def markEntry (BlockSize PageSize RegionSize RoundedRegionSize : Nat)
    (r j o : Nat) : Nat :=
  let L := RegionSize / BlockSize - 1
  if o / RegionSize = r then
    (if blockIntersectsPage BlockSize PageSize (o % RegionSize / BlockSize) j
     then 1 else 0) +
    (if o % RegionSize / BlockSize = L then
      pretendTouch BlockSize PageSize RoundedRegionSize ((L + 1) * BlockSize) j
     else 0)
  else 0

/-- Abstract value of counter (r, j) after marking the free blocks whose
region offsets (address minus Base) are listed in offs: each listed block of
region r that meets page j contributes one, and if the last whole block of
region r is listed the pretend tail blocks contribute as well. -/
def markedCount (BlockSize PageSize RegionSize RoundedRegionSize : Nat)
    (offs : List Nat) (r j : Nat) : Nat :=
  (offs.map
    (markEntry BlockSize PageSize RegionSize RoundedRegionSize r j)).sum

/-- One entry of the markFreeBlocks fold in the multi-page branch
(BlockSize > PageSize or PageSize % BlockSize ≠ 0), with DecompactPtr the
identity and Base = 0, written with explicit geometry arguments. -/
def markStepRange (BlockSize RegionSize NumberOfRegions RoundedRegionSize
    RoundedSize PageSizeLog ReleasePageOffset : Nat) (pm : RegionPageMap)
    (x : Nat) : RegionPageMap :=
  if x ≥ RoundedSize then pm
  else
    let RegionIndex := if NumberOfRegions = 1 then 0 else x / RegionSize
    let PInRegion := x - RegionIndex * RegionSize
    let pm2 := pm.incRange RegionIndex
      (getPageIndexAux PageSizeLog ReleasePageOffset PInRegion)
      (getPageIndexAux PageSizeLog ReleasePageOffset
        (PInRegion + BlockSize - 1))
    if PInRegion = (RegionSize / BlockSize - 1) * BlockSize then
      markLastBlockLoop BlockSize RoundedRegionSize PageSizeLog
        ReleasePageOffset RegionIndex pm2
        ((RegionSize / BlockSize - 1) * BlockSize + BlockSize)
    else pm2

/-- One entry of the markFreeBlocks fold in the one-page branch
(BlockSize ≤ PageSize and PageSize % BlockSize = 0), with DecompactPtr the
identity and Base = 0. -/
def markStepInc (BlockSize RegionSize NumberOfRegions RoundedRegionSize
    RoundedSize PageSizeLog ReleasePageOffset : Nat) (pm : RegionPageMap)
    (x : Nat) : RegionPageMap :=
  if x ≥ RoundedSize then pm
  else
    let RegionIndex := if NumberOfRegions = 1 then 0 else x / RegionSize
    let PInRegion := x - RegionIndex * RegionSize
    let pm2 := pm.inc RegionIndex
      (getPageIndexAux PageSizeLog ReleasePageOffset PInRegion)
    if PInRegion = (RegionSize / BlockSize - 1) * BlockSize then
      markLastBlockLoop BlockSize RoundedRegionSize PageSizeLog
        ReleasePageOffset RegionIndex pm2
        ((RegionSize / BlockSize - 1) * BlockSize + BlockSize)
    else pm2

/-- One region of the release scan, abstracted over the expected per-page
block count M. -/
def scanPages (M : Nat → Nat) (R n : Nat)
    (s : RegionPageMap × FreePagesRangeTracker) :
    RegionPageMap × FreePagesRangeTracker :=
  (List.range n).foldl
    (fun s J =>
      let u := s.1.updateAsAllCountedIf R J (M J)
      (u.2, s.2.processNextPage u.1)) s

/-- The whole release scan, abstracted over the expected per-page block
count. -/
def scanAll (NumberOfRegions PagesCount : Nat) (M : Nat → Nat)
    (SkipRegion : Nat → Bool) (s : RegionPageMap × FreePagesRangeTracker) :
    RegionPageMap × FreePagesRangeTracker :=
  (List.range NumberOfRegions).foldl
    (fun s I =>
      if SkipRegion I then (s.1, s.2.skipPages PagesCount)
      else scanPages M I PagesCount s) s

/-- Initial (PrevPageBoundary, CurrentBoundary) cursor of a slow-path
region. -/
def slowInit (BlockSize PageSize ReleasePageOffset : Nat) : Nat × Nat :=
  if ReleasePageOffset > 0 then
    (ReleasePageOffset * PageSize,
     roundUpSlow (ReleasePageOffset * PageSize) BlockSize)
  else (0, 0)

/-- Boundary cursor advance of one slow-path page. -/
def slowBoundaryStep (BlockSize PageSize : Nat) (st : Nat × Nat) : Nat × Nat :=
  (st.1 + PageSize, (slowPageCount BlockSize PageSize st.1 st.2).2)

/-- Boundary cursor before page j of a slow-path region. -/
def slowBoundaryState (BlockSize PageSize : Nat) (st0 : Nat × Nat) :
    Nat → Nat × Nat
  | 0 => st0
  | j + 1 => slowBoundaryStep BlockSize PageSize
      (slowBoundaryState BlockSize PageSize st0 j)

/-- BlocksPerPage the slow path computes for page j. -/
def slowMaxAt (BlockSize PageSize : Nat) (st0 : Nat × Nat) (j : Nat) : Nat :=
  (slowPageCount BlockSize PageSize
    (slowBoundaryState BlockSize PageSize st0 j).1
    (slowBoundaryState BlockSize PageSize st0 j).2).1

/-- The expected block count the release scan compares counters against, per
page. -/
def pageMaxFun (ctx : PageReleaseContext) : Nat → Nat :=
  if ctx.SameBlockCountPerPage then fun _ => ctx.FullPagesBlockCountMax
  else fun j =>
    slowMaxAt ctx.BlockSize ctx.PageSize
      (slowInit ctx.BlockSize ctx.PageSize ctx.ReleasePageOffset) j

/-- The Bool result of updateAsAllCountedIf without the state change. -/
def canRel (pm : RegionPageMap) (R J M : Nat) : Bool :=
  (pm.updateAsAllCountedIf R J M).1

/-- The page Bools the scan feeds the tracker for one region, read off the
page map state at the start of that region. -/
def regionBools (pm : RegionPageMap) (M : Nat → Nat) (R n : Nat) : List Bool :=
  (List.range n).map (fun j => canRel pm R j (M j))

/-- The tracker call trace of the whole scan, read off the initial page map
(valid because a region scan does not touch the counters of other regions). -/
def scanSteps (pm : RegionPageMap) (NumberOfRegions PagesCount : Nat)
    (M : Nat → Nat) (SkipRegion : Nat → Bool) : List TrackerStep :=
  ((List.range NumberOfRegions).map (fun r =>
    if SkipRegion r then [TrackerStep.skipN PagesCount]
    else (regionBools pm M r PagesCount).map TrackerStep.page)).flatten

/-- Page g lies strictly inside one of the logged page ranges of the
simulator. -/
def simCovered (s : RangeSim) (g : Nat) : Prop :=
  ∃ e ∈ s.log, e.1.1 ≤ g ∧ g + 1 ≤ e.1.2

/-- The whole Released-Bool sequence the scan feeds the tracker (no region
skipped), global page index r * PagesCount + j. -/
def pageBools (pm : RegionPageMap) (NumberOfRegions PagesCount : Nat)
    (M : Nat → Nat) : List Bool :=
  ((List.range NumberOfRegions).map
    (fun r => regionBools pm M r PagesCount)).flatten

/-- A context whose page map has been populated by the marker: the map has
the reset shape and one counter per page of the release window. -/
def Populated (ctx : PageReleaseContext) : Prop :=
  ctx.PageMap.Inv ∧ ctx.PageMap.NumCounters = ctx.PagesCount

/-- The reference pipeline claim C3 describes for the FreeList overload:
construct PageReleaseContext(BlockSize, RegionSize, NumberOfRegions,
ReleaseSize = RegionSize, ReleaseOffset = 0), mark the free blocks, run the
scan. -/
def claimedFreeListRelease (PageSize : Nat) (FreeList : List (List Nat))
    (RegionSize NumberOfRegions BlockSize : Nat) (Recorder : ReleaseRecorder)
    (DecompactPtr : Nat → Nat) (SkipRegion : Nat → Bool) :
    PageReleaseContext × ReleaseRecorder :=
  let Context :=
    PageReleaseContext.mk' PageSize BlockSize RegionSize NumberOfRegions
      RegionSize 0
  let Context := Context.markFreeBlocks FreeList DecompactPtr Recorder.Base
  releaseFreeMemoryToOS Context Recorder SkipRegion

/-! ## Arithmetic groundwork: bit field calculus on packed words -/

theorem three_digit_bound {A B C r x m : Nat} (hr : r < A) (hx : x < B)
    (hm : m < C) : r + A * x + A * B * m < A * B * C := by
  have h1 : r + A * x + 1 ≤ A * B := by
    have h2 : A * (x + 1) ≤ A * B := Nat.mul_le_mul_left A hx
    calc r + A * x + 1 ≤ A + A * x := by omega
    _ = A * (x + 1) := by ring
    _ ≤ A * B := h2
  have h3 : A * B * (m + 1) ≤ A * B * C := Nat.mul_le_mul_left _ hm
  calc r + A * x + A * B * m + 1 ≤ A * B + A * B * m := by omega
  _ = A * B * (m + 1) := by ring
  _ ≤ A * B * C := h3

/-- A field extraction only depends on the word modulo 2 ^ (off + k). -/
theorem mod_pow_div_mod (X off k n : Nat) (h : off + k ≤ n) :
    X % 2 ^ n / 2 ^ off % 2 ^ k = X / 2 ^ off % 2 ^ k := by
  have hq := Nat.div_add_mod X (2 ^ n)
  set q := X / 2 ^ n with hqdef
  set r := X % 2 ^ n with hrdef
  have hX : X = r + 2 ^ off * (2 ^ (n - off) * q) := by
    have : (2 : Nat) ^ n = 2 ^ off * 2 ^ (n - off) := by
      rw [← pow_add]; congr 1; omega
    rw [← hq, this]; ring
  have h1 : X / 2 ^ off = r / 2 ^ off + 2 ^ (n - off) * q := by
    rw [hX, Nat.add_mul_div_left _ _ (Nat.pos_pow_of_pos off (by norm_num))]
  have h2 : (2 : Nat) ^ (n - off) = 2 ^ k * 2 ^ (n - off - k) := by
    rw [← pow_add]; congr 1; omega
  rw [h1, h2]
  rw [show r / 2 ^ off + 2 ^ k * 2 ^ (n - off - k) * q
      = r / 2 ^ off + 2 ^ k * (2 ^ (n - off - k) * q) by ring]
  rw [Nat.add_mul_mod_self_left]

/-- Decomposition of a word into the bits below off, the k-bit field at off,
and the bits above off + k. -/
theorem field_decomp (W off k : Nat) :
    W = W % 2 ^ off + 2 ^ off * (W / 2 ^ off % 2 ^ k)
      + 2 ^ (off + k) * (W / 2 ^ off / 2 ^ k) := by
  have h1 := Nat.div_add_mod W (2 ^ off)
  have h2 := Nat.div_add_mod (W / 2 ^ off) (2 ^ k)
  calc W = 2 ^ off * (W / 2 ^ off) + W % 2 ^ off := h1.symm
  _ = 2 ^ off * (2 ^ k * (W / 2 ^ off / 2 ^ k) + W / 2 ^ off % 2 ^ k)
      + W % 2 ^ off := by rw [h2]
  _ = W % 2 ^ off + 2 ^ off * (W / 2 ^ off % 2 ^ k)
      + 2 ^ (off + k) * (W / 2 ^ off / 2 ^ k) := by rw [pow_add]; ring

theorem field_lt (W off k : Nat) : W / 2 ^ off % 2 ^ k < 2 ^ k :=
  Nat.mod_lt _ (Nat.pos_pow_of_pos k (by norm_num))

/-- Effect of adding d * 2 ^ off to a word whose k-bit field at off has room
for d: no wrap at 2 ^ n, the field at off grows by d, and every k-bit field
at a bit range disjoint from [off, off + k) is unchanged. -/
theorem field_add (W d off k n : Nat) (hW : W < 2 ^ n) (hoff : off + k ≤ n)
    (hfd : W / 2 ^ off % 2 ^ k + d < 2 ^ k) :
    W + d * 2 ^ off < 2 ^ n ∧
    (W + d * 2 ^ off) / 2 ^ off % 2 ^ k = W / 2 ^ off % 2 ^ k + d ∧
    (∀ off2, off2 + k ≤ off →
      (W + d * 2 ^ off) / 2 ^ off2 % 2 ^ k = W / 2 ^ off2 % 2 ^ k) ∧
    (∀ off2, off + k ≤ off2 →
      (W + d * 2 ^ off) / 2 ^ off2 % 2 ^ k = W / 2 ^ off2 % 2 ^ k) := by
  have hpow : ∀ m : Nat, (0 : Nat) < 2 ^ m :=
    fun m => Nat.pos_pow_of_pos m (by norm_num)
  have hhi : W / 2 ^ (off + k) < 2 ^ (n - off - k) := by
    apply (Nat.div_lt_iff_lt_mul (hpow _)).mpr
    calc W < 2 ^ n := hW
    _ = 2 ^ (n - off - k) * 2 ^ (off + k) := by rw [← pow_add]; congr 1; omega
  have hdiv2 : W / 2 ^ off / 2 ^ k = W / 2 ^ (off + k) := by
    rw [Nat.div_div_eq_div_mul, pow_add]
  have hsum : W + d * 2 ^ off
      = W % 2 ^ off + 2 ^ off * (W / 2 ^ off % 2 ^ k + d)
        + 2 ^ off * 2 ^ k * (W / 2 ^ (off + k)) := by
    conv_lhs => rw [field_decomp W off k]
    rw [hdiv2, pow_add]; ring
  have hbound : W + d * 2 ^ off < 2 ^ n := by
    rw [hsum]
    calc W % 2 ^ off + 2 ^ off * (W / 2 ^ off % 2 ^ k + d)
        + 2 ^ off * 2 ^ k * (W / 2 ^ (off + k))
        < 2 ^ off * 2 ^ k * 2 ^ (n - off - k) :=
          three_digit_bound (Nat.mod_lt _ (hpow off)) hfd hhi
    _ = 2 ^ n := by rw [← pow_add, ← pow_add]; congr 1; omega
  refine ⟨hbound, ?_, ?_, ?_⟩
  · -- the field at off grows by d
    rw [hsum,
      show W % 2 ^ off + 2 ^ off * (W / 2 ^ off % 2 ^ k + d)
        + 2 ^ off * 2 ^ k * (W / 2 ^ (off + k))
        = W % 2 ^ off + 2 ^ off *
          ((W / 2 ^ off % 2 ^ k + d) + 2 ^ k * (W / 2 ^ (off + k))) by ring,
      Nat.add_mul_div_left _ _ (hpow off),
      Nat.div_eq_of_lt (Nat.mod_lt _ (hpow off)), Nat.zero_add,
      Nat.add_mul_mod_self_left]
    exact Nat.mod_eq_of_lt hfd
  · -- fields strictly below off are unchanged
    intro off2 h2
    have hdvd : d * 2 ^ off = 2 ^ (off2 + k) * (d * 2 ^ (off - off2 - k)) := by
      have he : (2 : Nat) ^ off = 2 ^ (off2 + k) * 2 ^ (off - off2 - k) := by
        rw [← pow_add]; congr 1; omega
      rw [he]; ring
    rw [← mod_pow_div_mod (W + d * 2 ^ off) off2 k (off2 + k) (le_refl _),
      ← mod_pow_div_mod W off2 k (off2 + k) (le_refl _), hdvd,
      Nat.add_mul_mod_self_left]
  · -- fields strictly above off + k are unchanged
    intro off2 h2
    have hufield : W % 2 ^ off2 / 2 ^ off % 2 ^ k = W / 2 ^ off % 2 ^ k :=
      mod_pow_div_mod W off k off2 h2
    have huhi : W % 2 ^ off2 / 2 ^ off / 2 ^ k < 2 ^ (off2 - off - k) := by
      rw [Nat.div_div_eq_div_mul, ← pow_add]
      apply (Nat.div_lt_iff_lt_mul (hpow _)).mpr
      calc W % 2 ^ off2 < 2 ^ off2 := Nat.mod_lt _ (hpow off2)
      _ = 2 ^ (off2 - off - k) * 2 ^ (off + k) := by
        rw [← pow_add]; congr 1; omega
    have hu : W % 2 ^ off2 + d * 2 ^ off < 2 ^ off2 := by
      have hud : W % 2 ^ off2 + d * 2 ^ off
          = W % 2 ^ off2 % 2 ^ off + 2 ^ off * (W / 2 ^ off % 2 ^ k + d)
            + 2 ^ off * 2 ^ k * (W % 2 ^ off2 / 2 ^ off / 2 ^ k) := by
        conv_lhs => rw [field_decomp (W % 2 ^ off2) off k]
        rw [hufield, pow_add]; ring
      rw [hud]
      calc W % 2 ^ off2 % 2 ^ off + 2 ^ off * (W / 2 ^ off % 2 ^ k + d)
          + 2 ^ off * 2 ^ k * (W % 2 ^ off2 / 2 ^ off / 2 ^ k)
          < 2 ^ off * 2 ^ k * 2 ^ (off2 - off - k) :=
            three_digit_bound (Nat.mod_lt _ (hpow off)) hfd huhi
      _ = 2 ^ off2 := by rw [← pow_add, ← pow_add]; congr 1; omega
    have hdivs : (W + d * 2 ^ off) / 2 ^ off2 = W / 2 ^ off2 := by
      conv_lhs => rw [show W + d * 2 ^ off
        = (W % 2 ^ off2 + d * 2 ^ off) + 2 ^ off2 * (W / 2 ^ off2) by
          have := Nat.div_add_mod W (2 ^ off2); omega]
      rw [Nat.add_mul_div_left _ _ (hpow off2), Nat.div_eq_of_lt hu,
        Nat.zero_add]
    rw [hdivs]

/-- Or distributes over division by a power of two. -/
theorem lor_div_pow (a b n : Nat) :
    (a ||| b) / 2 ^ n = a / 2 ^ n ||| b / 2 ^ n := by
  apply Nat.eq_of_testBit_eq
  intro i
  rw [← Nat.shiftRight_eq_div_pow, ← Nat.shiftRight_eq_div_pow,
    ← Nat.shiftRight_eq_div_pow]
  simp [Nat.testBit_shiftRight, Nat.testBit_or]

/-- Or distributes over reduction modulo a power of two. -/
theorem lor_mod_pow (a b n : Nat) :
    (a ||| b) % 2 ^ n = a % 2 ^ n ||| b % 2 ^ n := by
  apply Nat.eq_of_testBit_eq
  intro i
  simp only [Nat.testBit_mod_two_pow, Nat.testBit_or]
  by_cases hi : i < n <;> simp [hi]

/-- Oring the full k-bit mask into a k-bit value yields the mask. -/
theorem lor_mask_absorb (x k : Nat) (hx : x < 2 ^ k) :
    x ||| (2 ^ k - 1) = 2 ^ k - 1 := by
  apply Nat.eq_of_testBit_eq
  intro i
  simp only [Nat.testBit_or, Nat.testBit_two_pow_sub_one]
  by_cases hi : i < k
  · simp [hi]
  · have : x < 2 ^ i :=
      lt_of_lt_of_le hx (Nat.pow_le_pow_right (by norm_num) (by omega))
    simp [hi, Nat.testBit_eq_false_of_lt this]

/-- Effect of oring m * 2 ^ off (m a k-bit value) into a word: no overflow,
the field at off becomes its or with m, and disjoint fields are unchanged. -/
theorem field_or (W m off k n : Nat) (hW : W < 2 ^ n) (hoff : off + k ≤ n)
    (hm : m < 2 ^ k) :
    (W ||| m * 2 ^ off) < 2 ^ n ∧
    (W ||| m * 2 ^ off) / 2 ^ off % 2 ^ k = (W / 2 ^ off % 2 ^ k) ||| m ∧
    (∀ off2, off2 + k ≤ off →
      (W ||| m * 2 ^ off) / 2 ^ off2 % 2 ^ k = W / 2 ^ off2 % 2 ^ k) ∧
    (∀ off2, off + k ≤ off2 →
      (W ||| m * 2 ^ off) / 2 ^ off2 % 2 ^ k = W / 2 ^ off2 % 2 ^ k) := by
  have hpow : ∀ m2 : Nat, (0 : Nat) < 2 ^ m2 :=
    fun m2 => Nat.pos_pow_of_pos m2 (by norm_num)
  have hb : m * 2 ^ off < 2 ^ n := by
    calc m * 2 ^ off < 2 ^ k * 2 ^ off :=
      Nat.mul_lt_mul_of_lt_of_le hm (le_refl _) (hpow off)
    _ = 2 ^ (off + k) := by rw [← pow_add]; congr 1; omega
    _ ≤ 2 ^ n := Nat.pow_le_pow_right (by norm_num) hoff
  refine ⟨Nat.or_lt_two_pow hW hb, ?_, ?_, ?_⟩
  · rw [lor_div_pow, Nat.mul_div_cancel m (hpow off), lor_mod_pow,
      Nat.mod_eq_of_lt hm]
  · intro off2 h2
    rw [lor_div_pow, lor_mod_pow]
    have : m * 2 ^ off / 2 ^ off2 % 2 ^ k = 0 := by
      rw [show m * 2 ^ off = m * 2 ^ (off - off2) * 2 ^ off2 by
          rw [Nat.mul_assoc, ← pow_add]; congr 2; omega,
        Nat.mul_div_cancel _ (hpow off2),
        show m * 2 ^ (off - off2) = m * 2 ^ (off - off2 - k) * 2 ^ k by
          rw [Nat.mul_assoc, ← pow_add]; congr 2; omega,
        Nat.mul_mod_left]
    rw [this, Nat.or_zero]
  · intro off2 h2
    rw [lor_div_pow]
    have : m * 2 ^ off / 2 ^ off2 = 0 := by
      apply Nat.div_eq_of_lt
      calc m * 2 ^ off < 2 ^ k * 2 ^ off :=
        Nat.mul_lt_mul_of_lt_of_le hm (le_refl _) (hpow off)
      _ = 2 ^ (off + k) := by rw [← pow_add]; congr 1; omega
      _ ≤ 2 ^ off2 := Nat.pow_le_pow_right (by norm_num) h2
    rw [this, Nat.or_zero]

/-! ## Power-of-two helpers and roundUp facts -/

theorem log2Fuel_eq : ∀ (fuel n : Nat), n ≤ fuel → log2Fuel fuel n = Nat.log2 n := by
  intro fuel
  induction fuel with
  | zero =>
    intro n h
    have hn : n = 0 := by omega
    subst hn
    rw [Nat.log2]
    rfl
  | succ fuel ih =>
    intro n h
    show (if n ≥ 2 then log2Fuel fuel (n / 2) + 1 else 0) = Nat.log2 n
    rw [Nat.log2]
    by_cases h2 : n ≥ 2
    · rw [if_pos h2, if_pos h2, ih (n / 2) (by omega)]
    · rw [if_neg h2, if_neg h2]

theorem getLog2_eq (X : Nat) : getLog2 X = Nat.log2 X :=
  log2Fuel_eq X X (le_refl X)

theorem msb_eq_log2 (X : Nat) : getMostSignificantSetBitIndex X = Nat.log2 X :=
  log2Fuel_eq X X (le_refl X)

theorem pow2_of_and_pred : ∀ x, 0 < x → x &&& (x - 1) = 0 → ∃ k, x = 2 ^ k := by
  intro x
  induction x using Nat.strong_induction_on with
  | _ x ih =>
    intro hx h
    rcases Nat.even_or_odd x with he | ho
    · obtain ⟨m, hm⟩ := he
      have hm2 : x = 2 * m := by omega
      have hmpos : 0 < m := by omega
      have hb : m &&& (m - 1) = 0 := by
        apply Nat.eq_of_testBit_eq
        intro i
        have hbit := congrArg (fun y => y.testBit (i + 1)) h
        simp only [Nat.zero_testBit] at hbit
        rw [Nat.testBit_and, Nat.testBit_add_one, Nat.testBit_add_one] at hbit
        have e1 : x / 2 = m := by omega
        have e2 : (x - 1) / 2 = m - 1 := by omega
        rw [e1, e2] at hbit
        simp [Nat.testBit_and, Nat.zero_testBit, hbit]
      obtain ⟨k, hk⟩ := ih m (by omega) hmpos hb
      exact ⟨k + 1, by rw [hm2, hk, pow_succ]; ring⟩
    · by_cases hone : x = 1
      · exact ⟨0, by simp [hone]⟩
      · -- an odd x ≥ 3 cannot pass the test: x and x - 1 share a high bit
        exfalso
        obtain ⟨m, hm⟩ := ho
        have hmpos : m ≠ 0 := by omega
        have hbit : ∃ i, m.testBit i = true := by
          by_contra hc
          push_neg at hc
          exact hmpos (Nat.eq_of_testBit_eq (fun i => by simp [hc i]))
        obtain ⟨j, hj⟩ := hbit
        have hx2 : x / 2 = m := by omega
        have hx12 : (x - 1) / 2 = m := by omega
        have hcontr := congrArg (fun y => y.testBit (j + 1)) h
        simp only [Nat.zero_testBit] at hcontr
        rw [Nat.testBit_and, Nat.testBit_add_one, Nat.testBit_add_one,
          hx2, hx12, hj] at hcontr
        simp at hcontr

theorem roundUpPowerOfTwo_spec (x : Nat) (hx : 0 < x) :
    ∃ k, roundUpPowerOfTwo x = 2 ^ k ∧ x ≤ 2 ^ k ∧
      (∀ n, x ≤ 2 ^ n → 2 ^ k ≤ 2 ^ n) := by
  unfold roundUpPowerOfTwo isPowerOfTwo
  by_cases h : x &&& (x - 1) = 0
  · obtain ⟨k, hk⟩ := pow2_of_and_pred x hx h
    refine ⟨k, by simp [h, hk], le_of_eq hk, ?_⟩
    intro n hn
    rw [hk] at hn
    exact hn
  · have hne : (x &&& (x - 1) == 0) = false := by
      simp [h]
    refine ⟨getMostSignificantSetBitIndex x + 1, by simp [hne, Nat.shiftLeft_eq], ?_, ?_⟩
    · rw [msb_eq_log2]
      exact le_of_lt (Nat.lt_log2_self)
    · intro n hn
      apply Nat.pow_le_pow_right (by norm_num)
      rw [msb_eq_log2]
      have : Nat.log2 x < n := by
        rw [Nat.log2_lt (by omega)]
        rcases Nat.lt_or_ge x (2 ^ n) with hlt | hge
        · exact hlt
        · -- x = 2 ^ n is impossible: x is not a power of two
          have hxeq : x = 2 ^ n := le_antisymm hn hge
          exfalso
          apply h
          rw [hxeq]
          apply Nat.eq_of_testBit_eq
          intro i
          rw [Nat.testBit_and, Nat.testBit_two_pow_sub_one, Nat.zero_testBit]
          rcases Nat.lt_trichotomy i n with hi | hi | hi
          · simp [Nat.testBit_two_pow_of_ne (by omega : n ≠ i)]
          · simp [hi]
          · simp [Nat.testBit_two_pow_of_ne (by omega : n ≠ i), hi]
      exact this

theorem le_roundUp (X B : Nat) (hB : 0 < B) : X ≤ roundUp X B := by
  unfold roundUp
  have h1 := Nat.div_add_mod (X + B - 1) B
  have h2 := Nat.mod_lt (X + B - 1) hB
  rw [Nat.mul_comm]
  omega

theorem roundUp_lt (X B : Nat) (hB : 0 < B) : roundUp X B < X + B := by
  unfold roundUp
  have h1 := Nat.div_add_mod (X + B - 1) B
  rw [Nat.mul_comm]
  omega

theorem roundUp_mod (X B : Nat) : roundUp X B % B = 0 := by
  unfold roundUp
  exact Nat.mul_mod_left _ _

theorem roundUp_div_mul (X B : Nat) (hB : 0 < B) :
    roundUp X B / B * B = roundUp X B := by
  unfold roundUp
  rw [Nat.mul_div_cancel _ hB]

theorem pred_pow_shift (nj j : Nat) : (2 ^ (nj + j) - 1) / 2 ^ nj = 2 ^ j - 1 := by
  have h1 : (0 : Nat) < 2 ^ nj := Nat.pos_pow_of_pos nj (by norm_num)
  have h2 : (0 : Nat) < 2 ^ j := Nat.pos_pow_of_pos j (by norm_num)
  have h3 : 2 ^ nj * (2 ^ j - 1) + 2 ^ nj = 2 ^ nj * 2 ^ j := by
    have hb : 2 ^ j - 1 + 1 = 2 ^ j := by omega
    calc 2 ^ nj * (2 ^ j - 1) + 2 ^ nj = 2 ^ nj * ((2 ^ j - 1) + 1) := by ring
    _ = 2 ^ nj * 2 ^ j := by rw [hb]
  have h : 2 ^ (nj + j) - 1 = (2 ^ nj - 1) + 2 ^ nj * (2 ^ j - 1) := by
    rw [pow_add]
    omega
  rw [h, Nat.add_mul_div_left _ _ h1, Nat.div_eq_of_lt (by omega), Nat.zero_add]

/-! ## RegionPageMap: reset establishes the invariant -/

theorem reset_counterBits (MaxValue : Nat) (hm : 0 < MaxValue)
    (hm64 : MaxValue < 2 ^ 64) :
    ∃ k, k ≤ 6 ∧
      roundUpPowerOfTwo (getMostSignificantSetBitIndex MaxValue + 1) = 2 ^ k ∧
      MaxValue < 2 ^ 2 ^ k := by
  have hlog : Nat.log2 MaxValue < 64 := (Nat.log2_lt (by omega)).mpr hm64
  obtain ⟨k, hk, hle, hmin⟩ :=
    roundUpPowerOfTwo_spec (getMostSignificantSetBitIndex MaxValue + 1)
      (by omega)
  rw [msb_eq_log2] at hle
  refine ⟨k, ?_, hk, ?_⟩
  · -- the argument is at most 64 = 2 ^ 6, so the result is at most 2 ^ 6
    have h64 : getMostSignificantSetBitIndex MaxValue + 1 ≤ 2 ^ 6 := by
      rw [msb_eq_log2]
      norm_num
      omega
    have := hmin 6 h64
    exact (Nat.pow_le_pow_iff_right (by norm_num)).mp this
  · -- MaxValue < 2 ^ (log2 MaxValue + 1) ≤ 2 ^ 2 ^ k
    have h1 : MaxValue < 2 ^ (Nat.log2 MaxValue + 1) := Nat.lt_log2_self
    exact lt_of_lt_of_le h1 (Nat.pow_le_pow_right (by norm_num) hle)

theorem reset_Inv (n c m : Nat) (hm : 0 < m) (hm64 : m < 2 ^ 64) :
    (RegionPageMap.reset n c m).Inv := by
  obtain ⟨k, hk6, hk, hmk⟩ := reset_counterBits m hm hm64
  have h2k : (2 : Nat) ^ k ≤ 64 := by
    calc (2 : Nat) ^ k ≤ 2 ^ 6 := Nat.pow_le_pow_right (by norm_num) hk6
    _ = 64 := by norm_num
  have hlog2k : getLog2 ((2 : Nat) ^ k) = k := by
    rw [getLog2_eq]; exact Nat.log2_two_pow
  have hshift : (64 : Nat) >>> k = 2 ^ (6 - k) := by
    rw [Nat.shiftRight_eq_div_pow]
    have h64 : (64 : Nat) = 2 ^ 6 := by norm_num
    rw [h64, Nat.pow_div hk6 (by norm_num)]
  have hlog2k2 : getLog2 ((2 : Nat) ^ (6 - k)) = 6 - k := by
    rw [getLog2_eq]; exact Nat.log2_two_pow
  have hmaskval : ((2 : Nat) ^ 64 - 1) >>> (64 - 2 ^ k) = 2 ^ 2 ^ k - 1 := by
    calc ((2 : Nat) ^ 64 - 1) >>> (64 - 2 ^ k)
        = ((2 : Nat) ^ ((64 - 2 ^ k) + 2 ^ k) - 1) / 2 ^ (64 - 2 ^ k) := by
          rw [Nat.shiftRight_eq_div_pow,
            show (64 - 2 ^ k) + 2 ^ k = 64 from by omega]
    _ = 2 ^ 2 ^ k - 1 := pred_pow_shift _ _
  unfold RegionPageMap.Inv
  simp only [RegionPageMap.reset, hk, hlog2k, hshift, hlog2k2, hmaskval]
  refine ⟨by omega, by trivial, by trivial,
    fun w => Nat.pos_pow_of_pos 64 (by norm_num), ?_⟩
  -- NumCounters ≤ SizePerRegion * 2 ^ (6 - k)
  have hpr : (0 : Nat) < 2 ^ (6 - k) := Nat.pos_pow_of_pos _ (by norm_num)
  rw [Nat.shiftRight_eq_div_pow, Nat.shiftLeft_eq, Nat.one_mul,
    roundUp_div_mul c _ hpr]
  exact le_roundUp c _ hpr

/-! ## RegionPageMap: characterization of the counter operations -/

theorem RegionPageMap.get_eq (s : RegionPageMap)
    (hmask : s.CounterMask = 2 ^ 2 ^ s.CounterSizeBitsLog - 1)
    (hbom : s.BitOffsetMask = 2 ^ s.PackingRatioLog - 1) (R I : Nat) :
    s.get R I = s.Buffer (R * s.SizePerRegion + I / 2 ^ s.PackingRatioLog)
      / 2 ^ (I % 2 ^ s.PackingRatioLog * 2 ^ s.CounterSizeBitsLog)
      % 2 ^ 2 ^ s.CounterSizeBitsLog := by
  unfold RegionPageMap.get
  rw [hbom, hmask]
  simp only [Nat.shiftRight_eq_div_pow, Nat.shiftLeft_eq,
    Nat.and_pow_two_sub_one_eq_mod]

theorem RegionPageMap.get_le (s : RegionPageMap) (hInv : s.Inv) (R I : Nat) :
    s.get R I ≤ s.CounterMask := by
  rw [s.get_eq hInv.2.1 hInv.2.2.1 R I, hInv.2.1]
  have := Nat.mod_lt (s.Buffer (R * s.SizePerRegion + I / 2 ^ s.PackingRatioLog)
    / 2 ^ (I % 2 ^ s.PackingRatioLog * 2 ^ s.CounterSizeBitsLog))
    (Nat.pos_pow_of_pos (2 ^ s.CounterSizeBitsLog) (show 0 < 2 by norm_num))
  omega

theorem RegionPageMap.off_add_k_le (s : RegionPageMap) (hInv : s.Inv) (I : Nat) :
    I % 2 ^ s.PackingRatioLog * 2 ^ s.CounterSizeBitsLog
      + 2 ^ s.CounterSizeBitsLog ≤ 64 := by
  obtain ⟨h6, _, _, _, _⟩ := hInv
  have hmod : I % 2 ^ s.PackingRatioLog < 2 ^ s.PackingRatioLog :=
    Nat.mod_lt _ (Nat.pos_pow_of_pos _ (by norm_num))
  calc I % 2 ^ s.PackingRatioLog * 2 ^ s.CounterSizeBitsLog
      + 2 ^ s.CounterSizeBitsLog
      = (I % 2 ^ s.PackingRatioLog + 1) * 2 ^ s.CounterSizeBitsLog := by ring
  _ ≤ 2 ^ s.PackingRatioLog * 2 ^ s.CounterSizeBitsLog := by
    apply Nat.mul_le_mul_right
    omega
  _ = 2 ^ (s.PackingRatioLog + s.CounterSizeBitsLog) := by rw [pow_add]
  _ = 64 := by rw [show s.PackingRatioLog + s.CounterSizeBitsLog = 6 by omega]; norm_num

/-- Word indices of two in-range counters agree exactly when region and word
position agree. -/
theorem RegionPageMap.wordIndex_eq_iff (s : RegionPageMap) (hInv : s.Inv)
    {R I R2 I2 : Nat} (hI : I < s.NumCounters) (hI2 : I2 < s.NumCounters) :
    R2 * s.SizePerRegion + I2 / 2 ^ s.PackingRatioLog
      = R * s.SizePerRegion + I / 2 ^ s.PackingRatioLog ↔
    (R2 = R ∧ I2 / 2 ^ s.PackingRatioLog = I / 2 ^ s.PackingRatioLog) := by
  obtain ⟨h6, hmask, hbom, hbuf, hnc⟩ := hInv
  have hprpos : (0 : Nat) < 2 ^ s.PackingRatioLog :=
    Nat.pos_pow_of_pos _ (by norm_num)
  have hdI : I / 2 ^ s.PackingRatioLog < s.SizePerRegion :=
    (Nat.div_lt_iff_lt_mul hprpos).mpr (lt_of_lt_of_le hI hnc)
  have hdI2 : I2 / 2 ^ s.PackingRatioLog < s.SizePerRegion :=
    (Nat.div_lt_iff_lt_mul hprpos).mpr (lt_of_lt_of_le hI2 hnc)
  constructor
  · intro h
    have hspr : 0 < s.SizePerRegion := lt_of_le_of_lt (Nat.zero_le _) hdI2
    have e1 : (R2 * s.SizePerRegion + I2 / 2 ^ s.PackingRatioLog)
        / s.SizePerRegion = R2 := by
      rw [Nat.add_comm, Nat.add_mul_div_right _ _ hspr,
        Nat.div_eq_of_lt hdI2, Nat.zero_add]
    have e2 : (R * s.SizePerRegion + I / 2 ^ s.PackingRatioLog)
        / s.SizePerRegion = R := by
      rw [Nat.add_comm, Nat.add_mul_div_right _ _ hspr,
        Nat.div_eq_of_lt hdI, Nat.zero_add]
    have hR : R2 = R := by rw [← e1, ← e2, h]
    subst hR
    exact ⟨rfl, Nat.add_left_cancel h⟩
  · rintro ⟨rfl, h⟩
    rw [h]

/-- Offsets of two counters in the same word are disjoint bit ranges when the
counters differ. -/
theorem RegionPageMap.off_disjoint (s : RegionPageMap) (hInv : s.Inv)
    {I I2 : Nat} (hdiv : I2 / 2 ^ s.PackingRatioLog = I / 2 ^ s.PackingRatioLog)
    (hne : I2 ≠ I) :
    I2 % 2 ^ s.PackingRatioLog * 2 ^ s.CounterSizeBitsLog
        + 2 ^ s.CounterSizeBitsLog
      ≤ I % 2 ^ s.PackingRatioLog * 2 ^ s.CounterSizeBitsLog ∨
    I % 2 ^ s.PackingRatioLog * 2 ^ s.CounterSizeBitsLog
        + 2 ^ s.CounterSizeBitsLog
      ≤ I2 % 2 ^ s.PackingRatioLog * 2 ^ s.CounterSizeBitsLog := by
  have hprpos : (0 : Nat) < 2 ^ s.PackingRatioLog :=
    Nat.pos_pow_of_pos _ (by norm_num)
  have h1 := Nat.div_add_mod I (2 ^ s.PackingRatioLog)
  have h2 := Nat.div_add_mod I2 (2 ^ s.PackingRatioLog)
  have hmodne : I2 % 2 ^ s.PackingRatioLog ≠ I % 2 ^ s.PackingRatioLog := by
    intro hcon
    apply hne
    calc I2 = 2 ^ s.PackingRatioLog * (I2 / 2 ^ s.PackingRatioLog)
        + I2 % 2 ^ s.PackingRatioLog := (Nat.div_add_mod _ _).symm
    _ = 2 ^ s.PackingRatioLog * (I / 2 ^ s.PackingRatioLog)
        + I % 2 ^ s.PackingRatioLog := by rw [hdiv, hcon]
    _ = I := Nat.div_add_mod _ _
  rcases Nat.lt_or_ge (I2 % 2 ^ s.PackingRatioLog) (I % 2 ^ s.PackingRatioLog)
    with hlt | hge
  · left
    calc I2 % 2 ^ s.PackingRatioLog * 2 ^ s.CounterSizeBitsLog
        + 2 ^ s.CounterSizeBitsLog
        = (I2 % 2 ^ s.PackingRatioLog + 1) * 2 ^ s.CounterSizeBitsLog := by ring
    _ ≤ I % 2 ^ s.PackingRatioLog * 2 ^ s.CounterSizeBitsLog := by
      apply Nat.mul_le_mul_right
      omega
  · right
    have hlt2 : I % 2 ^ s.PackingRatioLog < I2 % 2 ^ s.PackingRatioLog := by
      omega
    calc I % 2 ^ s.PackingRatioLog * 2 ^ s.CounterSizeBitsLog
        + 2 ^ s.CounterSizeBitsLog
        = (I % 2 ^ s.PackingRatioLog + 1) * 2 ^ s.CounterSizeBitsLog := by ring
    _ ≤ I2 % 2 ^ s.PackingRatioLog * 2 ^ s.CounterSizeBitsLog := by
      apply Nat.mul_le_mul_right
      omega

/-- get on a state with one written word, in division form. -/
theorem RegionPageMap.get_writeWord (s : RegionPageMap)
    (hmask : s.CounterMask = 2 ^ 2 ^ s.CounterSizeBitsLog - 1)
    (hbom : s.BitOffsetMask = 2 ^ s.PackingRatioLog - 1) (i v R2 I2 : Nat) :
    (s.writeWord i v).get R2 I2
    = (if R2 * s.SizePerRegion + I2 / 2 ^ s.PackingRatioLog = i then v
       else s.Buffer (R2 * s.SizePerRegion + I2 / 2 ^ s.PackingRatioLog))
      / 2 ^ (I2 % 2 ^ s.PackingRatioLog * 2 ^ s.CounterSizeBitsLog)
      % 2 ^ 2 ^ s.CounterSizeBitsLog := by
  have h0 : (s.writeWord i v).get R2 I2
      = ((if R2 * s.SizePerRegion + I2 >>> s.PackingRatioLog = i then v
          else s.Buffer (R2 * s.SizePerRegion + I2 >>> s.PackingRatioLog))
         >>> ((I2 &&& s.BitOffsetMask) <<< s.CounterSizeBitsLog))
        &&& s.CounterMask := rfl
  rw [h0, hbom, hmask]
  simp only [Nat.shiftRight_eq_div_pow, Nat.shiftLeft_eq,
    Nat.and_pow_two_sub_one_eq_mod]

/-- Effect of the incrementing word update shared by inc and incN: the
counter (R, I) grows by d, every other counter is untouched, the words stay
64-bit values. -/
theorem RegionPageMap.get_addWord (s : RegionPageMap) (hInv : s.Inv)
    (R I d R2 I2 : Nat) (hI : I < s.NumCounters) (hI2 : I2 < s.NumCounters)
    (hroom : s.get R I + d ≤ s.CounterMask) :
    ((s.writeWord (R * s.SizePerRegion + (I >>> s.PackingRatioLog))
      ((s.Buffer (R * s.SizePerRegion + (I >>> s.PackingRatioLog))
        + (d <<< ((I &&& s.BitOffsetMask) <<< s.CounterSizeBitsLog)) % 2 ^ 64)
        % 2 ^ 64)).get R2 I2
    = if R2 = R ∧ I2 = I then s.get R I + d else s.get R2 I2) ∧
    (∀ w, (s.writeWord (R * s.SizePerRegion + (I >>> s.PackingRatioLog))
      ((s.Buffer (R * s.SizePerRegion + (I >>> s.PackingRatioLog))
        + (d <<< ((I &&& s.BitOffsetMask) <<< s.CounterSizeBitsLog)) % 2 ^ 64)
        % 2 ^ 64)).Buffer w < 2 ^ 64) := by
  have hmask := hInv.2.1
  have hbom := hInv.2.2.1
  have hbuf := hInv.2.2.2.1
  have hoff := s.off_add_k_le hInv I
  have hkpos : (0 : Nat) < 2 ^ 2 ^ s.CounterSizeBitsLog :=
    Nat.pos_pow_of_pos _ (by norm_num)
  -- normalize the shift expressions
  have hIdx : I >>> s.PackingRatioLog = I / 2 ^ s.PackingRatioLog :=
    Nat.shiftRight_eq_div_pow I _
  have hOff : (I &&& s.BitOffsetMask) <<< s.CounterSizeBitsLog
      = I % 2 ^ s.PackingRatioLog * 2 ^ s.CounterSizeBitsLog := by
    rw [hbom, Nat.and_pow_two_sub_one_eq_mod, Nat.shiftLeft_eq]
  have hdlt : d < 2 ^ 2 ^ s.CounterSizeBitsLog := by
    have := s.get_le hInv R I
    rw [hmask] at hroom
    omega
  have hShift : (d <<< ((I &&& s.BitOffsetMask) <<< s.CounterSizeBitsLog)) % 2 ^ 64
      = d * 2 ^ (I % 2 ^ s.PackingRatioLog * 2 ^ s.CounterSizeBitsLog) := by
    rw [hOff, Nat.shiftLeft_eq]
    apply Nat.mod_eq_of_lt
    calc d * 2 ^ (I % 2 ^ s.PackingRatioLog * 2 ^ s.CounterSizeBitsLog)
        < 2 ^ 2 ^ s.CounterSizeBitsLog
          * 2 ^ (I % 2 ^ s.PackingRatioLog * 2 ^ s.CounterSizeBitsLog) :=
        (Nat.mul_lt_mul_right (Nat.pos_pow_of_pos _ (by norm_num))).mpr hdlt
    _ = 2 ^ (I % 2 ^ s.PackingRatioLog * 2 ^ s.CounterSizeBitsLog
          + 2 ^ s.CounterSizeBitsLog) := by rw [← pow_add]; ring_nf
    _ ≤ 2 ^ 64 := Nat.pow_le_pow_right (by norm_num) hoff
  -- the field calculus facts
  have hfd : s.Buffer (R * s.SizePerRegion + I / 2 ^ s.PackingRatioLog)
      / 2 ^ (I % 2 ^ s.PackingRatioLog * 2 ^ s.CounterSizeBitsLog)
      % 2 ^ 2 ^ s.CounterSizeBitsLog + d < 2 ^ 2 ^ s.CounterSizeBitsLog := by
    have hg := s.get_eq hmask hbom R I
    rw [hmask] at hroom
    omega
  obtain ⟨hb, hfield, hlow, hhigh⟩ :=
    field_add (s.Buffer (R * s.SizePerRegion + I / 2 ^ s.PackingRatioLog)) d
      (I % 2 ^ s.PackingRatioLog * 2 ^ s.CounterSizeBitsLog)
      (2 ^ s.CounterSizeBitsLog) 64 (hbuf _) hoff hfd
  have hBufEval : ∀ j, (s.writeWord (R * s.SizePerRegion + (I >>> s.PackingRatioLog))
      ((s.Buffer (R * s.SizePerRegion + (I >>> s.PackingRatioLog))
        + (d <<< ((I &&& s.BitOffsetMask) <<< s.CounterSizeBitsLog)) % 2 ^ 64)
        % 2 ^ 64)).Buffer j
      = if j = R * s.SizePerRegion + (I >>> s.PackingRatioLog) then
          (s.Buffer (R * s.SizePerRegion + (I >>> s.PackingRatioLog))
            + (d <<< ((I &&& s.BitOffsetMask) <<< s.CounterSizeBitsLog)) % 2 ^ 64)
            % 2 ^ 64
        else s.Buffer j := fun _ => rfl
  constructor
  · -- the get characterization
    rw [RegionPageMap.get_writeWord s hmask hbom _ _ R2 I2, hIdx, hShift,
      Nat.mod_eq_of_lt hb]
    by_cases hw : R2 * s.SizePerRegion + I2 / 2 ^ s.PackingRatioLog
        = R * s.SizePerRegion + I / 2 ^ s.PackingRatioLog
    · rw [if_pos hw]
      obtain ⟨hReq, hdivEq⟩ := (s.wordIndex_eq_iff hInv hI hI2).mp hw
      by_cases hII : I2 = I
      · rw [hII, hReq, if_pos ⟨rfl, rfl⟩, hfield, s.get_eq hmask hbom R I]
      · have hdisj := s.off_disjoint hInv hdivEq hII
        have hne2 : ¬(R2 = R ∧ I2 = I) := fun hcon => hII hcon.2
        rw [if_neg hne2, s.get_eq hmask hbom R2 I2, hw]
        rcases hdisj with hd1 | hd2
        · exact hlow _ hd1
        · exact hhigh _ hd2
    · rw [if_neg hw, s.get_eq hmask hbom R2 I2]
      have hne2 : ¬(R2 = R ∧ I2 = I) := by
        rintro ⟨rfl, rfl⟩
        exact hw rfl
      rw [if_neg hne2]
  · -- word bound
    intro w
    rw [hBufEval, hIdx, hShift, Nat.mod_eq_of_lt hb]
    by_cases hw : w = R * s.SizePerRegion + I / 2 ^ s.PackingRatioLog
    · rw [if_pos hw]; exact hb
    · rw [if_neg hw]; exact hbuf w

/-- Effect of the setAsAllCounted word update: the counter (R, I) becomes
CounterMask, every other counter is untouched, the words stay 64-bit
values. -/
theorem RegionPageMap.get_orWord (s : RegionPageMap) (hInv : s.Inv)
    (R I R2 I2 : Nat) (hI : I < s.NumCounters) (hI2 : I2 < s.NumCounters) :
    ((s.writeWord (R * s.SizePerRegion + (I >>> s.PackingRatioLog))
      (s.Buffer (R * s.SizePerRegion + (I >>> s.PackingRatioLog))
        ||| (s.CounterMask <<< ((I &&& s.BitOffsetMask) <<< s.CounterSizeBitsLog))
          % 2 ^ 64)).get R2 I2
    = if R2 = R ∧ I2 = I then s.CounterMask else s.get R2 I2) ∧
    (∀ w, (s.writeWord (R * s.SizePerRegion + (I >>> s.PackingRatioLog))
      (s.Buffer (R * s.SizePerRegion + (I >>> s.PackingRatioLog))
        ||| (s.CounterMask <<< ((I &&& s.BitOffsetMask) <<< s.CounterSizeBitsLog))
          % 2 ^ 64)).Buffer w < 2 ^ 64) := by
  have hmask := hInv.2.1
  have hbom := hInv.2.2.1
  have hbuf := hInv.2.2.2.1
  have hoff := s.off_add_k_le hInv I
  have hkpos : (0 : Nat) < 2 ^ 2 ^ s.CounterSizeBitsLog :=
    Nat.pos_pow_of_pos _ (by norm_num)
  have hIdx : I >>> s.PackingRatioLog = I / 2 ^ s.PackingRatioLog :=
    Nat.shiftRight_eq_div_pow I _
  have hOff : (I &&& s.BitOffsetMask) <<< s.CounterSizeBitsLog
      = I % 2 ^ s.PackingRatioLog * 2 ^ s.CounterSizeBitsLog := by
    rw [hbom, Nat.and_pow_two_sub_one_eq_mod, Nat.shiftLeft_eq]
  have hmlt : s.CounterMask < 2 ^ 2 ^ s.CounterSizeBitsLog := by
    rw [hmask]; omega
  have hShift : (s.CounterMask
      <<< ((I &&& s.BitOffsetMask) <<< s.CounterSizeBitsLog)) % 2 ^ 64
      = s.CounterMask
        * 2 ^ (I % 2 ^ s.PackingRatioLog * 2 ^ s.CounterSizeBitsLog) := by
    rw [hOff, Nat.shiftLeft_eq]
    apply Nat.mod_eq_of_lt
    calc s.CounterMask
        * 2 ^ (I % 2 ^ s.PackingRatioLog * 2 ^ s.CounterSizeBitsLog)
        < 2 ^ 2 ^ s.CounterSizeBitsLog
          * 2 ^ (I % 2 ^ s.PackingRatioLog * 2 ^ s.CounterSizeBitsLog) :=
        (Nat.mul_lt_mul_right (Nat.pos_pow_of_pos _ (by norm_num))).mpr hmlt
    _ = 2 ^ (I % 2 ^ s.PackingRatioLog * 2 ^ s.CounterSizeBitsLog
          + 2 ^ s.CounterSizeBitsLog) := by rw [← pow_add]; ring_nf
    _ ≤ 2 ^ 64 := Nat.pow_le_pow_right (by norm_num) hoff
  obtain ⟨hb, hfield, hlow, hhigh⟩ :=
    field_or (s.Buffer (R * s.SizePerRegion + I / 2 ^ s.PackingRatioLog))
      s.CounterMask
      (I % 2 ^ s.PackingRatioLog * 2 ^ s.CounterSizeBitsLog)
      (2 ^ s.CounterSizeBitsLog) 64 (hbuf _) hoff hmlt
  have hBufEval : ∀ j, (s.writeWord (R * s.SizePerRegion + (I >>> s.PackingRatioLog))
      (s.Buffer (R * s.SizePerRegion + (I >>> s.PackingRatioLog))
        ||| (s.CounterMask <<< ((I &&& s.BitOffsetMask) <<< s.CounterSizeBitsLog))
          % 2 ^ 64)).Buffer j
      = if j = R * s.SizePerRegion + (I >>> s.PackingRatioLog) then
          s.Buffer (R * s.SizePerRegion + (I >>> s.PackingRatioLog))
            ||| (s.CounterMask
              <<< ((I &&& s.BitOffsetMask) <<< s.CounterSizeBitsLog)) % 2 ^ 64
        else s.Buffer j := fun _ => rfl
  constructor
  · rw [RegionPageMap.get_writeWord s hmask hbom _ _ R2 I2, hIdx, hShift]
    by_cases hw : R2 * s.SizePerRegion + I2 / 2 ^ s.PackingRatioLog
        = R * s.SizePerRegion + I / 2 ^ s.PackingRatioLog
    · rw [if_pos hw]
      obtain ⟨hReq, hdivEq⟩ := (s.wordIndex_eq_iff hInv hI hI2).mp hw
      by_cases hII : I2 = I
      · rw [hII, hReq, if_pos ⟨rfl, rfl⟩, hfield, hmask]
        exact lor_mask_absorb _ _ (field_lt _ _ _)
      · have hdisj := s.off_disjoint hInv hdivEq hII
        have hne2 : ¬(R2 = R ∧ I2 = I) := fun hcon => hII hcon.2
        rw [if_neg hne2, s.get_eq hmask hbom R2 I2, hw]
        rcases hdisj with hd1 | hd2
        · exact hlow _ hd1
        · exact hhigh _ hd2
    · rw [if_neg hw, s.get_eq hmask hbom R2 I2]
      have hne2 : ¬(R2 = R ∧ I2 = I) := by
        rintro ⟨rfl, rfl⟩
        exact hw rfl
      rw [if_neg hne2]
  · intro w
    rw [hBufEval, hIdx, hShift]
    by_cases hw : w = R * s.SizePerRegion + I / 2 ^ s.PackingRatioLog
    · rw [if_pos hw]; exact hb
    · rw [if_neg hw]; exact hbuf w

/-! ## Layout preservation and the individual operations -/

theorem sameLayout_self (s : RegionPageMap) : SameLayout s s :=
  ⟨rfl, rfl, rfl, rfl, rfl, rfl, rfl⟩

theorem SameLayout.trans {s t u : RegionPageMap} (h1 : SameLayout s t)
    (h2 : SameLayout t u) : SameLayout s u := by
  obtain ⟨a1, a2, a3, a4, a5, a6, a7⟩ := h1
  obtain ⟨b1, b2, b3, b4, b5, b6, b7⟩ := h2
  exact ⟨b1.trans a1, b2.trans a2, b3.trans a3, b4.trans a4, b5.trans a5,
    b6.trans a6, b7.trans a7⟩

theorem SameLayout.inc (s : RegionPageMap) (R I : Nat) :
    SameLayout s (s.inc R I) := ⟨rfl, rfl, rfl, rfl, rfl, rfl, rfl⟩

theorem SameLayout.incN (s : RegionPageMap) (R I N : Nat) :
    SameLayout s (s.incN R I N) := ⟨rfl, rfl, rfl, rfl, rfl, rfl, rfl⟩

theorem SameLayout.setAsAllCounted (s : RegionPageMap) (R I : Nat) :
    SameLayout s (s.setAsAllCounted R I) := ⟨rfl, rfl, rfl, rfl, rfl, rfl, rfl⟩

theorem Inv_of_sameLayout {s t : RegionPageMap} (hInv : s.Inv)
    (hl : SameLayout s t) (hbuf : ∀ w, t.Buffer w < 2 ^ 64) : t.Inv := by
  obtain ⟨h6, hmask, hbom, _, hnc⟩ := hInv
  obtain ⟨a1, a2, a3, a4, a5, a6, a7⟩ := hl
  exact ⟨by rw [a3, a5]; exact h6, by rw [a4, a3]; exact hmask,
    by rw [a6, a5]; exact hbom, hbuf, by rw [a2, a7, a5]; exact hnc⟩

theorem RegionPageMap.get_inc (s : RegionPageMap) (hInv : s.Inv)
    (R I R2 I2 : Nat) (hI : I < s.NumCounters) (hI2 : I2 < s.NumCounters)
    (hlt : s.get R I < s.CounterMask) :
    (s.inc R I).get R2 I2
      = if R2 = R ∧ I2 = I then s.get R I + 1 else s.get R2 I2 :=
  (s.get_addWord hInv R I 1 R2 I2 hI hI2 (by omega)).1

theorem RegionPageMap.inc_Inv (s : RegionPageMap) (hInv : s.Inv) (R I : Nat)
    (hI : I < s.NumCounters) (hlt : s.get R I < s.CounterMask) :
    (s.inc R I).Inv :=
  Inv_of_sameLayout hInv (SameLayout.inc s R I)
    (s.get_addWord hInv R I 1 R I hI hI (by omega)).2

theorem RegionPageMap.get_incN (s : RegionPageMap) (hInv : s.Inv)
    (R I N R2 I2 : Nat) (hI : I < s.NumCounters) (hI2 : I2 < s.NumCounters)
    (hroom : s.get R I + N ≤ s.CounterMask) :
    (s.incN R I N).get R2 I2
      = if R2 = R ∧ I2 = I then s.get R I + N else s.get R2 I2 :=
  (s.get_addWord hInv R I N R2 I2 hI hI2 hroom).1

theorem RegionPageMap.incN_Inv (s : RegionPageMap) (hInv : s.Inv) (R I N : Nat)
    (hI : I < s.NumCounters) (hroom : s.get R I + N ≤ s.CounterMask) :
    (s.incN R I N).Inv :=
  Inv_of_sameLayout hInv (SameLayout.incN s R I N)
    (s.get_addWord hInv R I N R I hI hI hroom).2

theorem RegionPageMap.get_setAsAllCounted (s : RegionPageMap) (hInv : s.Inv)
    (R I R2 I2 : Nat) (hI : I < s.NumCounters) (hI2 : I2 < s.NumCounters) :
    (s.setAsAllCounted R I).get R2 I2
      = if R2 = R ∧ I2 = I then s.CounterMask else s.get R2 I2 :=
  (s.get_orWord hInv R I R2 I2 hI hI2).1

theorem RegionPageMap.setAsAllCounted_Inv (s : RegionPageMap) (hInv : s.Inv)
    (R I : Nat) (hI : I < s.NumCounters) : (s.setAsAllCounted R I).Inv :=
  Inv_of_sameLayout hInv (SameLayout.setAsAllCounted s R I)
    (s.get_orWord hInv R I R I hI hI).2

/-- The inc fold underlying incRange. -/
theorem foldl_inc_spec : ∀ (n : Nat) (s : RegionPageMap) (R F : Nat),
    s.Inv → F + n ≤ s.NumCounters →
    (∀ I, F ≤ I → I < F + n → s.get R I < s.CounterMask) →
    ((List.range' F n).foldl (fun t I => t.inc R I) s).Inv ∧
    SameLayout s ((List.range' F n).foldl (fun t I => t.inc R I) s) ∧
    (∀ R2 I2, I2 < s.NumCounters →
      ((List.range' F n).foldl (fun t I => t.inc R I) s).get R2 I2
      = if R2 = R ∧ F ≤ I2 ∧ I2 < F + n then s.get R2 I2 + 1
        else s.get R2 I2) := by
  intro n
  induction n with
  | zero =>
    intro s R F hInv _ _
    refine ⟨hInv, sameLayout_self s, ?_⟩
    intro R2 I2 _
    rw [if_neg (by omega : ¬(R2 = R ∧ F ≤ I2 ∧ I2 < F + 0)),
      show List.range' F 0 = [] from rfl]
    rfl
  | succ n ih =>
    intro s R F hInv hle hpre
    have hF : F < s.NumCounters := by omega
    have hltF : s.get R F < s.CounterMask := hpre F (le_refl F) (by omega)
    have hInv1 : (s.inc R F).Inv := s.inc_Inv hInv R F hF hltF
    have hlay1 : SameLayout s (s.inc R F) := SameLayout.inc s R F
    have hnc1 : (s.inc R F).NumCounters = s.NumCounters := rfl
    have hget1 : ∀ R2 I2, I2 < s.NumCounters →
        (s.inc R F).get R2 I2
        = if R2 = R ∧ I2 = F then s.get R F + 1 else s.get R2 I2 :=
      fun R2 I2 hI2 => s.get_inc hInv R F R2 I2 hF hI2 hltF
    have hstep : List.range' F (n + 1) = F :: List.range' (F + 1) n := by
      rw [List.range'_succ]
    obtain ⟨ihInv, ihlay, ihget⟩ := ih (s.inc R F) R (F + 1) hInv1
      (by rw [hnc1]; omega)
      (by
        intro I h1 h2
        rw [hget1 R I (by omega), if_neg (by omega : ¬(R = R ∧ I = F))]
        have : (s.inc R F).CounterMask = s.CounterMask := rfl
        rw [this]
        exact hpre I (by omega) (by omega))
    rw [hstep]
    refine ⟨ihInv, hlay1.trans ihlay, ?_⟩
    intro R2 I2 hI2
    rw [show (F :: List.range' (F + 1) n).foldl (fun t I => t.inc R I) s
        = (List.range' (F + 1) n).foldl (fun t I => t.inc R I) (s.inc R F)
        from rfl]
    rw [ihget R2 I2 (by rw [hnc1]; exact hI2), hget1 R2 I2 hI2]
    by_cases hc1 : R2 = R ∧ F + 1 ≤ I2 ∧ I2 < F + 1 + n
    · rw [if_pos hc1, if_neg (by omega : ¬(R2 = R ∧ I2 = F)),
        if_pos (by omega : R2 = R ∧ F ≤ I2 ∧ I2 < F + (n + 1))]
    · rw [if_neg hc1]
      by_cases hc2 : R2 = R ∧ I2 = F
      · rw [if_pos hc2, if_pos (by omega : R2 = R ∧ F ≤ I2 ∧ I2 < F + (n + 1)),
          hc2.1, hc2.2]
      · rw [if_neg hc2,
          if_neg (by omega : ¬(R2 = R ∧ F ≤ I2 ∧ I2 < F + (n + 1)))]


/-- The setAsAllCounted fold underlying setAsAllCountedRange. -/
theorem foldl_set_spec : ∀ (n : Nat) (s : RegionPageMap) (R F : Nat),
    s.Inv → F + n ≤ s.NumCounters →
    ((List.range' F n).foldl (fun t I => t.setAsAllCounted R I) s).Inv ∧
    SameLayout s ((List.range' F n).foldl (fun t I => t.setAsAllCounted R I) s) ∧
    (∀ R2 I2, I2 < s.NumCounters →
      ((List.range' F n).foldl (fun t I => t.setAsAllCounted R I) s).get R2 I2
      = if R2 = R ∧ F ≤ I2 ∧ I2 < F + n then s.CounterMask
        else s.get R2 I2) := by
  intro n
  induction n with
  | zero =>
    intro s R F hInv _
    refine ⟨hInv, sameLayout_self s, ?_⟩
    intro R2 I2 _
    rw [if_neg (by omega : ¬(R2 = R ∧ F ≤ I2 ∧ I2 < F + 0)),
      show List.range' F 0 = [] from rfl]
    rfl
  | succ n ih =>
    intro s R F hInv hle
    have hF : F < s.NumCounters := by omega
    have hInv1 : (s.setAsAllCounted R F).Inv := s.setAsAllCounted_Inv hInv R F hF
    have hlay1 : SameLayout s (s.setAsAllCounted R F) :=
      SameLayout.setAsAllCounted s R F
    have hnc1 : (s.setAsAllCounted R F).NumCounters = s.NumCounters := rfl
    have hcm1 : (s.setAsAllCounted R F).CounterMask = s.CounterMask := rfl
    have hget1 : ∀ R2 I2, I2 < s.NumCounters →
        (s.setAsAllCounted R F).get R2 I2
        = if R2 = R ∧ I2 = F then s.CounterMask else s.get R2 I2 :=
      fun R2 I2 hI2 => s.get_setAsAllCounted hInv R F R2 I2 hF hI2
    have hstep : List.range' F (n + 1) = F :: List.range' (F + 1) n := by
      rw [List.range'_succ]
    obtain ⟨ihInv, ihlay, ihget⟩ := ih (s.setAsAllCounted R F) R (F + 1) hInv1
      (by rw [hnc1]; omega)
    rw [hstep]
    refine ⟨ihInv, hlay1.trans ihlay, ?_⟩
    intro R2 I2 hI2
    rw [show (F :: List.range' (F + 1) n).foldl
          (fun t I => t.setAsAllCounted R I) s
        = (List.range' (F + 1) n).foldl (fun t I => t.setAsAllCounted R I)
          (s.setAsAllCounted R F) from rfl]
    rw [ihget R2 I2 (by rw [hnc1]; exact hI2), hcm1, hget1 R2 I2 hI2]
    by_cases hc1 : R2 = R ∧ F + 1 ≤ I2 ∧ I2 < F + 1 + n
    · rw [if_pos hc1, if_pos (by omega : R2 = R ∧ F ≤ I2 ∧ I2 < F + (n + 1))]
    · rw [if_neg hc1]
      by_cases hc2 : R2 = R ∧ I2 = F
      · rw [if_pos hc2, if_pos (by omega : R2 = R ∧ F ≤ I2 ∧ I2 < F + (n + 1))]
      · rw [if_neg hc2,
          if_neg (by omega : ¬(R2 = R ∧ F ≤ I2 ∧ I2 < F + (n + 1)))]

/-- Characterization of incRange: adds one to exactly the counters of
[From, min(To+1, NumCounters)). -/
theorem RegionPageMap.incRange_spec (s : RegionPageMap) (hInv : s.Inv)
    (R From To : Nat)
    (hpre : ∀ I, From ≤ I → I < min (To + 1) s.NumCounters →
      s.get R I < s.CounterMask) :
    (s.incRange R From To).Inv ∧ SameLayout s (s.incRange R From To) ∧
    (∀ R2 I2, I2 < s.NumCounters →
      (s.incRange R From To).get R2 I2
      = if R2 = R ∧ From ≤ I2 ∧ I2 < min (To + 1) s.NumCounters
        then s.get R2 I2 + 1 else s.get R2 I2) := by
  unfold RegionPageMap.incRange
  dsimp only
  by_cases hFT : From ≤ min (To + 1) s.NumCounters
  · have h1 : From + (min (To + 1) s.NumCounters - From)
        = min (To + 1) s.NumCounters := by omega
    obtain ⟨a, b, c⟩ := foldl_inc_spec (min (To + 1) s.NumCounters - From) s R
      From hInv (by omega) (by rw [h1]; exact hpre)
    refine ⟨a, b, ?_⟩
    intro R2 I2 hI2
    rw [c R2 I2 hI2, h1]
  · have h0 : min (To + 1) s.NumCounters - From = 0 := by omega
    rw [h0]
    refine ⟨hInv, sameLayout_self s, ?_⟩
    intro R2 I2 _
    rw [if_neg (by omega : ¬(R2 = R ∧ From ≤ I2 ∧
        I2 < min (To + 1) s.NumCounters)),
      show List.range' From 0 = [] from rfl]
    rfl

/-- Characterization of setAsAllCountedRange: sets exactly the counters of
[From, min(To+1, NumCounters)) to CounterMask. -/
theorem RegionPageMap.setAsAllCountedRange_spec (s : RegionPageMap)
    (hInv : s.Inv) (R From To : Nat) :
    (s.setAsAllCountedRange R From To).Inv ∧
    SameLayout s (s.setAsAllCountedRange R From To) ∧
    (∀ R2 I2, I2 < s.NumCounters →
      (s.setAsAllCountedRange R From To).get R2 I2
      = if R2 = R ∧ From ≤ I2 ∧ I2 < min (To + 1) s.NumCounters
        then s.CounterMask else s.get R2 I2) := by
  unfold RegionPageMap.setAsAllCountedRange
  dsimp only
  by_cases hFT : From ≤ min (To + 1) s.NumCounters
  · have h1 : From + (min (To + 1) s.NumCounters - From)
        = min (To + 1) s.NumCounters := by omega
    obtain ⟨a, b, c⟩ := foldl_set_spec (min (To + 1) s.NumCounters - From) s R
      From hInv (by omega)
    refine ⟨a, b, ?_⟩
    intro R2 I2 hI2
    rw [c R2 I2 hI2, h1]
  · have h0 : min (To + 1) s.NumCounters - From = 0 := by omega
    rw [h0]
    refine ⟨hInv, sameLayout_self s, ?_⟩
    intro R2 I2 _
    rw [if_neg (by omega : ¬(R2 = R ∧ From ≤ I2 ∧
        I2 < min (To + 1) s.NumCounters)),
      show List.range' From 0 = [] from rfl]
    rfl

/-- Characterization of updateAsAllCountedIf. -/
theorem RegionPageMap.updateAsAllCountedIf_spec (s : RegionPageMap)
    (hInv : s.Inv) (R I MaxCount : Nat) (hI : I < s.NumCounters) :
    ((s.updateAsAllCountedIf R I MaxCount).1 = true ↔
      (s.get R I = s.CounterMask ∨ s.get R I = MaxCount)) ∧
    (s.updateAsAllCountedIf R I MaxCount).2.Inv ∧
    SameLayout s (s.updateAsAllCountedIf R I MaxCount).2 ∧
    (∀ R2 I2, I2 < s.NumCounters →
      (s.updateAsAllCountedIf R I MaxCount).2.get R2 I2
      = if R2 = R ∧ I2 = I ∧ (s.updateAsAllCountedIf R I MaxCount).1 = true
        then s.CounterMask else s.get R2 I2) := by
  unfold RegionPageMap.updateAsAllCountedIf
  by_cases h1 : s.get R I = s.CounterMask
  · rw [if_pos h1]
    refine ⟨by simp [h1], hInv, sameLayout_self s, ?_⟩
    intro R2 I2 hI2
    by_cases hc : R2 = R ∧ I2 = I
    · rw [if_pos (by simp [hc.1, hc.2]), hc.1, hc.2, h1]
    · rw [if_neg (by simp only [not_and]; intro a b; exact absurd ⟨a, b⟩ hc)]
  · rw [if_neg h1]
    by_cases h2 : s.get R I = MaxCount
    · rw [if_pos h2]
      refine ⟨by simp [h1, h2], s.setAsAllCounted_Inv hInv R I hI,
        SameLayout.setAsAllCounted s R I, ?_⟩
      intro R2 I2 hI2
      rw [s.get_setAsAllCounted hInv R I R2 I2 hI hI2]
      by_cases hc : R2 = R ∧ I2 = I
      · rw [if_pos hc, if_pos ⟨hc.1, hc.2, rfl⟩]
      · rw [if_neg hc,
          if_neg (by simp only [not_and]; intro a b; exact absurd ⟨a, b⟩ hc)]
    · rw [if_neg h2]
      refine ⟨by simp [h1, h2], hInv, sameLayout_self s, ?_⟩
      intro R2 I2 hI2
      rw [if_neg (by simp)]

theorem RegionPageMap.get_reset (n c m R I : Nat) :
    (RegionPageMap.reset n c m).get R I = 0 := by
  unfold RegionPageMap.get
  dsimp only
  rw [show (RegionPageMap.reset n c m).Buffer
      (R * (RegionPageMap.reset n c m).SizePerRegion
        + I >>> (RegionPageMap.reset n c m).PackingRatioLog) = 0 from rfl]
  rw [Nat.zero_shiftRight, Nat.zero_and]

/-! ## Legal operation sequences (claim C9 machinery) -/

/-- A single legal operation preserves the invariant and the layout, changes
no counter it does not target, and keeps every counter within the mask. -/
theorem PageMapOp.apply_spec (op : PageMapOp) (s : RegionPageMap)
    (hInv : s.Inv) (hleg : op.legal s = true) :
    (op.apply s).Inv ∧ SameLayout s (op.apply s) ∧
    (∀ R I, I < s.NumCounters → ¬ op.targets s.NumCounters R I →
      (op.apply s).get R I = s.get R I) ∧
    (∀ R I, I < s.NumCounters → (op.apply s).get R I ≤ s.CounterMask) := by
  cases op with
  | inc R0 I0 =>
    simp only [PageMapOp.legal, Bool.and_eq_true, decide_eq_true_eq] at hleg
    obtain ⟨⟨hR0, hI0⟩, hlt⟩ := hleg
    refine ⟨s.inc_Inv hInv R0 I0 hI0 hlt, SameLayout.inc s R0 I0, ?_, ?_⟩
    · intro R I hI htgt
      rw [show PageMapOp.apply s (.inc R0 I0) = s.inc R0 I0 from rfl,
        s.get_inc hInv R0 I0 R I hI0 hI hlt,
        if_neg (by simpa [PageMapOp.targets] using htgt)]
    · intro R I hI
      rw [show PageMapOp.apply s (.inc R0 I0) = s.inc R0 I0 from rfl,
        s.get_inc hInv R0 I0 R I hI0 hI hlt]
      by_cases hc : R = R0 ∧ I = I0
      · rw [if_pos hc]; omega
      · rw [if_neg hc]; exact s.get_le hInv R I
  | incN R0 I0 N =>
    simp only [PageMapOp.legal, Bool.and_eq_true, decide_eq_true_eq] at hleg
    obtain ⟨⟨⟨⟨hR0, hI0⟩, hN⟩, hNm⟩, hroom⟩ := hleg
    refine ⟨s.incN_Inv hInv R0 I0 N hI0 hroom, SameLayout.incN s R0 I0 N, ?_, ?_⟩
    · intro R I hI htgt
      rw [show PageMapOp.apply s (.incN R0 I0 N) = s.incN R0 I0 N from rfl,
        s.get_incN hInv R0 I0 N R I hI0 hI hroom,
        if_neg (by simpa [PageMapOp.targets] using htgt)]
    · intro R I hI
      rw [show PageMapOp.apply s (.incN R0 I0 N) = s.incN R0 I0 N from rfl,
        s.get_incN hInv R0 I0 N R I hI0 hI hroom]
      by_cases hc : R = R0 ∧ I = I0
      · rw [if_pos hc]; omega
      · rw [if_neg hc]; exact s.get_le hInv R I
  | incRange R0 F T =>
    simp only [PageMapOp.legal, Bool.and_eq_true, decide_eq_true_eq,
      List.all_eq_true] at hleg
    obtain ⟨⟨hR0, hFT⟩, hall⟩ := hleg
    have hpre : ∀ I, F ≤ I → I < min (T + 1) s.NumCounters →
        s.get R0 I < s.CounterMask := by
      intro I h1 h2
      have := hall I (by
        rw [List.mem_range'_1]
        omega)
      simpa using this
    obtain ⟨a, b, c⟩ := s.incRange_spec hInv R0 F T hpre
    refine ⟨a, b, ?_, ?_⟩
    · intro R I hI htgt
      rw [show PageMapOp.apply s (.incRange R0 F T) = s.incRange R0 F T from rfl,
        c R I hI, if_neg (by simpa [PageMapOp.targets] using htgt)]
    · intro R I hI
      rw [show PageMapOp.apply s (.incRange R0 F T) = s.incRange R0 F T from rfl,
        c R I hI]
      by_cases hc : R = R0 ∧ F ≤ I ∧ I < min (T + 1) s.NumCounters
      · rw [if_pos hc, hc.1]
        have := hpre I hc.2.1 hc.2.2
        omega
      · rw [if_neg hc]; exact s.get_le hInv R I
  | setAsAllCounted R0 I0 =>
    simp only [PageMapOp.legal, Bool.and_eq_true, decide_eq_true_eq] at hleg
    obtain ⟨hR0, hI0⟩ := hleg
    refine ⟨s.setAsAllCounted_Inv hInv R0 I0 hI0,
      SameLayout.setAsAllCounted s R0 I0, ?_, ?_⟩
    · intro R I hI htgt
      rw [show PageMapOp.apply s (.setAsAllCounted R0 I0)
          = s.setAsAllCounted R0 I0 from rfl,
        s.get_setAsAllCounted hInv R0 I0 R I hI0 hI,
        if_neg (by simpa [PageMapOp.targets] using htgt)]
    · intro R I hI
      rw [show PageMapOp.apply s (.setAsAllCounted R0 I0)
          = s.setAsAllCounted R0 I0 from rfl,
        s.get_setAsAllCounted hInv R0 I0 R I hI0 hI]
      by_cases hc : R = R0 ∧ I = I0
      · rw [if_pos hc]
      · rw [if_neg hc]; exact s.get_le hInv R I
  | setAsAllCountedRange R0 F T =>
    simp only [PageMapOp.legal, Bool.and_eq_true, decide_eq_true_eq] at hleg
    obtain ⟨hR0, hFT⟩ := hleg
    obtain ⟨a, b, c⟩ := s.setAsAllCountedRange_spec hInv R0 F T
    refine ⟨a, b, ?_, ?_⟩
    · intro R I hI htgt
      rw [show PageMapOp.apply s (.setAsAllCountedRange R0 F T)
          = s.setAsAllCountedRange R0 F T from rfl,
        c R I hI, if_neg (by simpa [PageMapOp.targets] using htgt)]
    · intro R I hI
      rw [show PageMapOp.apply s (.setAsAllCountedRange R0 F T)
          = s.setAsAllCountedRange R0 F T from rfl,
        c R I hI]
      by_cases hc : R = R0 ∧ F ≤ I ∧ I < min (T + 1) s.NumCounters
      · rw [if_pos hc]
      · rw [if_neg hc]; exact s.get_le hInv R I

theorem legalSeq_append (s : RegionPageMap) :
    ∀ (pre post : List PageMapOp), legalSeq s (pre ++ post) = true →
    legalSeq s pre = true ∧ legalSeq (applySeq s pre) post = true := by
  intro pre
  induction pre generalizing s with
  | nil =>
    intro post h
    exact ⟨rfl, h⟩
  | cons op pre ih =>
    intro post h
    rw [List.cons_append] at h
    unfold legalSeq at h
    rw [Bool.and_eq_true] at h
    obtain ⟨h1, h2⟩ := h
    obtain ⟨h3, h4⟩ := ih (op.apply s) post h2
    constructor
    · unfold legalSeq
      rw [Bool.and_eq_true]
      exact ⟨h1, h3⟩
    · rw [show applySeq s (op :: pre) = applySeq (op.apply s) pre from rfl]
      exact h4

theorem applySeq_invariant (ops : List PageMapOp) :
    ∀ (s : RegionPageMap), s.Inv → legalSeq s ops = true →
    (applySeq s ops).Inv ∧ SameLayout s (applySeq s ops) := by
  induction ops with
  | nil =>
    intro s hInv _
    exact ⟨hInv, sameLayout_self s⟩
  | cons op ops ih =>
    intro s hInv hleg
    unfold legalSeq at hleg
    rw [Bool.and_eq_true] at hleg
    obtain ⟨h1, h2⟩ := hleg
    obtain ⟨a, b, _, _⟩ := op.apply_spec s hInv h1
    obtain ⟨c, d⟩ := ih (op.apply s) a h2
    exact ⟨c, b.trans d⟩

theorem applySeq_snoc (s : RegionPageMap) (pre : List PageMapOp)
    (op : PageMapOp) :
    applySeq s (pre ++ [op]) = op.apply (applySeq s pre) := by
  unfold applySeq
  rw [List.foldl_append]
  rfl

/-! ## Claims C5, C6, C9 -/

/-- Claim C5: for every valid (Region, I) and every Max in [0, CounterMask],
updateAsAllCountedIf returns true if the counter is CounterMask; otherwise,
if the counter equals Max it sets the counter to CounterMask and returns
true; otherwise it returns false and leaves the counter (indeed the whole
map) unchanged.  Consequently the equality-to-max reading and the explicit
sentinel-set reading agree: the call returns true exactly when the counter is
CounterMask or Max, and in either true case the counter reads CounterMask
afterwards. -/
theorem C5_updateAsAllCountedIf (s : RegionPageMap) (hInv : s.Inv)
    (Region I MaxCount : Nat) (hR : Region < s.Regions)
    (hI : I < s.NumCounters) (hMax : MaxCount ≤ s.CounterMask) :
    (s.get Region I = s.CounterMask →
      (s.updateAsAllCountedIf Region I MaxCount).1 = true ∧
      (s.updateAsAllCountedIf Region I MaxCount).2 = s) ∧
    (s.get Region I ≠ s.CounterMask → s.get Region I = MaxCount →
      (s.updateAsAllCountedIf Region I MaxCount).1 = true ∧
      (s.updateAsAllCountedIf Region I MaxCount).2.get Region I
        = s.CounterMask) ∧
    (s.get Region I ≠ s.CounterMask → s.get Region I ≠ MaxCount →
      (s.updateAsAllCountedIf Region I MaxCount).1 = false ∧
      (s.updateAsAllCountedIf Region I MaxCount).2 = s) ∧
    ((s.updateAsAllCountedIf Region I MaxCount).1 = true ↔
      (s.get Region I = s.CounterMask ∨ s.get Region I = MaxCount)) ∧
    ((s.updateAsAllCountedIf Region I MaxCount).1 = true →
      (s.updateAsAllCountedIf Region I MaxCount).2.get Region I
        = s.CounterMask) := by
  obtain ⟨hiff, hInv2, hlay, hget⟩ :=
    s.updateAsAllCountedIf_spec hInv Region I MaxCount hI
  refine ⟨?_, ?_, ?_, hiff, ?_⟩
  · intro h1
    refine ⟨hiff.mpr (Or.inl h1), ?_⟩
    unfold RegionPageMap.updateAsAllCountedIf
    rw [if_pos h1]
  · intro h1 h2
    have htrue := hiff.mpr (Or.inr h2)
    refine ⟨htrue, ?_⟩
    rw [hget Region I hI, if_pos ⟨rfl, rfl, htrue⟩]
  · intro h1 h2
    have hfalse : (s.updateAsAllCountedIf Region I MaxCount).1 = false := by
      rcases Bool.eq_false_or_eq_true (s.updateAsAllCountedIf Region I MaxCount).1
        with h | h
      · rcases hiff.mp h with h3 | h3
        · exact absurd h3 h1
        · exact absurd h3 h2
      · exact h
    refine ⟨hfalse, ?_⟩
    unfold RegionPageMap.updateAsAllCountedIf
    rw [if_neg h1, if_neg h2]
  · intro htrue
    rw [hget Region I hI, if_pos ⟨rfl, rfl, htrue⟩]

theorem C5_witness :
    ((RegionPageMap.reset 1 4 3).get 0 2 ≠ (RegionPageMap.reset 1 4 3).CounterMask →
      (RegionPageMap.reset 1 4 3).get 0 2 = 0 →
      ((RegionPageMap.reset 1 4 3).updateAsAllCountedIf 0 2 0).1 = true ∧
      ((RegionPageMap.reset 1 4 3).updateAsAllCountedIf 0 2 0).2.get 0 2
        = (RegionPageMap.reset 1 4 3).CounterMask) ∧
    (((RegionPageMap.reset 1 4 3).updateAsAllCountedIf 0 2 0).1 = true ↔
      ((RegionPageMap.reset 1 4 3).get 0 2 = (RegionPageMap.reset 1 4 3).CounterMask ∨
       (RegionPageMap.reset 1 4 3).get 0 2 = 0)) := by
  have h := C5_updateAsAllCountedIf (RegionPageMap.reset 1 4 3)
    (reset_Inv 1 4 3 (by norm_num) (by norm_num)) 0 2 0
    (by decide) (by decide) (by decide)
  exact ⟨h.2.1, h.2.2.2.1⟩

/-- Claim C6: for every Region and From ≤ To, incRange increments by one
exactly the counters with index in [From, min(To+1, CountersPerRegion)) —
inclusive of To but clamped to the counters-per-region bound — and leaves
every other counter unchanged, and setAsAllCountedRange sets exactly that
same index range to CounterMask and leaves every other counter unchanged.
The stated preconditions of the operations hold (counters in the range are
below CounterMask for incRange). -/
theorem C6_incRange_setAsAllCountedRange (s : RegionPageMap) (hInv : s.Inv)
    (Region From To : Nat) (hR : Region < s.Regions) (hFT : From ≤ To)
    (hpre : ∀ I, From ≤ I → I < min (To + 1) s.NumCounters →
      s.get Region I < s.CounterMask) :
    (∀ R2 I2, I2 < s.NumCounters →
      (s.incRange Region From To).get R2 I2
      = if R2 = Region ∧ From ≤ I2 ∧ I2 < min (To + 1) s.NumCounters
        then s.get R2 I2 + 1 else s.get R2 I2) ∧
    (∀ R2 I2, I2 < s.NumCounters →
      (s.setAsAllCountedRange Region From To).get R2 I2
      = if R2 = Region ∧ From ≤ I2 ∧ I2 < min (To + 1) s.NumCounters
        then s.CounterMask else s.get R2 I2) :=
  ⟨(s.incRange_spec hInv Region From To hpre).2.2,
   (s.setAsAllCountedRange_spec hInv Region From To).2.2⟩

theorem C6_witness :
    ((RegionPageMap.reset 2 5 3).incRange 1 1 7).get 1 3
      = (RegionPageMap.reset 2 5 3).get 1 3 + 1 ∧
    ((RegionPageMap.reset 2 5 3).incRange 1 1 7).get 0 3
      = (RegionPageMap.reset 2 5 3).get 0 3 ∧
    ((RegionPageMap.reset 2 5 3).setAsAllCountedRange 1 1 7).get 1 3
      = (RegionPageMap.reset 2 5 3).CounterMask := by
  have h := C6_incRange_setAsAllCountedRange (RegionPageMap.reset 2 5 3)
    (reset_Inv 2 5 3 (by norm_num) (by norm_num)) 1 1 7
    (by decide) (by decide)
    (fun I h1 h2 => by
      rw [RegionPageMap.get_reset]
      decide)
  refine ⟨?_, ?_, ?_⟩
  · rw [h.1 1 3 (by decide), if_pos (by decide)]
  · rw [h.1 0 3 (by decide), if_neg (by decide)]
  · rw [h.2 1 3 (by decide), if_pos (by decide)]

/-- Claim C9: starting from a freshly reset map, after any legal sequence of
inc, incN, incRange, setAsAllCounted and setAsAllCountedRange operations
(each satisfying its stated precondition where applied), every counter reads
a value between 0 and CounterMask at every step, and no operation overflows
into a counter it does not target: a counter not targeted by a step is
unchanged by that step. -/
theorem C9_legal_sequences (n c m : Nat) (hn : 0 < n) (hc : 0 < c)
    (hm : 0 < m) (hm64 : m < 2 ^ 64) (ops : List PageMapOp)
    (hleg : legalSeq (RegionPageMap.reset n c m) ops = true) :
    (∀ pre post, ops = pre ++ post → ∀ R I, R < n → I < c →
      (applySeq (RegionPageMap.reset n c m) pre).get R I
        ≤ (RegionPageMap.reset n c m).CounterMask) ∧
    (∀ pre op post, ops = pre ++ op :: post → ∀ R I, R < n → I < c →
      ¬ op.targets c R I →
      (applySeq (RegionPageMap.reset n c m) (pre ++ [op])).get R I
        = (applySeq (RegionPageMap.reset n c m) pre).get R I) := by
  have hInv0 : (RegionPageMap.reset n c m).Inv :=
    reset_Inv n c m hm hm64
  constructor
  · intro pre post hsplit R I hR hI
    rw [hsplit] at hleg
    obtain ⟨hpre, _⟩ := legalSeq_append _ pre post hleg
    obtain ⟨hInvP, hlayP⟩ := applySeq_invariant pre _ hInv0 hpre
    have := (applySeq (RegionPageMap.reset n c m) pre).get_le hInvP R I
    rw [hlayP.2.2.2.1] at this
    exact this
  · intro pre op post hsplit R I hR hI htgt
    rw [hsplit] at hleg
    have hsplit2 : pre ++ op :: post = (pre ++ [op]) ++ post := by
      rw [List.append_assoc]
      rfl
    rw [hsplit2] at hleg
    obtain ⟨hpreop, _⟩ := legalSeq_append _ (pre ++ [op]) post hleg
    obtain ⟨hpre, hop⟩ := legalSeq_append _ pre [op] hpreop
    obtain ⟨hInvP, hlayP⟩ := applySeq_invariant pre _ hInv0 hpre
    have hlegop : op.legal (applySeq (RegionPageMap.reset n c m) pre) = true := by
      unfold legalSeq at hop
      rw [Bool.and_eq_true] at hop
      exact hop.1
    obtain ⟨_, _, huntouched, _⟩ := op.apply_spec _ hInvP hlegop
    rw [applySeq_snoc]
    have hncP : (applySeq (RegionPageMap.reset n c m) pre).NumCounters = c :=
      hlayP.2.1
    exact huntouched R I (by rw [hncP]; exact hI) (by rw [hncP]; exact htgt)

theorem C9_witness :
    (applySeq (RegionPageMap.reset 1 4 3) [PageMapOp.inc 0 0]).get 0 0
      ≤ (RegionPageMap.reset 1 4 3).CounterMask ∧
    (applySeq (RegionPageMap.reset 1 4 3)
        ([PageMapOp.inc 0 0] ++ [PageMapOp.incRange 0 1 3])).get 0 0
      = (applySeq (RegionPageMap.reset 1 4 3) [PageMapOp.inc 0 0]).get 0 0 := by
  have h := C9_legal_sequences 1 4 3 (by norm_num) (by norm_num) (by norm_num)
    (by norm_num)
    [PageMapOp.inc 0 0, PageMapOp.incRange 0 1 3,
     PageMapOp.setAsAllCountedRange 0 0 1, PageMapOp.incN 0 2 1]
    (by decide)
  refine ⟨?_, ?_⟩
  · exact h.1 [PageMapOp.inc 0 0]
      [PageMapOp.incRange 0 1 3, PageMapOp.setAsAllCountedRange 0 0 1,
       PageMapOp.incN 0 2 1] rfl 0 0 (by norm_num) (by norm_num)
  · exact h.2 [PageMapOp.inc 0 0] (PageMapOp.incRange 0 1 3)
      [PageMapOp.setAsAllCountedRange 0 0 1, PageMapOp.incN 0 2 1] rfl 0 0
      (by norm_num) (by norm_num)
      (by
        simp only [PageMapOp.targets]
        omega)

/-! ## Recorder accounting -/

theorem applyCalls_cons (r : ReleaseRecorder) (p : Nat × Nat)
    (calls : List (Nat × Nat)) :
    applyCalls r (p :: calls) =
      applyCalls (r.releasePageRangeToOS p.1 p.2) calls := rfl

theorem applyCalls_bytes : ∀ (calls : List (Nat × Nat)) (r : ReleaseRecorder),
    (applyCalls r calls).ReleasedBytes =
      r.ReleasedBytes + (calls.map (fun p => p.2 - p.1)).sum := by
  intro calls
  induction calls with
  | nil => intro r; simp [applyCalls]
  | cons p calls ih =>
    intro r
    rw [applyCalls_cons, ih]
    simp [ReleaseRecorder.releasePageRangeToOS]
    omega

theorem applyCalls_count : ∀ (calls : List (Nat × Nat)) (r : ReleaseRecorder),
    (applyCalls r calls).ReleasedRangesCount =
      r.ReleasedRangesCount + calls.length := by
  intro calls
  induction calls with
  | nil => intro r; simp [applyCalls]
  | cons p calls ih =>
    intro r
    rw [applyCalls_cons, ih]
    simp [ReleaseRecorder.releasePageRangeToOS]
    omega

theorem applyCalls_append (r : ReleaseRecorder) (l1 l2 : List (Nat × Nat)) :
    applyCalls r (l1 ++ l2) = applyCalls (applyCalls r l1) l2 :=
  List.foldl_append ..

/-- C8: after any finite sequence of releasePageRangeToOS(from, to) calls with
from ≤ to on a fresh ReleaseRecorder, the byte counter equals the sum of the
range lengths to - from, the range counter equals the number of calls, and
both counters are monotonically non-decreasing along the call sequence. -/
theorem C8_recorder_accounting (Base : Nat) (calls : List (Nat × Nat))
    (hft : ∀ p ∈ calls, p.1 ≤ p.2) :
    (applyCalls (ReleaseRecorder.mk' Base) calls).ReleasedBytes
      = (calls.map (fun p => p.2 - p.1)).sum ∧
    (applyCalls (ReleaseRecorder.mk' Base) calls).ReleasedRangesCount
      = calls.length ∧
    (∀ l1 l2, calls = l1 ++ l2 →
      (applyCalls (ReleaseRecorder.mk' Base) l1).ReleasedBytes
        ≤ (applyCalls (ReleaseRecorder.mk' Base) calls).ReleasedBytes ∧
      (applyCalls (ReleaseRecorder.mk' Base) l1).ReleasedRangesCount
        ≤ (applyCalls (ReleaseRecorder.mk' Base) calls).ReleasedRangesCount) := by
  refine ⟨?_, ?_, ?_⟩
  · rw [applyCalls_bytes]
    simp [ReleaseRecorder.mk']
  · rw [applyCalls_count]
    simp [ReleaseRecorder.mk']
  · intro l1 l2 hsplit
    subst hsplit
    rw [applyCalls_append]
    constructor
    · rw [applyCalls_bytes l2]
      omega
    · rw [applyCalls_count l2]
      omega

theorem C8_witness :
    (∀ p ∈ [((0 : Nat), (5 : Nat)), (7, 9)], p.1 ≤ p.2) ∧
    (applyCalls (ReleaseRecorder.mk' 0) [(0, 5), (7, 9)]).ReleasedBytes = 7 ∧
    (applyCalls (ReleaseRecorder.mk' 0) [(0, 5), (7, 9)]).ReleasedRangesCount
      = 2 := by
  have h := C8_recorder_accounting 0 [(0, 5), (7, 9)] (by decide)
  exact ⟨by decide, by simpa using h.1, by simpa using h.2.1⟩

/-! ## Geometry classification (constructor) -/

/-- C2: for every BlockSize ≥ 1 and power-of-two PageSize, the
PageReleaseContext constructor sets (FullPagesBlockCountMax,
SameBlockCountPerPage) per the classification table: (PageSize/BlockSize,
same) when BlockSize ≤ PageSize divides PageSize; (PageSize/BlockSize + 1,
same) when BlockSize ≤ PageSize and BlockSize mod (PageSize mod BlockSize)
= 0; (PageSize/BlockSize + 2, not same) for the remaining
BlockSize ≤ PageSize cases; (1, same) when BlockSize > PageSize is a
multiple of PageSize; (2, not same) otherwise. -/
theorem C2_geometry (PageSize BlockSize RegionSize NumberOfRegions
    ReleaseSize ReleaseOffset : Nat) (hB : 1 ≤ BlockSize)
    (hP : isPowerOfTwo PageSize = true) (hP0 : 0 < PageSize) :
    (BlockSize ≤ PageSize → PageSize % BlockSize = 0 →
      (PageReleaseContext.mk' PageSize BlockSize RegionSize NumberOfRegions
        ReleaseSize ReleaseOffset).FullPagesBlockCountMax
        = PageSize / BlockSize ∧
      (PageReleaseContext.mk' PageSize BlockSize RegionSize NumberOfRegions
        ReleaseSize ReleaseOffset).SameBlockCountPerPage = true) ∧
    (BlockSize ≤ PageSize → BlockSize % (PageSize % BlockSize) = 0 →
      (PageReleaseContext.mk' PageSize BlockSize RegionSize NumberOfRegions
        ReleaseSize ReleaseOffset).FullPagesBlockCountMax
        = PageSize / BlockSize + 1 ∧
      (PageReleaseContext.mk' PageSize BlockSize RegionSize NumberOfRegions
        ReleaseSize ReleaseOffset).SameBlockCountPerPage = true) ∧
    (BlockSize ≤ PageSize → PageSize % BlockSize ≠ 0 →
      BlockSize % (PageSize % BlockSize) ≠ 0 →
      (PageReleaseContext.mk' PageSize BlockSize RegionSize NumberOfRegions
        ReleaseSize ReleaseOffset).FullPagesBlockCountMax
        = PageSize / BlockSize + 2 ∧
      (PageReleaseContext.mk' PageSize BlockSize RegionSize NumberOfRegions
        ReleaseSize ReleaseOffset).SameBlockCountPerPage = false) ∧
    (PageSize < BlockSize → BlockSize % PageSize = 0 →
      (PageReleaseContext.mk' PageSize BlockSize RegionSize NumberOfRegions
        ReleaseSize ReleaseOffset).FullPagesBlockCountMax = 1 ∧
      (PageReleaseContext.mk' PageSize BlockSize RegionSize NumberOfRegions
        ReleaseSize ReleaseOffset).SameBlockCountPerPage = true) ∧
    (PageSize < BlockSize → BlockSize % PageSize ≠ 0 →
      (PageReleaseContext.mk' PageSize BlockSize RegionSize NumberOfRegions
        ReleaseSize ReleaseOffset).FullPagesBlockCountMax = 2 ∧
      (PageReleaseContext.mk' PageSize BlockSize RegionSize NumberOfRegions
        ReleaseSize ReleaseOffset).SameBlockCountPerPage = false) := by
  refine ⟨?_, ?_, ?_, ?_, ?_⟩
  · intro h1 h2
    simp only [PageReleaseContext.mk']
    rw [if_pos h1, if_pos h2]
    exact ⟨rfl, rfl⟩
  · intro h1 h2
    have hne : PageSize % BlockSize ≠ 0 := by
      intro h0
      rw [h0, Nat.mod_zero] at h2
      omega
    simp only [PageReleaseContext.mk']
    rw [if_pos h1, if_neg hne, if_pos h2]
    exact ⟨rfl, rfl⟩
  · intro h1 h2 h3
    simp only [PageReleaseContext.mk']
    rw [if_pos h1, if_neg h2, if_neg h3]
    exact ⟨rfl, rfl⟩
  · intro h1 h2
    simp only [PageReleaseContext.mk']
    rw [if_neg (by omega), if_pos h2]
    exact ⟨rfl, rfl⟩
  · intro h1 h2
    simp only [PageReleaseContext.mk']
    rw [if_neg (by omega), if_neg h2]
    exact ⟨rfl, rfl⟩

theorem C2_witness :
    ((1 : Nat) ≤ 48 ∧ isPowerOfTwo 4096 = true ∧ (0 : Nat) < 4096) ∧
    (PageReleaseContext.mk' 4096 48 1048576 2 1048576
      0).FullPagesBlockCountMax = 86 ∧
    (PageReleaseContext.mk' 4096 48 1048576 2 1048576
      0).SameBlockCountPerPage = true := by
  have h := C2_geometry 4096 48 1048576 2 1048576 0 (by decide) (by decide)
    (by decide)
  have h2 := h.2.1 (by decide) (by decide)
  exact ⟨⟨by decide, by decide, by decide⟩, by simpa using h2.1, h2.2⟩

/-! ## Tracker range invariants -/

theorem RangeSim.step_page_false (s : RangeSim) :
    s.step (.page false) = { s.close with cur := s.close.cur + 1 } := rfl

theorem RangeSim.step_page_true_out (s : RangeSim) (h : s.InRange = false) :
    s.step (.page true)
      = { s with start := s.cur, InRange := true, cur := s.cur + 1 } := by
  simp [RangeSim.step, h]

theorem RangeSim.step_page_true_in (s : RangeSim) (h : s.InRange = true) :
    s.step (.page true) = { s with cur := s.cur + 1 } := by
  simp [RangeSim.step, h]

theorem RangeSim.step_skip (s : RangeSim) (n : Nat) :
    s.step (.skipN n)
      = { s.close with
          cur := s.close.cur + n
          epoch := s.close.epoch + 1 } := rfl

theorem RangeSim.close_facts {s : RangeSim} (h : SimInv s) :
    (∀ e ∈ s.close.log, e.1.1 < e.1.2) ∧
    List.Pairwise RangeR s.close.log ∧
    (∀ e ∈ s.close.log, e.2 ≤ s.epoch) ∧
    (∀ e ∈ s.close.log, e.1.2 ≤ s.cur) ∧
    s.close.InRange = false ∧ s.close.cur = s.cur ∧
    s.close.epoch = s.epoch ∧ s.close.start = s.start := by
  obtain ⟨h1, h2, h3, h4, h5⟩ := h
  by_cases hin : s.InRange = true
  · have hsc : s.close = { s with
        log := s.log ++ [((s.start, s.cur), s.epoch)], InRange := false } := by
      simp [RangeSim.close, hin]
    have hbnd : simBnd s = s.start := by simp [simBnd, hin]
    rw [hbnd] at h5
    have hsltc : s.start < s.cur := h4 hin
    rw [hsc]
    refine ⟨?_, ?_, ?_, ?_, rfl, rfl, rfl, rfl⟩
    · intro e he
      rcases List.mem_append.mp he with he | he
      · exact h1 e he
      · rw [List.mem_singleton] at he
        subst he
        exact hsltc
    · rw [List.pairwise_append]
      refine ⟨h2, List.pairwise_singleton _ _, ?_⟩
      intro a ha b hb
      rw [List.mem_singleton] at hb
      subst hb
      refine ⟨lt_of_lt_of_le (h1 a ha) (h5 a ha).1, (h5 a ha).1, ?_⟩
      intro hep
      exact (h5 a ha).2 hep
    · intro e he
      rcases List.mem_append.mp he with he | he
      · exact h3 e he
      · rw [List.mem_singleton] at he
        subst he
        exact le_refl _
    · intro e he
      rcases List.mem_append.mp he with he | he
      · exact le_of_lt (lt_of_le_of_lt (h5 e he).1 hsltc)
      · rw [List.mem_singleton] at he
        subst he
        exact le_refl _
  · have hin' : s.InRange = false := by
      rcases Bool.eq_false_or_eq_true s.InRange with h | h
      · exact absurd h hin
      · exact h
    have hsc : s.close = s := by simp [RangeSim.close, hin']
    have hbnd : simBnd s = s.cur := by simp [simBnd, hin']
    rw [hbnd] at h5
    rw [hsc]
    exact ⟨h1, h2, h3, fun e he => (h5 e he).1, hin', rfl, rfl, rfl⟩

theorem SimInv.step {s : RangeSim} (h : SimInv s) (st : TrackerStep) :
    SimInv (s.step st) := by
  obtain ⟨c1, c2, c3, c4, c5, c6, c7, c8⟩ := RangeSim.close_facts h
  cases st with
  | page b =>
    cases b with
    | false =>
      rw [RangeSim.step_page_false]
      refine ⟨c1, c2, ?_, ?_, ?_⟩
      · intro e he
        rw [c7]
        exact c3 e he
      · intro hfalse
        have h' : s.close.InRange = true := hfalse
        rw [c5] at h'
        exact absurd h' (by decide)
      · intro e he
        have hb : simBnd { s.close with cur := s.close.cur + 1 }
            = s.cur + 1 := by
          simp [simBnd, c5, c6]
        rw [hb]
        have := c4 e he
        exact ⟨by omega, fun _ => by omega⟩
    | true =>
      obtain ⟨h1, h2, h3, h4, h5⟩ := h
      by_cases hin : s.InRange = true
      · rw [RangeSim.step_page_true_in s hin]
        refine ⟨h1, h2, h3, ?_, ?_⟩
        · intro _
          have hd := h4 hin
          show s.start < s.cur + 1
          omega
        · intro e he
          have hb : simBnd { s with cur := s.cur + 1 } = simBnd s := by
            simp [simBnd, hin]
          rw [hb]
          exact h5 e he
      · have hin' : s.InRange = false := by
          rcases Bool.eq_false_or_eq_true s.InRange with h' | h'
          · exact absurd h' hin
          · exact h'
        rw [RangeSim.step_page_true_out s hin']
        refine ⟨h1, h2, h3, ?_, ?_⟩
        · intro _
          show s.cur < s.cur + 1
          omega
        · intro e he
          have hb : simBnd { s with
              start := s.cur, InRange := true, cur := s.cur + 1 }
              = s.cur := by
            simp [simBnd]
          have hb0 : simBnd s = s.cur := by simp [simBnd, hin']
          rw [hb]
          rw [hb0] at h5
          exact h5 e he
  | skipN n =>
    rw [RangeSim.step_skip]
    refine ⟨c1, c2, ?_, ?_, ?_⟩
    · intro e he
      have h3 := c3 e he
      show e.2 ≤ s.close.epoch + 1
      rw [c7]
      omega
    · intro hfalse
      have h' : s.close.InRange = true := hfalse
      rw [c5] at h'
      exact absurd h' (by decide)
    · intro e he
      have hb : simBnd { s.close with
          cur := s.close.cur + n
          epoch := s.close.epoch + 1 } = s.cur + n := by
        simp [simBnd, c5, c6]
      rw [hb]
      have h4 := c4 e he
      have h3 := c3 e he
      refine ⟨by omega, ?_⟩
      intro hep
      have hep' : e.2 = s.close.epoch + 1 := hep
      rw [c7] at hep'
      omega

theorem simInv_run {s : RangeSim} (h : SimInv s) :
    ∀ steps : List TrackerStep, SimInv (s.run steps) := by
  intro steps
  induction steps generalizing s with
  | nil => exact h
  | cons st steps ih =>
    exact ih (SimInv.step h st)

theorem simInv_init : SimInv RangeSim.init := by
  refine ⟨?_, ?_, ?_, ?_, ?_⟩ <;>
    simp [RangeSim.init, simBnd]

theorem TrackSim.close {r0 : ReleaseRecorder} {L : Nat}
    {rt : FreePagesRangeTracker} {s : RangeSim} (h : TrackSim r0 L rt s) :
    TrackSim r0 L rt.closeOpenedRange s.close := by
  obtain ⟨h1, h2, h3, h4, h5⟩ := h
  by_cases hin : s.InRange = true
  · have hrt : rt.InRange = true := by rw [h2, hin]
    have hsc : s.close = { s with
        log := s.log ++ [((s.start, s.cur), s.epoch)], InRange := false } := by
      simp [RangeSim.close, hin]
    have hrc : rt.closeOpenedRange = { rt with
        Recorder := rt.Recorder.releasePageRangeToOS
          (rt.CurrentRangeStatePage <<< rt.PageSizeLog)
          (rt.CurrentPage <<< rt.PageSizeLog)
        InRange := false } := by
      simp [FreePagesRangeTracker.closeOpenedRange, hrt]
    rw [hsc, hrc]
    refine ⟨h1, by simp, h3, by simp, ?_⟩
    simp only [ReleaseRecorder.releasePageRangeToOS, List.map_append,
      List.map_cons, List.map_nil]
    rw [h5, h4 hin, h3, h1, List.append_assoc]
    rfl
  · have hin' : s.InRange = false := by
      rcases Bool.eq_false_or_eq_true s.InRange with h' | h'
      · exact absurd h' hin
      · exact h'
    have hrt : rt.InRange = false := by rw [h2, hin']
    have hsc : s.close = s := by simp [RangeSim.close, hin']
    have hrc : rt.closeOpenedRange = rt := by
      simp [FreePagesRangeTracker.closeOpenedRange, hrt]
    rw [hsc, hrc]
    exact ⟨h1, h2, h3, h4, h5⟩

theorem TrackSim.stepPage {r0 : ReleaseRecorder} {L : Nat}
    {rt : FreePagesRangeTracker} {s : RangeSim} (h : TrackSim r0 L rt s)
    (b : Bool) :
    TrackSim r0 L (rt.processNextPage b) (s.step (.page b)) := by
  cases b with
  | false =>
    obtain ⟨h1, h2, h3, h4, h5⟩ := TrackSim.close h
    have hrp : rt.processNextPage false = { rt.closeOpenedRange with
        CurrentPage := rt.closeOpenedRange.CurrentPage + 1 } := by
      simp [FreePagesRangeTracker.processNextPage]
    rw [RangeSim.step_page_false, hrp]
    exact ⟨h1, h2, by simp [h3], h4, h5⟩
  | true =>
    obtain ⟨h1, h2, h3, h4, h5⟩ := h
    by_cases hin : s.InRange = true
    · have hrt : rt.InRange = true := by rw [h2, hin]
      have hrp : rt.processNextPage true = { rt with
          CurrentPage := rt.CurrentPage + 1 } := by
        simp [FreePagesRangeTracker.processNextPage, hrt]
      rw [RangeSim.step_page_true_in s hin, hrp]
      exact ⟨h1, by simp [h2], by simp [h3], by simp [h4 hin], h5⟩
    · have hin' : s.InRange = false := by
        rcases Bool.eq_false_or_eq_true s.InRange with h' | h'
        · exact absurd h' hin
        · exact h'
      have hrt : rt.InRange = false := by rw [h2, hin']
      have hrp : rt.processNextPage true = { rt with
          CurrentRangeStatePage := rt.CurrentPage
          InRange := true
          CurrentPage := rt.CurrentPage + 1 } := by
        simp [FreePagesRangeTracker.processNextPage, hrt]
      rw [RangeSim.step_page_true_out s hin', hrp]
      exact ⟨h1, by simp, by simp [h3], by simp [h3], h5⟩

theorem TrackSim.stepSkip {r0 : ReleaseRecorder} {L : Nat}
    {rt : FreePagesRangeTracker} {s : RangeSim} (h : TrackSim r0 L rt s)
    (n : Nat) :
    TrackSim r0 L (rt.skipPages n) (s.step (.skipN n)) := by
  obtain ⟨h1, h2, h3, h4, h5⟩ := TrackSim.close h
  have hrp : rt.skipPages n = { rt.closeOpenedRange with
      CurrentPage := rt.closeOpenedRange.CurrentPage + n } := by
    simp [FreePagesRangeTracker.skipPages]
  rw [RangeSim.step_skip, hrp]
  exact ⟨h1, h2, by simp [h3], h4, h5⟩

theorem trackSim_run {r0 : ReleaseRecorder} {L : Nat} :
    ∀ (steps : List TrackerStep) (rt : FreePagesRangeTracker) (s : RangeSim),
      TrackSim r0 L rt s → TrackSim r0 L (rt.runSteps steps) (s.run steps) := by
  intro steps
  induction steps with
  | nil => intro rt s h; exact h
  | cons st steps ih =>
    intro rt s h
    cases st with
    | page b => exact ih _ _ (TrackSim.stepPage h b)
    | skipN n => exact ih _ _ (TrackSim.stepSkip h n)

theorem trackSim_init (Base L : Nat) :
    TrackSim (ReleaseRecorder.mk' Base) L
      (FreePagesRangeTracker.mk' (ReleaseRecorder.mk' Base) L)
      RangeSim.init := by
  refine ⟨rfl, rfl, rfl, ?_, ?_⟩
  · intro h
    simp [RangeSim.init] at h
  · simp [FreePagesRangeTracker.mk', ReleaseRecorder.mk', RangeSim.init]

/-- C7: for every sequence of processNextPage and skipPages calls on a fresh
FreePagesRangeTracker, followed by the terminal finish, the byte ranges the
recorder received are the pages of the annotated simulator log shifted by
PageSizeLog; that log is pairwise ordered by RangeR — strictly increasing in
from, non-overlapping, and strictly separated (non-adjacent) between any two
emissions of the same epoch, i.e. not separated by a skipPages call — every
logged range is non-empty, and the emitted byte ranges themselves are
strictly increasing in from and pairwise non-overlapping. -/
theorem C7_tracker_ranges (Base L : Nat) (steps : List TrackerStep) :
    (((FreePagesRangeTracker.mk' (ReleaseRecorder.mk' Base) L).runSteps
        steps).finish).Recorder.released
      = ((RangeSim.init.run steps).close.log).map (shiftRange L) ∧
    List.Pairwise RangeR (RangeSim.init.run steps).close.log ∧
    (∀ e ∈ (RangeSim.init.run steps).close.log, e.1.1 < e.1.2) ∧
    List.Pairwise (fun p q : Nat × Nat => p.1 < q.1 ∧ p.2 ≤ q.1)
      (((FreePagesRangeTracker.mk' (ReleaseRecorder.mk' Base) L).runSteps
        steps).finish).Recorder.released := by
  have hts := TrackSim.close
    (trackSim_run steps _ _ (trackSim_init Base L))
  have hinv := simInv_run simInv_init steps
  obtain ⟨f1, f2, f3, f4, f5, f6, f7, f8⟩ := RangeSim.close_facts hinv
  have hrel : (((FreePagesRangeTracker.mk' (ReleaseRecorder.mk' Base)
      L).runSteps steps).finish).Recorder.released
      = ((RangeSim.init.run steps).close.log).map (shiftRange L) := by
    have h5 := hts.2.2.2.2
    simp only [FreePagesRangeTracker.finish]
    rw [h5]
    simp [ReleaseRecorder.mk']
  refine ⟨hrel, f2, f1, ?_⟩
  rw [hrel]
  rw [List.pairwise_map]
  refine f2.imp ?_
  intro a b hab
  obtain ⟨hab1, hab2, _⟩ := hab
  have hpos : 0 < 2 ^ L := Nat.pow_pos (by norm_num)
  constructor
  · show a.1.1 <<< L < b.1.1 <<< L
    rw [Nat.shiftLeft_eq, Nat.shiftLeft_eq]
    exact Nat.mul_lt_mul_of_lt_of_le hab1 (le_refl _) hpos
  · show a.1.2 <<< L ≤ b.1.1 <<< L
    rw [Nat.shiftLeft_eq, Nat.shiftLeft_eq]
    exact Nat.mul_le_mul hab2 (le_refl _)

/-! ## Buffer storage and the freelist overload -/

/-- C10 counterexample: on the mapped-buffer path (here the static try-lock
fails, BufferSize = 8, PageSize = 4096) the model of reset requests
roundUp(BufferSize, PageSize) = 4096 bytes from the map call, not
the ceiling 8 / 4096 rounded up = 1 byte the claim states. -/
theorem C10_counterexample :
    (RegionPageMap.resetStorage 8 4096 false false).1
      = some (roundUp 8 4096) ∧
    roundUp 8 4096 = 4096 ∧
    (8 + 4096 - 1) / 4096 = 1 ∧
    (RegionPageMap.resetStorage 8 4096 false false).1
      ≠ some ((8 + 4096 - 1) / 4096) := by
  decide

/-- C10 amended: whenever reset takes the mapped-buffer path (BufferSize over
the static capacity of StaticBufferCount words of 8 bytes, or the static
buffer try-lock fails), the amount of zero-initialized memory requested from
the Platform map call is BufferSize rounded up to a PageSize multiple, and
when the request fails under the allow-no-mem flag the page map keeps the
null buffer, whose isAllocated() reports false. -/
theorem C10_amended (BufferSize PageSize : Nat) (tl mp : Bool)
    (hpath : RegionPageMap.StaticBufferCount * 8 < BufferSize ∨ tl = false) :
    (RegionPageMap.resetStorage BufferSize PageSize tl mp).1
      = some (roundUp BufferSize PageSize) ∧
    (RegionPageMap.resetStorage BufferSize PageSize tl mp).2 = mp ∧
    (mp = false → RegionPageMap.empty.isAllocated = false) := by
  have hcond : ¬ (BufferSize ≤ RegionPageMap.StaticBufferCount * 8
      ∧ tl = true) := by
    rcases hpath with h | h
    · intro hc
      omega
    · intro hc
      rw [h] at hc
      exact absurd hc.2 (by decide)
  unfold RegionPageMap.resetStorage
  rw [if_neg hcond]
  exact ⟨rfl, rfl, fun _ => rfl⟩

theorem C10_amended_witness :
    (RegionPageMap.StaticBufferCount * 8 < 8 ∨ (false = false)) ∧
    (RegionPageMap.resetStorage 8 4096 false false).1 = some 4096 := by
  have h := C10_amended 8 4096 false false (Or.inr rfl)
  exact ⟨Or.inr rfl, by simpa using h.1⟩

set_option maxRecDepth 20000

/-- C3 (code bug): at page size 64, FreeList [[0, 64]] (blocks 0 and 64
free, identity decompaction), RegionSize 128, NumberOfRegions 1,
BlockSize 64, base 0 and a never-true skip predicate, the convenience
overload releases only [0, 64) while the claimed pipeline -
PageReleaseContext(BlockSize, RegionSize, NumberOfRegions,
ReleaseSize = RegionSize, ReleaseOffset = 0), markFreeBlocks, scan -
releases [0, 128): the overload passes the constructor arguments in the
order (BlockSize, RegionSize, RegionSize, NumberOfRegions), so
NumberOfRegions receives RegionSize and ReleaseSize receives
NumberOfRegions, and the two computations emit different release calls. -/
theorem C3_overload_divergence :
    (releaseFreeMemoryToOSFromFreeList 64 [[0, 64]] 128 1 64
        (ReleaseRecorder.mk' 0) (fun x => x) (fun _ => false)).2.released
      = [(0, 64)] ∧
    (claimedFreeListRelease 64 [[0, 64]] 128 1 64 (ReleaseRecorder.mk' 0)
        (fun x => x) (fun _ => false)).2.released
      = [(0, 128)] ∧
    (releaseFreeMemoryToOSFromFreeList 64 [[0, 64]] 128 1 64
        (ReleaseRecorder.mk' 0) (fun x => x) (fun _ => false)).2.released
      ≠ (claimedFreeListRelease 64 [[0, 64]] 128 1 64
        (ReleaseRecorder.mk' 0) (fun x => x) (fun _ => false)).2.released := by
  refine ⟨by decide, by decide, by decide⟩

/-! ## The release scan as a page map transformer and tracker trace -/

theorem runSteps_append (rt : FreePagesRangeTracker)
    (l1 l2 : List TrackerStep) :
    rt.runSteps (l1 ++ l2) = (rt.runSteps l1).runSteps l2 :=
  List.foldl_append ..

theorem runSteps_pages : ∀ (bs : List Bool) (rt : FreePagesRangeTracker),
    rt.runSteps (bs.map TrackerStep.page)
      = bs.foldl (fun rt b => rt.processNextPage b) rt := by
  intro bs
  induction bs with
  | nil => intro rt; rfl
  | cons b bs ih =>
    intro rt
    show (rt.processNextPage b).runSteps (bs.map TrackerStep.page)
      = bs.foldl (fun rt b => rt.processNextPage b) (rt.processNextPage b)
    exact ih _

theorem canRel_congr (t s : RegionPageMap) (R J m : Nat)
    (hget : t.get R J = s.get R J) (hmask : t.CounterMask = s.CounterMask) :
    canRel t R J m = canRel s R J m := by
  unfold canRel RegionPageMap.updateAsAllCountedIf
  dsimp only
  rw [hget, hmask]
  by_cases h1 : s.get R J = s.CounterMask
  · rw [if_pos h1, if_pos h1]
  · rw [if_neg h1, if_neg h1]
    by_cases h2 : s.get R J = m
    · rw [if_pos h2, if_pos h2]
    · rw [if_neg h2, if_neg h2]

theorem regionBools_congr (t s : RegionPageMap) (M : Nat → Nat) (R n : Nat)
    (hget : ∀ J, J < n → t.get R J = s.get R J)
    (hmask : t.CounterMask = s.CounterMask) :
    regionBools t M R n = regionBools s M R n := by
  unfold regionBools
  apply List.map_congr_left
  intro J hJ
  exact canRel_congr t s R J (M J) (hget J (List.mem_range.mp hJ)) hmask

theorem regionBools_snoc (pm : RegionPageMap) (M : Nat → Nat) (R n : Nat) :
    regionBools pm M R (n + 1)
      = regionBools pm M R n ++ [canRel pm R n (M n)] := by
  unfold regionBools
  rw [List.range_succ, List.map_append]
  rfl

theorem scanSteps_succ (pm : RegionPageMap) (N PC : Nat) (M : Nat → Nat)
    (Skip : Nat → Bool) :
    scanSteps pm (N + 1) PC M Skip
      = scanSteps pm N PC M Skip ++
        (if Skip N then [TrackerStep.skipN PC]
         else (regionBools pm M N PC).map TrackerStep.page) := by
  unfold scanSteps
  rw [List.range_succ, List.map_append, List.flatten_append]
  simp

theorem scanPages_succ (M : Nat → Nat) (R n : Nat)
    (s : RegionPageMap × FreePagesRangeTracker) :
    scanPages M R (n + 1) s
      = (let t := scanPages M R n s
         let u := t.1.updateAsAllCountedIf R n (M n)
         (u.2, t.2.processNextPage u.1)) := by
  unfold scanPages
  rw [List.range_succ, List.foldl_append]
  rfl

theorem scanAll_succ (N PC : Nat) (M : Nat → Nat) (Skip : Nat → Bool)
    (s : RegionPageMap × FreePagesRangeTracker) :
    scanAll (N + 1) PC M Skip s
      = (let t := scanAll N PC M Skip s
         if Skip N then (t.1, t.2.skipPages PC) else scanPages M N PC t) := by
  unfold scanAll
  rw [List.range_succ, List.foldl_append]
  rfl

theorem scanPages_spec (M : Nat → Nat) (R : Nat) :
    ∀ (n : Nat) (s : RegionPageMap × FreePagesRangeTracker),
      s.1.Inv → n ≤ s.1.NumCounters →
      (scanPages M R n s).1.Inv ∧
      SameLayout s.1 (scanPages M R n s).1 ∧
      (∀ R2 I2, I2 < s.1.NumCounters →
        (scanPages M R n s).1.get R2 I2
          = if R2 = R ∧ I2 < n ∧ (s.1.get R2 I2 = s.1.CounterMask
              ∨ s.1.get R2 I2 = M I2)
            then s.1.CounterMask else s.1.get R2 I2) ∧
      (scanPages M R n s).2
        = (regionBools s.1 M R n).foldl
            (fun rt b => rt.processNextPage b) s.2 := by
  intro n
  induction n with
  | zero =>
    intro s hInv _
    refine ⟨hInv, sameLayout_self _, ?_, rfl⟩
    intro R2 I2 _
    rw [if_neg (by omega : ¬(R2 = R ∧ I2 < 0 ∧ (s.1.get R2 I2
      = s.1.CounterMask ∨ s.1.get R2 I2 = M I2)))]
    rfl
  | succ n ih =>
    intro s hInv hn
    obtain ⟨tInv, tLay, tGet, tTrack⟩ := ih s hInv (by omega)
    have hNC : (scanPages M R n s).1.NumCounters = s.1.NumCounters := tLay.2.1
    have hCM : (scanPages M R n s).1.CounterMask = s.1.CounterMask :=
      tLay.2.2.2.1
    have hblt : n < (scanPages M R n s).1.NumCounters := by omega
    obtain ⟨uiff, uInv, uLay, uGet⟩ :=
      (scanPages M R n s).1.updateAsAllCountedIf_spec tInv R n (M n) hblt
    have hgetn : (scanPages M R n s).1.get R n = s.1.get R n := by
      rw [tGet R n (by omega), if_neg (by omega : ¬(R = R ∧ n < n ∧
        (s.1.get R n = s.1.CounterMask ∨ s.1.get R n = M n)))]
    have hufst : ((scanPages M R n s).1.updateAsAllCountedIf R n (M n)).1
        = canRel s.1 R n (M n) :=
      canRel_congr _ _ R n (M n) hgetn hCM
    rw [scanPages_succ]
    dsimp only
    refine ⟨uInv, tLay.trans uLay, ?_, ?_⟩
    · intro R2 I2 hI2
      rw [uGet R2 I2 (by omega), hCM]
      by_cases hR2 : R2 = R
      · subst hR2
        by_cases hI2n : I2 = n
        · subst hI2n
          rw [hgetn] at uiff
          rw [hCM] at uiff
          by_cases hcond : s.1.get R2 I2 = s.1.CounterMask
              ∨ s.1.get R2 I2 = M I2
          · rw [if_pos ⟨rfl, rfl, uiff.mpr hcond⟩,
              if_pos ⟨rfl, by omega, hcond⟩]
          · rw [if_neg (by
                intro hc
                exact absurd (uiff.mp hc.2.2) hcond),
              if_neg (by
                intro hc
                exact absurd hc.2.2 hcond)]
            rw [tGet R2 I2 (by omega), if_neg (by omega)]
        · rw [if_neg (by
            intro hc
            exact absurd hc.2.1 hI2n)]
          rw [tGet R2 I2 (by omega)]
          by_cases hcond : I2 < n ∧ (s.1.get R2 I2 = s.1.CounterMask
              ∨ s.1.get R2 I2 = M I2)
          · rw [if_pos ⟨rfl, hcond.1, hcond.2⟩, if_pos ⟨rfl, by omega, hcond.2⟩]
          · rw [if_neg (by
                intro hc
                exact absurd ⟨hc.2.1, hc.2.2⟩ hcond),
              if_neg (by
                intro hc
                refine absurd ⟨by omega, hc.2.2⟩ hcond)]
      · rw [if_neg (by
            intro hc
            exact absurd hc.1 hR2),
          if_neg (by
            intro hc
            exact absurd hc.1 hR2),
          tGet R2 I2 (by omega),
          if_neg (by
            intro hc
            exact absurd hc.1 hR2)]
    · rw [regionBools_snoc, List.foldl_append, ← tTrack, hufst]
      rfl

theorem scanAll_spec (PC : Nat) (M : Nat → Nat) (Skip : Nat → Bool) :
    ∀ (N : Nat) (s : RegionPageMap × FreePagesRangeTracker),
      s.1.Inv → PC ≤ s.1.NumCounters →
      (scanAll N PC M Skip s).1.Inv ∧
      SameLayout s.1 (scanAll N PC M Skip s).1 ∧
      (∀ R2 I2, I2 < s.1.NumCounters →
        (scanAll N PC M Skip s).1.get R2 I2
          = if R2 < N ∧ Skip R2 = false ∧ I2 < PC ∧
              (s.1.get R2 I2 = s.1.CounterMask ∨ s.1.get R2 I2 = M I2)
            then s.1.CounterMask else s.1.get R2 I2) ∧
      (scanAll N PC M Skip s).2
        = s.2.runSteps (scanSteps s.1 N PC M Skip) := by
  intro N
  induction N with
  | zero =>
    intro s hInv _
    refine ⟨hInv, sameLayout_self _, ?_, rfl⟩
    intro R2 I2 _
    rw [if_neg (by omega : ¬(R2 < 0 ∧ Skip R2 = false ∧ I2 < PC ∧
      (s.1.get R2 I2 = s.1.CounterMask ∨ s.1.get R2 I2 = M I2)))]
    rfl
  | succ N ih =>
    intro s hInv hn
    obtain ⟨tInv, tLay, tGet, tTrack⟩ := ih s hInv hn
    have hNC : (scanAll N PC M Skip s).1.NumCounters = s.1.NumCounters :=
      tLay.2.1
    have hCM : (scanAll N PC M Skip s).1.CounterMask = s.1.CounterMask :=
      tLay.2.2.2.1
    rw [scanAll_succ]
    dsimp only
    by_cases hskip : Skip N = true
    · rw [if_pos hskip]
      refine ⟨tInv, tLay, ?_, ?_⟩
      · intro R2 I2 hI2
        rw [tGet R2 I2 hI2]
        by_cases hR2 : R2 = N
        · subst hR2
          rw [if_neg (by omega), if_neg (by
              intro hc
              rw [hskip] at hc
              exact absurd hc.2.1 (by decide))]
        · by_cases hc : R2 < N ∧ Skip R2 = false ∧ I2 < PC ∧
              (s.1.get R2 I2 = s.1.CounterMask ∨ s.1.get R2 I2 = M I2)
          · rw [if_pos hc, if_pos ⟨by omega, hc.2.1, hc.2.2⟩]
          · rw [if_neg hc, if_neg (by
              intro hc2
              exact absurd ⟨by omega, hc2.2.1, hc2.2.2⟩ hc)]
      · rw [scanSteps_succ, if_pos hskip, runSteps_append, ← tTrack]
        rfl
    · have hskip' : Skip N = false := by
        rcases Bool.eq_false_or_eq_true (Skip N) with h' | h'
        · exact absurd h' hskip
        · exact h'
      rw [if_neg hskip]
      obtain ⟨pInv, pLay, pGet, pTrack⟩ :=
        scanPages_spec M N PC (scanAll N PC M Skip s) tInv (by omega)
      have hgetN : ∀ J, J < PC →
          (scanAll N PC M Skip s).1.get N J = s.1.get N J := by
        intro J hJ
        rw [tGet N J (by omega), if_neg (by omega)]
      refine ⟨pInv, tLay.trans pLay, ?_, ?_⟩
      · intro R2 I2 hI2
        rw [pGet R2 I2 (by omega), hCM]
        by_cases hR2 : R2 = N
        · subst hR2
          by_cases hI2p : I2 < PC
          · rw [hgetN I2 hI2p]
            by_cases hc : s.1.get R2 I2 = s.1.CounterMask
                ∨ s.1.get R2 I2 = M I2
            · rw [if_pos ⟨rfl, hI2p, hc⟩, if_pos ⟨by omega, hskip', hI2p, hc⟩]
            · rw [if_neg (by
                  intro h2
                  exact absurd h2.2.2 hc),
                if_neg (by
                  intro h2
                  exact absurd h2.2.2.2 hc)]
          · rw [if_neg (by
                intro h2
                exact absurd h2.2.1 hI2p),
              tGet R2 I2 (by omega),
              if_neg (by
                intro h2
                exact absurd h2.1 (by omega)),
              if_neg (by
                intro h2
                exact absurd h2.2.2.1 hI2p)]
        · rw [if_neg (by
              intro h2
              exact absurd h2.1 hR2),
            tGet R2 I2 (by omega)]
          by_cases hc : R2 < N ∧ Skip R2 = false ∧ I2 < PC ∧
              (s.1.get R2 I2 = s.1.CounterMask ∨ s.1.get R2 I2 = M I2)
          · rw [if_pos hc, if_pos ⟨by omega, hc.2.1, hc.2.2⟩]
          · rw [if_neg hc, if_neg (by
              intro hc2
              exact absurd ⟨by omega, hc2.2.1, hc2.2.2⟩ hc)]
      · rw [pTrack, scanSteps_succ, if_neg (by
            intro h2
            rw [h2] at hskip
            exact hskip rfl),
          runSteps_append, ← tTrack, runSteps_pages]
        have hrb : regionBools (scanAll N PC M Skip s).1 M N PC
            = regionBools s.1 M N PC :=
          regionBools_congr _ _ M N PC hgetN hCM
        rw [hrb]

theorem scanPages_fixed (M : Nat → Nat) (R : Nat) :
    ∀ (n : Nat) (s : RegionPageMap × FreePagesRangeTracker),
      (∀ J, J < n → s.1.get R J = s.1.CounterMask
        ∨ (s.1.get R J ≠ s.1.CounterMask ∧ s.1.get R J ≠ M J)) →
      (scanPages M R n s).1 = s.1 ∧
      (scanPages M R n s).2 = (regionBools s.1 M R n).foldl
        (fun rt b => rt.processNextPage b) s.2 := by
  intro n
  induction n with
  | zero =>
    intro s _
    exact ⟨rfl, rfl⟩
  | succ n ih =>
    intro s hfix
    obtain ⟨ht1, ht2⟩ := ih s (fun J hJ => hfix J (by omega))
    rw [scanPages_succ]
    dsimp only
    rw [ht1, ht2]
    have hu : (s.1.updateAsAllCountedIf R n (M n)).2 = s.1 := by
      unfold RegionPageMap.updateAsAllCountedIf
      dsimp only
      rcases hfix n (by omega) with h | h
      · rw [if_pos h]
      · rw [if_neg h.1, if_neg h.2]
    rw [hu]
    refine ⟨rfl, ?_⟩
    rw [regionBools_snoc, List.foldl_append]
    rfl

theorem scanAll_fixed (PC : Nat) (M : Nat → Nat) (Skip : Nat → Bool) :
    ∀ (N : Nat) (s : RegionPageMap × FreePagesRangeTracker),
      (∀ R J, R < N → Skip R = false → J < PC →
        s.1.get R J = s.1.CounterMask
        ∨ (s.1.get R J ≠ s.1.CounterMask ∧ s.1.get R J ≠ M J)) →
      (scanAll N PC M Skip s).1 = s.1 ∧
      (scanAll N PC M Skip s).2
        = s.2.runSteps (scanSteps s.1 N PC M Skip) := by
  intro N
  induction N with
  | zero =>
    intro s _
    exact ⟨rfl, rfl⟩
  | succ N ih =>
    intro s hfix
    obtain ⟨ht1, ht2⟩ :=
      ih s (fun R J hR hs hJ => hfix R J (by omega) hs hJ)
    rw [scanAll_succ]
    dsimp only
    by_cases hskip : Skip N = true
    · rw [if_pos hskip, scanSteps_succ, if_pos hskip, runSteps_append, ← ht2]
      exact ⟨ht1, rfl⟩
    · have hskip' : Skip N = false := by
        rcases Bool.eq_false_or_eq_true (Skip N) with h' | h'
        · exact absurd h' hskip
        · exact h'
      rw [if_neg hskip]
      obtain ⟨hp1, hp2⟩ := scanPages_fixed M N PC (scanAll N PC M Skip s)
        (by
          rw [ht1]
          intro J hJ
          exact hfix N J (by omega) hskip' hJ)
      rw [ht1] at hp1 hp2
      refine ⟨hp1, ?_⟩
      rw [hp2, ht2, scanSteps_succ, if_neg (by
          intro h2
          rw [h2] at hskip
          exact hskip rfl),
        runSteps_append, runSteps_pages]

theorem slow_fold_eq (B P I : Nat) :
    ∀ (n : Nat) (b0 : Nat × Nat) (pm : RegionPageMap)
      (rt : FreePagesRangeTracker),
      (List.range n).foldl
        (fun (t : (Nat × Nat) × RegionPageMap × FreePagesRangeTracker) J =>
          let r := slowPageCount B P t.1.1 t.1.2
          let u := t.2.1.updateAsAllCountedIf I J r.1
          ((t.1.1 + P, r.2), u.2, t.2.2.processNextPage u.1))
        (b0, pm, rt)
      = (slowBoundaryState B P b0 n,
         scanPages (slowMaxAt B P b0) I n (pm, rt)) := by
  intro n
  induction n with
  | zero =>
    intro b0 pm rt
    rfl
  | succ n ih =>
    intro b0 pm rt
    rw [List.range_succ, List.foldl_append, ih b0 pm rt, scanPages_succ]
    rfl

theorem releaseFreeMemoryToOS_eq_scanAll (Context : PageReleaseContext)
    (Recorder : ReleaseRecorder) (Skip : Nat → Bool) :
    releaseFreeMemoryToOS Context Recorder Skip
      = ({ Context with PageMap :=
            (scanAll Context.NumberOfRegions Context.PagesCount
              (pageMaxFun Context) Skip
              (Context.PageMap,
               FreePagesRangeTracker.mk' Recorder Context.PageSizeLog)).1 },
         (scanAll Context.NumberOfRegions Context.PagesCount
            (pageMaxFun Context) Skip
            (Context.PageMap,
             FreePagesRangeTracker.mk' Recorder
               Context.PageSizeLog)).2.finish.Recorder) := by
  by_cases h : Context.SameBlockCountPerPage = true
  · unfold releaseFreeMemoryToOS scanAll scanPages pageMaxFun
    dsimp only
    simp only [h]
    rfl
  · have h' : Context.SameBlockCountPerPage = false := by
      rcases Bool.eq_false_or_eq_true Context.SameBlockCountPerPage with h2 | h2
      · exact absurd h2 h
      · exact h2
    unfold releaseFreeMemoryToOS pageMaxFun scanAll
    dsimp only
    simp only [h']
    rw [if_neg (show ¬(false = true) by decide)]
    rw [if_neg (show ¬(false = true) by decide)]
    have hfun :
        (fun (s : RegionPageMap × FreePagesRangeTracker) I =>
          if Skip I then (s.1, s.2.skipPages Context.PagesCount)
          else
            let b0 : Nat × Nat :=
              if Context.ReleasePageOffset > 0 then
                (Context.ReleasePageOffset * Context.PageSize,
                 roundUpSlow (Context.ReleasePageOffset * Context.PageSize)
                   Context.BlockSize)
              else (0, 0)
            let t := (List.range Context.PagesCount).foldl
              (fun (t : (Nat × Nat) × RegionPageMap × FreePagesRangeTracker)
                  J =>
                let r := slowPageCount Context.BlockSize Context.PageSize
                  t.1.1 t.1.2
                let u := t.2.1.updateAsAllCountedIf I J r.1
                ((t.1.1 + Context.PageSize, r.2), u.2,
                 t.2.2.processNextPage u.1))
              (b0, s.1, s.2)
            (t.2.1, t.2.2))
        = (fun (s : RegionPageMap × FreePagesRangeTracker) I =>
          if Skip I then (s.1, s.2.skipPages Context.PagesCount)
          else scanPages
            (fun j => slowMaxAt Context.BlockSize Context.PageSize
              (slowInit Context.BlockSize Context.PageSize
                Context.ReleasePageOffset) j)
            I Context.PagesCount s) := by
      funext s I
      by_cases hsk : Skip I = true
      · rw [if_pos hsk, if_pos hsk]
      · rw [if_neg hsk, if_neg hsk]
        dsimp only
        rw [show (if Context.ReleasePageOffset > 0 then
            (Context.ReleasePageOffset * Context.PageSize,
             roundUpSlow (Context.ReleasePageOffset * Context.PageSize)
               Context.BlockSize)
          else ((0 : Nat), (0 : Nat)))
          = slowInit Context.BlockSize Context.PageSize
              Context.ReleasePageOffset from rfl]
        rw [show s = (s.1, s.2) from rfl]
        rw [slow_fold_eq Context.BlockSize Context.PageSize I
          Context.PagesCount
          (slowInit Context.BlockSize Context.PageSize
            Context.ReleasePageOffset) s.1 s.2]
    rw [hfun]

theorem canRel_iff (pm : RegionPageMap) (R J m : Nat) :
    canRel pm R J m = true
      ↔ (pm.get R J = pm.CounterMask ∨ pm.get R J = m) := by
  unfold canRel RegionPageMap.updateAsAllCountedIf
  dsimp only
  by_cases h1 : pm.get R J = pm.CounterMask
  · rw [if_pos h1]
    simp [h1]
  · rw [if_neg h1]
    by_cases h2 : pm.get R J = m
    · rw [if_pos h2]
      simp [h2]
    · rw [if_neg h2]
      simp [h1, h2]

theorem scanSteps_congr (t s : RegionPageMap) (N PC : Nat) (M : Nat → Nat)
    (Skip : Nat → Bool)
    (h : ∀ R J, R < N → J < PC → canRel t R J (M J) = canRel s R J (M J)) :
    scanSteps t N PC M Skip = scanSteps s N PC M Skip := by
  unfold scanSteps
  apply congrArg List.flatten
  apply List.map_congr_left
  intro R hR
  by_cases hsk : Skip R = true
  · simp [hsk]
  · have hsk' : Skip R = false := by
      rcases Bool.eq_false_or_eq_true (Skip R) with h' | h'
      · exact absurd h' hsk
      · exact h'
    simp only [hsk']
    rw [if_neg (by decide), if_neg (by decide)]
    apply congrArg
    unfold regionBools
    apply List.map_congr_left
    intro J hJ
    exact h R J (List.mem_range.mp hR) (List.mem_range.mp hJ)

/-- C4: on a context whose page map satisfies the structural invariant and
holds a counter for each page of the release window, running the release
scan twice with the same skip predicate and no intervening marking emits
exactly the same ranges the second time as the first (zero new ranges), the
page map is left untouched by the second run, the second run observes the
same releasable set of pages as the first, and every page the first run
found releasable already has its counter at CounterMask afterwards. -/
theorem C4_scan_idempotent (ctx : PageReleaseContext)
    (rec : ReleaseRecorder) (Skip : Nat → Bool) (hInv : ctx.PageMap.Inv)
    (hpc : ctx.PagesCount ≤ ctx.PageMap.NumCounters) :
    (releaseFreeMemoryToOS (releaseFreeMemoryToOS ctx rec Skip).1 rec
        Skip).2.released
      = (releaseFreeMemoryToOS ctx rec Skip).2.released ∧
    (releaseFreeMemoryToOS (releaseFreeMemoryToOS ctx rec Skip).1 rec
        Skip).1.PageMap
      = (releaseFreeMemoryToOS ctx rec Skip).1.PageMap ∧
    (∀ R J, J < ctx.PagesCount →
      canRel (releaseFreeMemoryToOS ctx rec Skip).1.PageMap R J
          (pageMaxFun ctx J)
        = canRel ctx.PageMap R J (pageMaxFun ctx J)) ∧
    (∀ R J, R < ctx.NumberOfRegions → Skip R = false → J < ctx.PagesCount →
      canRel ctx.PageMap R J (pageMaxFun ctx J) = true →
      (releaseFreeMemoryToOS ctx rec Skip).1.PageMap.get R J
        = ctx.PageMap.CounterMask) := by
  have h1 := releaseFreeMemoryToOS_eq_scanAll ctx rec Skip
  obtain ⟨saInv, saLay, saGet, saTrack⟩ :=
    scanAll_spec ctx.PagesCount (pageMaxFun ctx) Skip ctx.NumberOfRegions
      (ctx.PageMap, FreePagesRangeTracker.mk' rec ctx.PageSizeLog) hInv hpc
  have hCM : (scanAll ctx.NumberOfRegions ctx.PagesCount (pageMaxFun ctx)
      Skip (ctx.PageMap,
        FreePagesRangeTracker.mk' rec ctx.PageSizeLog)).1.CounterMask
      = ctx.PageMap.CounterMask := saLay.2.2.2.1
  have hbools : ∀ R J, J < ctx.PagesCount →
      canRel (scanAll ctx.NumberOfRegions ctx.PagesCount (pageMaxFun ctx)
          Skip (ctx.PageMap,
            FreePagesRangeTracker.mk' rec ctx.PageSizeLog)).1 R J
          (pageMaxFun ctx J)
        = canRel ctx.PageMap R J (pageMaxFun ctx J) := by
    intro R J hJ
    have hg := saGet R J (show J < ctx.PageMap.NumCounters by omega)
    by_cases hc : R < ctx.NumberOfRegions ∧ Skip R = false ∧
        J < ctx.PagesCount ∧ (ctx.PageMap.get R J = ctx.PageMap.CounterMask
          ∨ ctx.PageMap.get R J = pageMaxFun ctx J)
    · rw [if_pos hc] at hg
      have ha : canRel (scanAll ctx.NumberOfRegions ctx.PagesCount
          (pageMaxFun ctx) Skip (ctx.PageMap,
            FreePagesRangeTracker.mk' rec ctx.PageSizeLog)).1 R J
          (pageMaxFun ctx J) = true := by
        rw [canRel_iff]
        exact Or.inl (by rw [hg, hCM])
      have hb : canRel ctx.PageMap R J (pageMaxFun ctx J) = true := by
        rw [canRel_iff]
        exact hc.2.2.2
      rw [ha, hb]
    · rw [if_neg hc] at hg
      exact canRel_congr _ _ R J (pageMaxFun ctx J) hg hCM
  have hfix : ∀ R J, R < ctx.NumberOfRegions → Skip R = false →
      J < ctx.PagesCount →
      (scanAll ctx.NumberOfRegions ctx.PagesCount (pageMaxFun ctx) Skip
          (ctx.PageMap,
            FreePagesRangeTracker.mk' rec ctx.PageSizeLog)).1.get R J
        = (scanAll ctx.NumberOfRegions ctx.PagesCount (pageMaxFun ctx) Skip
            (ctx.PageMap,
              FreePagesRangeTracker.mk' rec ctx.PageSizeLog)).1.CounterMask
      ∨ ((scanAll ctx.NumberOfRegions ctx.PagesCount (pageMaxFun ctx) Skip
            (ctx.PageMap,
              FreePagesRangeTracker.mk' rec ctx.PageSizeLog)).1.get R J
          ≠ (scanAll ctx.NumberOfRegions ctx.PagesCount (pageMaxFun ctx)
              Skip (ctx.PageMap,
                FreePagesRangeTracker.mk' rec ctx.PageSizeLog)).1.CounterMask
        ∧ (scanAll ctx.NumberOfRegions ctx.PagesCount (pageMaxFun ctx) Skip
            (ctx.PageMap,
              FreePagesRangeTracker.mk' rec ctx.PageSizeLog)).1.get R J
          ≠ pageMaxFun ctx J) := by
    intro R J hR hs hJ
    have hg := saGet R J (show J < ctx.PageMap.NumCounters by omega)
    by_cases hc : ctx.PageMap.get R J = ctx.PageMap.CounterMask
        ∨ ctx.PageMap.get R J = pageMaxFun ctx J
    · rw [if_pos ⟨hR, hs, hJ, hc⟩] at hg
      exact Or.inl (by rw [hg, hCM])
    · rw [if_neg (by
        intro h2
        exact absurd h2.2.2.2 hc)] at hg
      push_neg at hc
      refine Or.inr ⟨by rw [hg, hCM]; exact hc.1, by rw [hg]; exact hc.2⟩
  obtain ⟨hsa2pm, hsa2tr⟩ :=
    scanAll_fixed ctx.PagesCount (pageMaxFun ctx) Skip ctx.NumberOfRegions
      ((scanAll ctx.NumberOfRegions ctx.PagesCount (pageMaxFun ctx) Skip
          (ctx.PageMap, FreePagesRangeTracker.mk' rec ctx.PageSizeLog)).1,
        FreePagesRangeTracker.mk' rec ctx.PageSizeLog)
      (fun R J hR hs hJ => hfix R J hR hs hJ)
  have h2 := releaseFreeMemoryToOS_eq_scanAll
    (releaseFreeMemoryToOS ctx rec Skip).1 rec Skip
  rw [h1] at h2
  refine ⟨?_, ?_, ?_, ?_⟩
  · rw [h1, h2]
    show ((scanAll ctx.NumberOfRegions ctx.PagesCount (pageMaxFun ctx) Skip
        ((scanAll ctx.NumberOfRegions ctx.PagesCount (pageMaxFun ctx) Skip
          (ctx.PageMap, FreePagesRangeTracker.mk' rec
            ctx.PageSizeLog)).1, FreePagesRangeTracker.mk' rec
            ctx.PageSizeLog)).2.finish.Recorder).released
      = ((scanAll ctx.NumberOfRegions ctx.PagesCount (pageMaxFun ctx) Skip
          (ctx.PageMap, FreePagesRangeTracker.mk' rec
            ctx.PageSizeLog)).2.finish.Recorder).released
    rw [hsa2tr, saTrack]
    rw [scanSteps_congr _ _ ctx.NumberOfRegions ctx.PagesCount
      (pageMaxFun ctx) Skip (fun R J _ hJ => hbools R J hJ)]
  · rw [h1, h2]
    show (scanAll ctx.NumberOfRegions ctx.PagesCount (pageMaxFun ctx) Skip
        ((scanAll ctx.NumberOfRegions ctx.PagesCount (pageMaxFun ctx) Skip
          (ctx.PageMap, FreePagesRangeTracker.mk' rec
            ctx.PageSizeLog)).1, FreePagesRangeTracker.mk' rec
            ctx.PageSizeLog)).1
      = (scanAll ctx.NumberOfRegions ctx.PagesCount (pageMaxFun ctx) Skip
          (ctx.PageMap, FreePagesRangeTracker.mk' rec ctx.PageSizeLog)).1
    exact hsa2pm
  · intro R J hJ
    rw [h1]
    exact hbools R J hJ
  · intro R J hR hs hJ hrel
    rw [h1]
    show (scanAll ctx.NumberOfRegions ctx.PagesCount (pageMaxFun ctx) Skip
        (ctx.PageMap, FreePagesRangeTracker.mk' rec
          ctx.PageSizeLog)).1.get R J = ctx.PageMap.CounterMask
    have hg := saGet R J (show J < ctx.PageMap.NumCounters by omega)
    have hc : ctx.PageMap.get R J = ctx.PageMap.CounterMask
        ∨ ctx.PageMap.get R J = pageMaxFun ctx J :=
      (canRel_iff ctx.PageMap R J (pageMaxFun ctx J)).mp hrel
    rw [if_pos ⟨hR, hs, hJ, hc⟩] at hg
    exact hg

theorem C4_witness :
    ((PageReleaseContext.mk' 4096 4096 8192 1 8192
        0).ensurePageMapAllocated.PageMap.Inv ∧
     (PageReleaseContext.mk' 4096 4096 8192 1 8192
        0).ensurePageMapAllocated.PagesCount
       ≤ (PageReleaseContext.mk' 4096 4096 8192 1 8192
          0).ensurePageMapAllocated.PageMap.NumCounters) ∧
    (releaseFreeMemoryToOS (releaseFreeMemoryToOS
        (PageReleaseContext.mk' 4096 4096 8192 1 8192
          0).ensurePageMapAllocated (ReleaseRecorder.mk' 0)
        (fun _ => false)).1 (ReleaseRecorder.mk' 0)
        (fun _ => false)).2.released
      = (releaseFreeMemoryToOS (PageReleaseContext.mk' 4096 4096 8192 1 8192
          0).ensurePageMapAllocated (ReleaseRecorder.mk' 0)
          (fun _ => false)).2.released := by
  have hInv : (PageReleaseContext.mk' 4096 4096 8192 1 8192
      0).ensurePageMapAllocated.PageMap.Inv := by
    have he : (PageReleaseContext.mk' 4096 4096 8192 1 8192
        0).ensurePageMapAllocated.PageMap = RegionPageMap.reset 1 2 1 := rfl
    rw [he]
    exact reset_Inv 1 2 1 (by norm_num) (by norm_num)
  have hpc : (PageReleaseContext.mk' 4096 4096 8192 1 8192
      0).ensurePageMapAllocated.PagesCount
      ≤ (PageReleaseContext.mk' 4096 4096 8192 1 8192
        0).ensurePageMapAllocated.PageMap.NumCounters := by decide
  have h := C4_scan_idempotent
    (PageReleaseContext.mk' 4096 4096 8192 1 8192 0).ensurePageMapAllocated
    (ReleaseRecorder.mk' 0) (fun _ => false) hInv hpc
  exact ⟨⟨hInv, hpc⟩, h.1⟩

/-! ## Per-page block counts: arithmetic of the geometry -/

theorem div_le_iff_lt_succ_mul (P a j : Nat) (hP : 0 < P) :
    a / P ≤ j ↔ a < (j + 1) * P := by
  rw [show (a / P ≤ j) ↔ (a / P < j + 1) from by omega,
    Nat.div_lt_iff_lt_mul hP]

theorem bIP_iff_span (B P b j : Nat) (hB : 0 < B) (hP : 0 < P) :
    blockIntersectsPage B P b j
      ↔ (b * B / P ≤ j ∧ j ≤ (b * B + B - 1) / P) := by
  unfold blockIntersectsPage
  rw [div_le_iff_lt_succ_mul _ _ _ hP, Nat.le_div_iff_mul_le hP]
  omega

theorem bIP_iff_interval (B P b j : Nat) (hB : 0 < B) (hP : 0 < P) :
    blockIntersectsPage B P b j
      ↔ (j * P / B ≤ b ∧ b ≤ ((j + 1) * P - 1) / B) := by
  unfold blockIntersectsPage
  rw [div_le_iff_lt_succ_mul _ _ _ hB, Nat.le_div_iff_mul_le hB]
  have h1 : (j + 1) * P = j * P + P := by ring
  have h2 : (b + 1) * B = b * B + B := by ring
  rw [h1, h2]
  omega

theorem ceilDiv_eq (a B : Nat) (hB : 0 < B) :
    (a + B - 1) / B = a / B + if a % B = 0 then 0 else 1 := by
  have hdm := Nat.div_add_mod a B
  have hmlt : a % B < B := Nat.mod_lt _ hB
  by_cases h : a % B = 0
  · rw [if_pos h]
    have he : a + B - 1 = B * (a / B) + (B - 1) := by omega
    rw [he, Nat.mul_add_div hB,
      Nat.div_eq_of_lt (show B - 1 < B from by omega)]
  · rw [if_neg h]
    have he : a + B - 1 = B * (a / B + 1) + (a % B - 1) := by
      rw [Nat.mul_add]
      omega
    rw [he, Nat.mul_add_div hB,
      Nat.div_eq_of_lt (show a % B - 1 < B from by omega)]

theorem roundUpSlow_eq (a B : Nat) (hB : 0 < B) :
    roundUpSlow a B = (a / B + if a % B = 0 then 0 else 1) * B := by
  unfold roundUpSlow
  rw [ceilDiv_eq a B hB]

theorem count_master (B P a : Nat) (hB : 0 < B) (hP : 0 < P) :
    (a + P - 1) / B + 1 - a / B
      = P / B + (if a % B + P % B = 0 then 0
          else 1 + if B < a % B + P % B then 1 else 0) := by
  have hdm := Nat.div_add_mod a B
  have hdmP := Nat.div_add_mod P B
  have hs : a % B < B := Nat.mod_lt _ hB
  have hr : P % B < B := Nat.mod_lt _ hB
  by_cases h0 : a % B + P % B = 0
  · rw [if_pos h0]
    have hq : 0 < P / B := by
      rcases Nat.eq_zero_or_pos (P / B) with h | h
      · rw [h] at hdmP
        omega
      · exact h
    have hq2 : 0 < a / B + P / B := Nat.lt_of_lt_of_le hq (Nat.le_add_left _ _)
    obtain ⟨k, hk⟩ := Nat.exists_eq_add_of_lt hq2
    have h2 : B * (a / B) + B * (P / B) = B * k + B := by
      have h3 : B * (a / B) + B * (P / B) = B * (0 + k + 1) := by
        rw [← Nat.mul_add, hk]
      rw [Nat.mul_add, Nat.mul_add, Nat.mul_one, Nat.mul_zero] at h3
      omega
    have he : a + P - 1 = B * k + (B - 1) := by omega
    rw [he, Nat.mul_add_div hB,
      Nat.div_eq_of_lt (show B - 1 < B from by omega)]
    clear hdm hdmP h2 he hs hr
    omega
  · rw [if_neg h0]
    have he : a + P - 1 = B * (a / B) + B * (P / B) + (a % B + P % B - 1) := by
      omega
    have he2 : B * (a / B) + B * (P / B) + (a % B + P % B - 1)
        = B * (a / B + P / B) + (a % B + P % B - 1) := by
      rw [Nat.mul_add]
    rw [he, he2, Nat.mul_add_div hB]
    have hdd : (a % B + P % B - 1) / B = if B < a % B + P % B then 1 else 0 := by
      by_cases hbig : B < a % B + P % B
      · rw [if_pos hbig]
        exact Nat.div_eq_of_lt_le (by omega) (by omega)
      · rw [if_neg hbig]
        exact Nat.div_eq_of_lt (by omega)
    rw [hdd]
    clear hdm hdmP he he2 hdd
    generalize a / B = u
    generalize P / B = v
    generalize (if B < a % B + P % B then 1 else 0) = w
    omega

theorem slowPageCount_correct (B P a c : Nat) (hB : 0 < B) (hP : 0 < P)
    (hcm : c % B = 0) (hca : a ≤ c) (hcb : c < a + B) :
    (slowPageCount B P a c).1 = (a + P - 1) / B + 1 - a / B ∧
    (slowPageCount B P a c).2 % B = 0 ∧
    a + P ≤ (slowPageCount B P a c).2 ∧
    (slowPageCount B P a c).2 < a + P + B := by
  have hdm := Nat.div_add_mod a B
  have hdmP := Nat.div_add_mod P B
  have hs : a % B < B := Nat.mod_lt _ hB
  have hr : P % B < B := Nat.mod_lt _ hB
  have hcdm := Nat.div_add_mod c B
  rw [hcm, Nat.add_zero] at hcdm
  unfold slowPageCount
  dsimp only
  by_cases hs0 : a % B = 0
  · have hceq : c = a := by
      have h2 : c / B = a / B := by
        refine Nat.div_eq_of_lt_le ?_ ?_
        · rw [Nat.mul_comm]
          omega
        · rw [Nat.add_mul, Nat.one_mul, Nat.mul_comm]
          omega
      rw [h2] at hcdm
      omega
    rw [hceq]
    rw [if_pos (show a < a + P by omega),
      if_neg (show ¬(a > a) by omega)]
    by_cases hBP : B < P
    · rw [if_pos hBP, Nat.mul_comm (P / B) B]
      by_cases hr0 : P % B = 0
      · have hpn : B * (P / B) = P := by omega
        rw [hpn, if_neg (show ¬(a + P < a + P) by omega)]
        refine ⟨?_, ?_, by omega, by omega⟩
        · rw [count_master B P a hB hP, if_pos (by omega), Nat.add_zero]
        · have hmod : (a + P) % B = (a % B + P % B) % B := Nat.add_mod a P B
          rw [hmod, hs0, hr0]
          simp
      · have hlt : B * (P / B) < P := by omega
        rw [if_pos (show a + B * (P / B) < a + P by omega)]
        refine ⟨?_, ?_, by omega, by omega⟩
        · rw [count_master B P a hB hP, if_neg (by omega), if_neg (by omega)]
        · rw [Nat.add_mod_right, Nat.add_mod, hs0, Nat.mul_mod_right]
          simp
    · rw [if_neg hBP, Nat.one_mul]
      rw [if_neg (show ¬(a + B < a + P) by omega)]
      refine ⟨?_, ?_, by omega, by omega⟩
      · by_cases hPB : P % B = 0
        · have hq1 : 0 < P / B := by
            rcases Nat.eq_zero_or_pos (P / B) with h | h
            · rw [h] at hdmP
              omega
            · exact h
          have hqB : B * 1 ≤ B * (P / B) := Nat.mul_le_mul_left B hq1
          have hPeB : P = B := by omega
          rw [count_master B P a hB hP, if_pos (by omega), hPeB, Nat.div_self hB]
        · have hPltB : P < B := by
            rcases Nat.lt_or_ge P B with h | h
            · exact h
            · have hPB2 : P = B := by omega
              rw [hPB2, Nat.mod_self] at hPB
              exact absurd rfl hPB
          have hPmod : P % B = P := Nat.mod_eq_of_lt hPltB
          rw [count_master B P a hB hP, if_neg (by omega), if_neg (by omega),
            Nat.div_eq_of_lt hPltB]
      · have hmod : (a + B) % B = a % B := Nat.add_mod_right a B
        rw [hmod, hs0]
  · have hc2 : c = B * (a / B) + B := by
      have hd1 : a / B < c / B :=
        Nat.lt_of_mul_lt_mul_left
          (show B * (a / B) < B * (c / B) by omega)
      have hd2 : c / B < a / B + 2 :=
        Nat.lt_of_mul_lt_mul_left
          (show B * (c / B) < B * (a / B + 2) by
            rw [Nat.mul_add]
            omega)
      have hd3 : c / B = a / B + 1 := by omega
      rw [hd3, Nat.mul_add, Nat.mul_one] at hcdm
      omega
    subst hc2
    by_cases hBP : B < P
    · rw [if_pos hBP, Nat.mul_comm (P / B) B]
      rw [if_pos (show B * (a / B) + B < a + P by omega),
        if_pos (show B * (a / B) + B > a by omega)]
      by_cases hsr : B < a % B + P % B
      · rw [if_pos (show B * (a / B) + B + B * (P / B) < a + P by omega)]
        refine ⟨?_, ?_, by omega, by omega⟩
        · rw [count_master B P a hB hP, if_neg (by omega), if_pos hsr]
        · have he : B * (a / B) + B + B * (P / B) + B
              = B * (a / B + 1 + P / B + 1) := by
            ring
          rw [he, Nat.mul_mod_right]
      · rw [if_neg (show ¬(B * (a / B) + B + B * (P / B) < a + P) by omega)]
        refine ⟨?_, ?_, by omega, by omega⟩
        · rw [count_master B P a hB hP, if_neg (by omega), if_neg hsr]
        · have he : B * (a / B) + B + B * (P / B)
              = B * (a / B + 1 + P / B) := by
            ring
          rw [he, Nat.mul_mod_right]
    · rw [if_neg hBP, Nat.one_mul]
      by_cases hc1 : B * (a / B) + B < a + P
      · rw [if_pos hc1, if_pos (show B * (a / B) + B > a by omega),
          if_neg (show ¬(B * (a / B) + B + B < a + P) by omega)]
        refine ⟨?_, ?_, by omega, by omega⟩
        · by_cases hPB : P % B = 0
          · have hq1 : 0 < P / B := by
              rcases Nat.eq_zero_or_pos (P / B) with h | h
              · rw [h] at hdmP
                omega
              · exact h
            have hqB : B * 1 ≤ B * (P / B) := Nat.mul_le_mul_left B hq1
            have hPeB : P = B := by omega
            rw [count_master B P a hB hP, if_neg (by omega),
              if_neg (show ¬(B < a % B + P % B) by omega), hPeB,
              Nat.div_self hB]
          · have hPltB : P < B := by
              rcases Nat.lt_or_ge P B with h | h
              · exact h
              · have hPB2 : P = B := by omega
                rw [hPB2, Nat.mod_self] at hPB
                exact absurd rfl hPB
            have hPmod : P % B = P := Nat.mod_eq_of_lt hPltB
            rw [count_master B P a hB hP, if_neg (by omega), if_pos (by omega),
              Nat.div_eq_of_lt hPltB]
        · have he : B * (a / B) + B + B = B * (a / B + 2) := by
            ring
          rw [he, Nat.mul_mod_right]
      · rw [if_neg hc1]
        refine ⟨?_, ?_, by omega, by omega⟩
        · have hPltB : P < B := by omega
          have hPmod : P % B = P := Nat.mod_eq_of_lt hPltB
          rw [count_master B P a hB hP, if_neg (by omega), if_neg (by omega),
            Nat.div_eq_of_lt hPltB]
        · have he : B * (a / B) + B = B * (a / B + 1) := by
            ring
          rw [he, Nat.mul_mod_right]

theorem slowBoundary_inv (B P : Nat) (hB : 0 < B) (hP : 0 < P) :
    ∀ j, (slowBoundaryState B P (0, 0) j).1 = j * P ∧
      (slowBoundaryState B P (0, 0) j).2 % B = 0 ∧
      j * P ≤ (slowBoundaryState B P (0, 0) j).2 ∧
      (slowBoundaryState B P (0, 0) j).2 < j * P + B := by
  intro j
  induction j with
  | zero =>
    have h0 : slowBoundaryState B P (0, 0) 0 = (0, 0) := rfl
    rw [h0]
    exact ⟨by simp, Nat.zero_mod B, by simp, by simpa using hB⟩
  | succ j ih =>
    obtain ⟨h1, h2, h3, h4⟩ := ih
    have hc := slowPageCount_correct B P (j * P)
      (slowBoundaryState B P (0, 0) j).2 hB hP h2 h3 h4
    have hstep : slowBoundaryState B P (0, 0) (j + 1)
        = ((slowBoundaryState B P (0, 0) j).1 + P,
           (slowPageCount B P (slowBoundaryState B P (0, 0) j).1
             (slowBoundaryState B P (0, 0) j).2).2) := rfl
    rw [hstep, h1]
    have hsm : (j + 1) * P = j * P + P := by ring
    exact ⟨hsm.symm, hc.2.1, by rw [hsm]; exact hc.2.2.1,
      by rw [hsm]; exact hc.2.2.2⟩

theorem slowMaxAt_eq (B P : Nat) (hB : 0 < B) (hP : 0 < P) (j : Nat) :
    slowMaxAt B P (0, 0) j = numBlocksInPage B P j := by
  obtain ⟨h1, h2, h3, h4⟩ := slowBoundary_inv B P hB hP j
  unfold slowMaxAt numBlocksInPage
  rw [h1]
  have hc := (slowPageCount_correct B P (j * P)
    (slowBoundaryState B P (0, 0) j).2 hB hP h2 h3 h4).1
  rw [hc, show (j + 1) * P = j * P + P from by ring]

theorem pageMax_facts (P B S N RS : Nat) (hB : 0 < B) (hP : 0 < P) :
    1 ≤ (PageReleaseContext.mk' P B S N RS 0).FullPagesBlockCountMax ∧
    (∀ j, pageMaxFun (PageReleaseContext.mk' P B S N RS 0) j
        = numBlocksInPage B P j) ∧
    (∀ j, numBlocksInPage B P j
        ≤ (PageReleaseContext.mk' P B S N RS 0).FullPagesBlockCountMax) := by
  have hdmP := Nat.div_add_mod P B
  have hrB : P % B < B := Nat.mod_lt _ hB
  have hnum : ∀ j, numBlocksInPage B P j
      = P / B + (if j * P % B + P % B = 0 then 0
          else 1 + if B < j * P % B + P % B then 1 else 0) := by
    intro j
    unfold numBlocksInPage
    rw [show (j + 1) * P = j * P + P from by ring]
    exact count_master B P (j * P) hB hP
  have hslow : ∀ j, slowMaxAt B P
      (slowInit B P ((0 : Nat) >>> getLog2 P)) j = numBlocksInPage B P j := by
    intro j
    rw [Nat.zero_shiftRight]
    rw [show slowInit B P 0 = ((0 : Nat), (0 : Nat)) from by
      unfold slowInit
      rw [if_neg (by omega)]]
    exact slowMaxAt_eq B P hB hP j
  by_cases h1 : B ≤ P
  · by_cases h2 : P % B = 0
    · have hq : 0 < P / B := Nat.div_pos h1 hB
      have hjP : ∀ j, j * P % B = 0 := by
        intro j
        have hPf : P = B * (P / B) := by omega
        rw [hPf, show j * (B * (P / B)) = B * (j * (P / B)) from by ring,
          Nat.mul_mod_right]
      have hmax : (PageReleaseContext.mk' P B S N RS
          0).FullPagesBlockCountMax = P / B := by
        simp only [PageReleaseContext.mk']
        rw [if_pos h1, if_pos h2]
      have hsame : (PageReleaseContext.mk' P B S N RS
          0).SameBlockCountPerPage = true := by
        simp only [PageReleaseContext.mk']
        rw [if_pos h1, if_pos h2]
      have hcnt : ∀ j, numBlocksInPage B P j = P / B := by
        intro j
        rw [hnum j, hjP j, h2]
        simp
      refine ⟨by rw [hmax]; exact hq, ?_, ?_⟩
      · intro j
        unfold pageMaxFun
        rw [hsame, if_pos rfl]
        show (PageReleaseContext.mk' P B S N RS 0).FullPagesBlockCountMax
          = numBlocksInPage B P j
        rw [hmax, hcnt j]
      · intro j
        rw [hmax, hcnt j]
    · by_cases h3 : B % (P % B) = 0
      · have hr1 : 1 ≤ P % B := by omega
        have hk : 0 < B / (P % B) := Nat.div_pos (le_of_lt hrB) hr1
        have hdmB := Nat.div_add_mod B (P % B)
        have hsj : ∀ j, j * P % B = (P % B) * (j % (B / (P % B))) := by
          intro j
          have hjPd : j * P = B * (j * (P / B)) + (P % B) * j := by
            calc j * P = j * (B * (P / B) + P % B) := by rw [hdmP]
            _ = B * (j * (P / B)) + (P % B) * j := by ring
          rw [hjPd, Nat.mul_add_mod]
          nth_rewrite 2 [show B = (P % B) * (B / (P % B)) from by omega]
          exact Nat.mul_mod_mul_left (P % B) j (B / (P % B))
        have hsjb : ∀ j, j * P % B + (P % B) ≤ B := by
          intro j
          have hml : (P % B) * (j % (B / (P % B)))
              ≤ (P % B) * (B / (P % B) - 1) :=
            Nat.mul_le_mul_left _ (by
              have := Nat.mod_lt j hk
              omega)
          have hms : (P % B) * (B / (P % B) - 1)
              = (P % B) * (B / (P % B)) - (P % B) := by
            rw [Nat.mul_sub, Nat.mul_one]
          rw [hsj j]
          omega
        have hmax : (PageReleaseContext.mk' P B S N RS
            0).FullPagesBlockCountMax = P / B + 1 := by
          simp only [PageReleaseContext.mk']
          rw [if_pos h1, if_neg h2, if_pos h3]
        have hsame : (PageReleaseContext.mk' P B S N RS
            0).SameBlockCountPerPage = true := by
          simp only [PageReleaseContext.mk']
          rw [if_pos h1, if_neg h2, if_pos h3]
        have hcnt : ∀ j, numBlocksInPage B P j = P / B + 1 := by
          intro j
          have hb := hsjb j
          have hc1 : ¬(j * P % B + P % B = 0) := by omega
          have hc2 : ¬(B < j * P % B + P % B) := by omega
          rw [hnum j, if_neg hc1, if_neg hc2]
        refine ⟨by rw [hmax]; exact Nat.succ_le_succ (Nat.zero_le _), ?_, ?_⟩
        · intro j
          unfold pageMaxFun
          rw [hsame, if_pos rfl]
          show (PageReleaseContext.mk' P B S N RS 0).FullPagesBlockCountMax
            = numBlocksInPage B P j
          rw [hmax, hcnt j]
        · intro j
          rw [hmax, hcnt j]
      · have hmax : (PageReleaseContext.mk' P B S N RS
            0).FullPagesBlockCountMax = P / B + 2 := by
          simp only [PageReleaseContext.mk']
          rw [if_pos h1, if_neg h2, if_neg h3]
        have hsame : (PageReleaseContext.mk' P B S N RS
            0).SameBlockCountPerPage = false := by
          simp only [PageReleaseContext.mk']
          rw [if_pos h1, if_neg h2, if_neg h3]
        refine ⟨by rw [hmax]; exact Nat.succ_le_succ (Nat.zero_le _), ?_, ?_⟩
        · intro j
          unfold pageMaxFun
          rw [hsame, if_neg (by decide)]
          show slowMaxAt B P (slowInit B P ((0 : Nat) >>> getLog2 P)) j
            = numBlocksInPage B P j
          exact hslow j
        · intro j
          rw [hmax, hnum j]
          have hadd : ∀ x y : Nat, x ≤ 2 → P / B + x = P / B + x := fun _ _ _ => rfl
          split_ifs with hA hC
          · exact Nat.add_le_add_left (by omega) (P / B)
          · exact Nat.add_le_add_left (by omega) (P / B)
          · exact Nat.add_le_add_left (by omega) (P / B)
  · by_cases h4 : B % P = 0
    · have hPltB : P < B := by omega
      have hm : 0 < B / P := Nat.div_pos (by omega) hP
      have hdmB := Nat.div_add_mod B P
      have hsj : ∀ j, j * P % B = P * (j % (B / P)) := by
        intro j
        rw [show j * P = P * j from by ring]
        nth_rewrite 1 [show B = P * (B / P) from by omega]
        exact Nat.mul_mod_mul_left P j (B / P)
      have hsjb : ∀ j, j * P % B + P ≤ B := by
        intro j
        have hml : P * (j % (B / P)) ≤ P * (B / P - 1) :=
          Nat.mul_le_mul_left _ (by
            have := Nat.mod_lt j hm
            omega)
        have hms : P * (B / P - 1) = P * (B / P) - P := by
          rw [Nat.mul_sub, Nat.mul_one]
        rw [hsj j]
        omega
      have hq0 : P / B = 0 := Nat.div_eq_of_lt hPltB
      have hrP : P % B = P := Nat.mod_eq_of_lt hPltB
      have hmax : (PageReleaseContext.mk' P B S N RS
          0).FullPagesBlockCountMax = 1 := by
        simp only [PageReleaseContext.mk']
        rw [if_neg (by omega), if_pos h4]
      have hsame : (PageReleaseContext.mk' P B S N RS
          0).SameBlockCountPerPage = true := by
        simp only [PageReleaseContext.mk']
        rw [if_neg (by omega), if_pos h4]
      have hcnt : ∀ j, numBlocksInPage B P j = 1 := by
        intro j
        have hb := hsjb j
        have hc1 : ¬(j * P % B + P = 0) := by omega
        have hc2 : ¬(B < j * P % B + P) := by omega
        rw [hnum j, hrP, if_neg hc1, if_neg hc2, hq0]
      refine ⟨by rw [hmax], ?_, ?_⟩
      · intro j
        unfold pageMaxFun
        rw [hsame, if_pos rfl]
        show (PageReleaseContext.mk' P B S N RS 0).FullPagesBlockCountMax
          = numBlocksInPage B P j
        rw [hmax, hcnt j]
      · intro j
        rw [hmax, hcnt j]
    · have hPltB : P < B := by omega
      have hq0 : P / B = 0 := Nat.div_eq_of_lt hPltB
      have hmax : (PageReleaseContext.mk' P B S N RS
          0).FullPagesBlockCountMax = 2 := by
        simp only [PageReleaseContext.mk']
        rw [if_neg (by omega), if_neg h4]
      have hsame : (PageReleaseContext.mk' P B S N RS
          0).SameBlockCountPerPage = false := by
        simp only [PageReleaseContext.mk']
        rw [if_neg (by omega), if_neg h4]
      refine ⟨by rw [hmax]; exact Nat.le_of_lt (by decide), ?_, ?_⟩
      · intro j
        unfold pageMaxFun
        rw [hsame, if_neg (by decide)]
        show slowMaxAt B P (slowInit B P ((0 : Nat) >>> getLog2 P)) j
          = numBlocksInPage B P j
        exact hslow j
      · intro j
        rw [hmax, hnum j, hq0]
        split_ifs <;> omega

/-! ## The pretend-tail loop as a block count -/

theorem pretendTouchFuel_irrel (B P RRS j : Nat) (hB : 0 < B) :
    ∀ (f1 : Nat), ∀ (f2 st : Nat), RRS - st < f1 → RRS - st < f2 →
      pretendTouchFuel B P RRS f1 st j = pretendTouchFuel B P RRS f2 st j := by
  intro f1
  induction f1 with
  | zero =>
    intro f2 st h1 h2
    omega
  | succ f1 ih =>
    intro f2 st h1 h2
    match f2, h2 with
    | f2 + 1, h2 =>
      show (if 0 < B ∧ st < RRS then _ + _ else 0)
        = (if 0 < B ∧ st < RRS then _ + _ else 0)
      by_cases hc : 0 < B ∧ st < RRS
      · rw [if_pos hc, if_pos hc]
        have := ih f2 (st + B) (by omega) (by omega)
        rw [this]
      · rw [if_neg hc, if_neg hc]

theorem pretendTouchFuel_stop (B P RRS j : Nat) :
    ∀ (f st : Nat), RRS ≤ st → pretendTouchFuel B P RRS f st j = 0 := by
  intro f st h
  cases f with
  | zero => rfl
  | succ f =>
    show (if 0 < B ∧ st < RRS then _ else 0) = 0
    rw [if_neg (show ¬(0 < B ∧ st < RRS) from by omega)]

theorem pretendTouch_unfold (B P RRS st j : Nat) (hB : 0 < B) :
    pretendTouch B P RRS st j
      = if st < RRS then
          (if st / P ≤ j ∧ j ≤ (st + B - 1) / P then 1 else 0) +
          pretendTouch B P RRS (st + B) j
        else 0 := by
  unfold pretendTouch
  by_cases hlt : st < RRS
  · rw [if_pos hlt]
    have h1 : RRS + 1 - st = (RRS - st) + 1 := by omega
    rw [h1]
    show (if 0 < B ∧ st < RRS then _ else 0) = _
    rw [if_pos ⟨hB, hlt⟩]
    have h2 : pretendTouchFuel B P RRS (RRS - st) (st + B) j
        = pretendTouchFuel B P RRS (RRS + 1 - (st + B)) (st + B) j := by
      by_cases hend : st + B ≤ RRS
      · exact pretendTouchFuel_irrel B P RRS j hB _ _ _ (by omega) (by omega)
      · rw [pretendTouchFuel_stop B P RRS j _ _ (by omega),
          pretendTouchFuel_stop B P RRS j _ _ (by omega)]
    rw [h2]
  · rw [if_neg hlt]
    cases hru : RRS + 1 - st with
    | zero => rfl
    | succ f =>
      show (if 0 < B ∧ st < RRS then _ else 0) = 0
      rw [if_neg (show ¬(0 < B ∧ st < RRS) from by omega)]

theorem pretendTouch_card (B P RRS j : Nat) (hB : 0 < B) (hP : 0 < P) :
    ∀ (n b0 : Nat), RRS ≤ (b0 + n) * B →
      pretendTouch B P RRS (b0 * B) j
        = ((Finset.Ico b0 (b0 + n)).filter
            (fun b => b * B < RRS ∧ blockIntersectsPage B P b j)).card := by
  intro n
  induction n with
  | zero =>
    intro b0 hn
    rw [Nat.add_zero] at hn
    rw [pretendTouch_unfold B P RRS _ j hB,
      if_neg (show ¬(b0 * B < RRS) from by omega)]
    rw [Nat.add_zero, Finset.Ico_self, Finset.filter_empty, Finset.card_empty]
  | succ n ih =>
    intro b0 hn
    rw [pretendTouch_unfold B P RRS _ j hB]
    by_cases hlt : b0 * B < RRS
    · rw [if_pos hlt]
      have hih := ih (b0 + 1) (by
        have h3 : b0 + 1 + n = b0 + (n + 1) := by omega
        rw [h3]
        exact hn)
      rw [show (b0 + 1) * B = b0 * B + B from by ring] at hih
      rw [hih]
      have hsplit : Finset.Ico b0 (b0 + (n + 1))
          = insert b0 (Finset.Ico (b0 + 1) (b0 + 1 + n)) := by
        rw [show b0 + (n + 1) = b0 + 1 + n from by omega]
        exact (Nat.Ico_insert_succ_left (by omega)).symm
      rw [hsplit, Finset.filter_insert]
      by_cases hp : b0 * B < RRS ∧ blockIntersectsPage B P b0 j
      · rw [if_pos hp]
        rw [Finset.card_insert_of_not_mem (by
          intro hmem
          have := Finset.mem_of_mem_filter b0 hmem
          rw [Finset.mem_Ico] at this
          omega)]
        have hi : (if b0 * B / P ≤ j ∧ j ≤ (b0 * B + B - 1) / P then 1 else 0)
            = 1 := by
          rw [if_pos ((bIP_iff_span B P b0 j hB hP).mp hp.2)]
        omega
      · rw [if_neg hp]
        have hi : (if b0 * B / P ≤ j ∧ j ≤ (b0 * B + B - 1) / P then 1 else 0)
            = 0 := by
          rw [if_neg (by
            intro hspan
            exact hp ⟨hlt, (bIP_iff_span B P b0 j hB hP).mpr hspan⟩)]
        omega
    · rw [if_neg hlt]
      symm
      rw [Finset.card_eq_zero, Finset.filter_eq_empty_iff]
      intro b hb
      rw [Finset.mem_Ico] at hb
      intro hcond
      apply hlt
      calc b0 * B ≤ b * B := Nat.mul_le_mul_right B hb.1
      _ < RRS := hcond.1

theorem touch_split (B P RRS L j : Nat) (hB : 0 < B) (hP : 0 < P)
    (hjR : (j + 1) * P ≤ RRS) :
    ((Finset.range (L + 1)).filter
        (fun b => blockIntersectsPage B P b j)).card
      + pretendTouch B P RRS ((L + 1) * B) j
      = numBlocksInPage B P j := by
  have hcard := pretendTouch_card B P RRS j hB hP RRS (L + 1)
    (by
      have h2 : (L + 1 + RRS) * 1 ≤ (L + 1 + RRS) * B :=
        Nat.mul_le_mul_left _ hB
      omega)
  rw [hcard]
  have hhiB : (((j + 1) * P - 1) / B) * B ≤ (j + 1) * P - 1 :=
    Nat.div_mul_le_self _ _
  have hPpos : 0 < (j + 1) * P := Nat.mul_pos (Nat.succ_pos j) hP
  have hhiRRS : ((j + 1) * P - 1) / B < RRS := by
    have h1 : ((j + 1) * P - 1) / B ≤ (j + 1) * P - 1 := Nat.div_le_self _ _
    omega
  have hfe : (Finset.Ico (L + 1) (L + 1 + RRS)).filter
        (fun b => b * B < RRS ∧ blockIntersectsPage B P b j)
      = (Finset.Ico (L + 1) (L + 1 + RRS)).filter
        (fun b => blockIntersectsPage B P b j) := by
    apply Finset.filter_congr
    intro x hx
    constructor
    · intro h
      exact h.2
    · intro h
      refine ⟨?_, h⟩
      have hint := (bIP_iff_interval B P x j hB hP).mp h
      have hxB : x * B ≤ (((j + 1) * P - 1) / B) * B :=
        Nat.mul_le_mul_right B hint.2
      omega
  rw [hfe, Finset.range_eq_Ico,
    ← Finset.card_union_of_disjoint
      (Finset.disjoint_filter_filter
        (Finset.Ico_disjoint_Ico_consecutive 0 (L + 1) (L + 1 + RRS))),
    ← Finset.filter_union,
    Finset.Ico_union_Ico_eq_Ico (Nat.zero_le _) (by omega)]
  have hset : (Finset.Ico 0 (L + 1 + RRS)).filter
        (fun b => blockIntersectsPage B P b j)
      = Finset.Icc (j * P / B) (((j + 1) * P - 1) / B) := by
    ext x
    simp only [Finset.mem_filter, Finset.mem_Ico, Finset.mem_Icc]
    rw [bIP_iff_interval B P x j hB hP]
    omega
  rw [hset, Nat.card_Icc]
  rfl

theorem blockOffset_lt (B S b : Nat) (hB : 0 < B) (hBS : B ≤ S)
    (hb : b ≤ S / B - 1) : b * B + B ≤ S := by
  have hSB : 1 ≤ S / B := (Nat.one_le_div_iff hB).mpr hBS
  have hsub : (S / B - 1) * B = S / B * B - 1 * B := Nat.sub_mul _ _ _
  have hdiv : S / B * B ≤ S := Nat.div_mul_le_self S B
  have hbB : b * B ≤ (S / B - 1) * B := Nat.mul_le_mul_right B hb
  have h1B : 1 * B ≤ S / B * B := Nat.mul_le_mul_right B hSB
  omega

theorem decode_div (B S r b : Nat) (hB : 0 < B) (hBS : B ≤ S)
    (hb : b ≤ S / B - 1) : (r * S + b * B) / S = r := by
  have hS : 0 < S := by omega
  have hlt : b * B < S := by
    have := blockOffset_lt B S b hB hBS hb
    omega
  rw [Nat.add_comm, Nat.add_mul_div_right _ _ hS, Nat.div_eq_of_lt hlt,
    Nat.zero_add]

theorem decode_mod (B S r b : Nat) (hB : 0 < B) (hBS : B ≤ S)
    (hb : b ≤ S / B - 1) : (r * S + b * B) % S / B = b := by
  have hlt : b * B < S := by
    have := blockOffset_lt B S b hB hBS hb
    omega
  rw [Nat.add_comm, Nat.add_mul_mod_self_right, Nat.mod_eq_of_lt hlt,
    Nat.mul_div_cancel _ hB]

theorem decode_inj (B S r rr b b' : Nat) (hB : 0 < B) (hBS : B ≤ S)
    (hb : b ≤ S / B - 1) (hb' : b' ≤ S / B - 1)
    (h : r * S + b * B = rr * S + b' * B) : r = rr ∧ b = b' := by
  have h1 : (r * S + b * B) / S = r := decode_div B S r b hB hBS hb
  have h2 : (rr * S + b' * B) / S = rr := decode_div B S rr b' hB hBS hb'
  have hr : r = rr := by rw [← h1, ← h2, h]
  subst hr
  have hbb : b * B = b' * B := by omega
  exact ⟨rfl, Nat.eq_of_mul_eq_mul_right hB hbb⟩

theorem markedCount_nil (B P S RRS r j : Nat) :
    markedCount B P S RRS [] r j = 0 := rfl

theorem markedCount_cons (B P S RRS o : Nat) (l : List Nat) (r j : Nat) :
    markedCount B P S RRS (o :: l) r j
      = markEntry B P S RRS r j o + markedCount B P S RRS l r j := by
  unfold markedCount
  rw [List.map_cons, List.sum_cons]

theorem markedCount_append (B P S RRS : Nat) (l1 l2 : List Nat) (r j : Nat) :
    markedCount B P S RRS (l1 ++ l2) r j
      = markedCount B P S RRS l1 r j + markedCount B P S RRS l2 r j := by
  unfold markedCount
  rw [List.map_append, List.sum_append]

theorem markEntry_decode (B P S RRS : Nat) (r j rr b : Nat) (hB : 0 < B)
    (hBS : B ≤ S) (hb : b ≤ S / B - 1) :
    markEntry B P S RRS r j (rr * S + b * B)
      = if rr = r then
          (if blockIntersectsPage B P b j then 1 else 0) +
          (if b = S / B - 1 then
            pretendTouch B P RRS ((S / B - 1 + 1) * B) j else 0)
        else 0 := by
  unfold markEntry
  dsimp only
  rw [decode_div B S rr b hB hBS hb, decode_mod B S rr b hB hBS hb]

theorem pretend_window_le (B RRS L : Nat) (hB : 0 < B) :
    RRS ≤ (L + 1 + RRS) * B := by
  have h2 : (L + 1 + RRS) * 1 ≤ (L + 1 + RRS) * B := Nat.mul_le_mul_left _ hB
  omega

theorem pretendTouch_zero (B P RRS L j : Nat) (hB : 0 < B) (hP : 0 < P)
    (hle : (j + 1) * P ≤ (L + 1) * B) :
    pretendTouch B P RRS ((L + 1) * B) j = 0 := by
  rw [pretendTouch_card B P RRS j hB hP RRS (L + 1)
    (pretend_window_le B RRS L hB)]
  rw [Finset.card_eq_zero, Finset.filter_eq_empty_iff]
  intro b hb hc
  rw [Finset.mem_Ico] at hb
  have h1 : (L + 1) * B ≤ b * B := Nat.mul_le_mul_right B hb.1
  have h2 := hc.2.1
  omega

theorem pretendTouch_pos (B P RRS L j : Nat) (hB : 0 < B) (hP : 0 < P)
    (hjR : (j + 1) * P ≤ RRS) (hlt : (L + 1) * B < (j + 1) * P) :
    0 < pretendTouch B P RRS ((L + 1) * B) j := by
  rw [pretendTouch_card B P RRS j hB hP RRS (L + 1)
    (pretend_window_le B RRS L hB)]
  rw [Finset.card_pos]
  have hx1 : (L + 1) * B ≤ max (j * P) ((L + 1) * B) := Nat.le_max_right _ _
  have hx2 : j * P ≤ max (j * P) ((L + 1) * B) := Nat.le_max_left _ _
  have hjj : (j + 1) * P = j * P + P := by ring
  have hx3 : max (j * P) ((L + 1) * B) < (j + 1) * P := by
    rw [Nat.max_lt]
    omega
  have hdm := Nat.div_add_mod (max (j * P) ((L + 1) * B)) B
  have hmd := Nat.mod_lt (max (j * P) ((L + 1) * B)) hB
  have hmc : B * (max (j * P) ((L + 1) * B) / B)
      = max (j * P) ((L + 1) * B) / B * B := Nat.mul_comm _ _
  have hb1 : L + 1 ≤ max (j * P) ((L + 1) * B) / B :=
    (Nat.le_div_iff_mul_le hB).mpr hx1
  have hbb : max (j * P) ((L + 1) * B) / B * 1
      ≤ max (j * P) ((L + 1) * B) / B * B := Nat.mul_le_mul_left _ hB
  refine ⟨max (j * P) ((L + 1) * B) / B, ?_⟩
  rw [Finset.mem_filter, Finset.mem_Ico]
  refine ⟨⟨hb1, by omega⟩, by omega, ?_, ?_⟩
  · omega
  · omega

theorem markedCount_split (B P S RRS : Nat) (hB : 0 < B) (hBS : B ≤ S)
    (r j : Nat) :
    ∀ offs : List Nat, offs.Nodup →
      (∀ o ∈ offs, ∃ rr b, b ≤ S / B - 1 ∧ o = rr * S + b * B) →
      markedCount B P S RRS offs r j
        = ((Finset.range (S / B - 1 + 1)).filter
            (fun b => (r * S + b * B) ∈ offs
              ∧ blockIntersectsPage B P b j)).card
          + (if (r * S + (S / B - 1) * B) ∈ offs
             then pretendTouch B P RRS ((S / B - 1 + 1) * B) j else 0) := by
  intro offs
  induction offs with
  | nil =>
    intro _ _
    rw [markedCount_nil, if_neg (by intro h; exact absurd h (by simp))]
    symm
    rw [Nat.add_zero, Finset.card_eq_zero, Finset.filter_eq_empty_iff]
    intro b _ hc
    exact absurd hc.1 (by simp)
  | cons o rest ih =>
    intro hnd hwf
    obtain ⟨rr, b', hb', ho⟩ := hwf o (List.mem_cons_self o rest)
    have hno : o ∉ rest := (List.nodup_cons.mp hnd).1
    have ihr := ih (List.nodup_cons.mp hnd).2
      (fun x hx => hwf x (List.mem_cons_of_mem o hx))
    subst ho
    rw [markedCount_cons, ihr, markEntry_decode B P S RRS r j rr b' hB hBS hb']
    by_cases hrr : rr = r
    · subst hrr
      have hiff : ∀ b ∈ Finset.range (S / B - 1 + 1),
          ((rr * S + b * B) ∈ (rr * S + b' * B) :: rest
            ∧ blockIntersectsPage B P b j)
          ↔ ((b = b' ∧ blockIntersectsPage B P b j)
             ∨ ((rr * S + b * B) ∈ rest ∧ blockIntersectsPage B P b j)) := by
        intro b hb
        rw [Finset.mem_range] at hb
        rw [List.mem_cons]
        constructor
        · rintro ⟨h1 | h1, h2⟩
          · exact Or.inl
              ⟨(decode_inj B S rr rr b b' hB hBS (by omega) hb' h1).2, h2⟩
          · exact Or.inr ⟨h1, h2⟩
        · rintro (⟨h1, h2⟩ | ⟨h1, h2⟩)
          · subst h1
            exact ⟨Or.inl rfl, h2⟩
          · exact ⟨Or.inr h1, h2⟩
      have hdisj : Disjoint
          ((Finset.range (S / B - 1 + 1)).filter
            (fun b => b = b' ∧ blockIntersectsPage B P b j))
          ((Finset.range (S / B - 1 + 1)).filter
            (fun b => (rr * S + b * B) ∈ rest
              ∧ blockIntersectsPage B P b j)) := by
        rw [Finset.disjoint_left]
        intro a ha hb2
        rw [Finset.mem_filter] at ha hb2
        obtain ⟨-, ha1, -⟩ := ha
        obtain ⟨-, hb1, -⟩ := hb2
        subst ha1
        exact hno hb1
      have hsing : ((Finset.range (S / B - 1 + 1)).filter
            (fun b => b = b' ∧ blockIntersectsPage B P b j)).card
          = (if blockIntersectsPage B P b' j then 1 else 0) := by
        by_cases hI : blockIntersectsPage B P b' j
        · rw [if_pos hI]
          have hset : (Finset.range (S / B - 1 + 1)).filter
              (fun b => b = b' ∧ blockIntersectsPage B P b j) = {b'} := by
            ext x
            rw [Finset.mem_filter, Finset.mem_range, Finset.mem_singleton]
            constructor
            · intro hx
              exact hx.2.1
            · intro hx
              subst hx
              exact ⟨by omega, rfl, hI⟩
          rw [hset]
          exact Finset.card_singleton b'
        · rw [if_neg hI]
          rw [Finset.card_eq_zero, Finset.filter_eq_empty_iff]
          intro x _ hc
          exact hI (hc.1 ▸ hc.2)
      have hfc : ((Finset.range (S / B - 1 + 1)).filter
            (fun b => (rr * S + b * B) ∈ (rr * S + b' * B) :: rest
              ∧ blockIntersectsPage B P b j)).card
          = (if blockIntersectsPage B P b' j then 1 else 0)
            + ((Finset.range (S / B - 1 + 1)).filter
                (fun b => (rr * S + b * B) ∈ rest
                  ∧ blockIntersectsPage B P b j)).card := by
        rw [Finset.filter_congr hiff, Finset.filter_or,
          Finset.card_union_of_disjoint hdisj, hsing]
      rw [hfc]
      by_cases hbl : b' = S / B - 1
      · have hnoL : (rr * S + (S / B - 1) * B) ∉ rest := by
          rw [← hbl]
          exact hno
        have hmemL : (rr * S + (S / B - 1) * B) ∈ (rr * S + b' * B) :: rest := by
          rw [List.mem_cons]
          exact Or.inl (by rw [hbl])
        rw [if_pos (show rr = rr from rfl), if_pos hbl, if_pos hmemL,
          if_neg hnoL]
        omega
      · have hiteL : ((rr * S + (S / B - 1) * B) ∈ (rr * S + b' * B) :: rest)
            ↔ ((rr * S + (S / B - 1) * B) ∈ rest) := by
          rw [List.mem_cons]
          constructor
          · rintro (h1 | h1)
            · exact absurd
                (decode_inj B S rr rr (S / B - 1) b' hB hBS (by omega) hb'
                  h1).2.symm hbl
            · exact h1
          · intro h1
            exact Or.inr h1
        rw [if_pos (show rr = rr from rfl), if_neg hbl,
          if_congr hiteL rfl rfl]
        omega
    · have hiff : ∀ b ∈ Finset.range (S / B - 1 + 1),
          ((r * S + b * B) ∈ (rr * S + b' * B) :: rest
            ∧ blockIntersectsPage B P b j)
          ↔ ((r * S + b * B) ∈ rest ∧ blockIntersectsPage B P b j) := by
        intro b hb
        rw [Finset.mem_range] at hb
        rw [List.mem_cons]
        constructor
        · rintro ⟨h1 | h1, h2⟩
          · exact absurd
              (decode_inj B S r rr b b' hB hBS (by omega) hb' h1).1.symm hrr
          · exact ⟨h1, h2⟩
        · rintro ⟨h1, h2⟩
          exact ⟨Or.inr h1, h2⟩
      have hiteL : ((r * S + (S / B - 1) * B) ∈ (rr * S + b' * B) :: rest)
          ↔ ((r * S + (S / B - 1) * B) ∈ rest) := by
        rw [List.mem_cons]
        constructor
        · rintro (h1 | h1)
          · exact absurd
              (decode_inj B S r rr (S / B - 1) b' hB hBS (by omega) hb'
                h1).1.symm hrr
          · exact h1
        · intro h1
          exact Or.inr h1
      rw [if_neg hrr, Finset.filter_congr hiff, if_congr hiteL rfl rfl]
      omega

theorem markedCount_le (B P S RRS : Nat) (hB : 0 < B) (hBS : B ≤ S)
    (hP : 0 < P) (r j : Nat) (offs : List Nat) (hnd : offs.Nodup)
    (hwf : ∀ o ∈ offs, ∃ rr b, b ≤ S / B - 1 ∧ o = rr * S + b * B)
    (hjR : (j + 1) * P ≤ RRS) :
    markedCount B P S RRS offs r j ≤ numBlocksInPage B P j := by
  rw [markedCount_split B P S RRS hB hBS r j offs hnd hwf]
  have hts := touch_split B P RRS (S / B - 1) j hB hP hjR
  have hcard : ((Finset.range (S / B - 1 + 1)).filter
        (fun b => (r * S + b * B) ∈ offs ∧ blockIntersectsPage B P b j)).card
      ≤ ((Finset.range (S / B - 1 + 1)).filter
          (fun b => blockIntersectsPage B P b j)).card :=
    Finset.card_le_card (by
      intro x hx
      rw [Finset.mem_filter] at hx
      rw [Finset.mem_filter]
      exact ⟨hx.1, hx.2.2⟩)
  have hite : (if (r * S + (S / B - 1) * B) ∈ offs
      then pretendTouch B P RRS ((S / B - 1 + 1) * B) j else 0)
      ≤ pretendTouch B P RRS ((S / B - 1 + 1) * B) j := by
    by_cases h : (r * S + (S / B - 1) * B) ∈ offs
    · rw [if_pos h]
    · rw [if_neg h]
      exact Nat.zero_le _
  omega

theorem markedCount_eq_iff (B P S RRS : Nat) (hB : 0 < B) (hBS : B ≤ S)
    (hP : 0 < P) (r j : Nat) (offs : List Nat) (hnd : offs.Nodup)
    (hwf : ∀ o ∈ offs, ∃ rr b, b ≤ S / B - 1 ∧ o = rr * S + b * B)
    (hjR : (j + 1) * P ≤ RRS) :
    markedCount B P S RRS offs r j = numBlocksInPage B P j
      ↔ ((∀ b, b ≤ S / B - 1 → blockIntersectsPage B P b j
            → (r * S + b * B) ∈ offs)
         ∧ ((S / B - 1 + 1) * B < (j + 1) * P
            → (r * S + (S / B - 1) * B) ∈ offs)) := by
  rw [markedCount_split B P S RRS hB hBS r j offs hnd hwf,
    ← touch_split B P RRS (S / B - 1) j hB hP hjR]
  have hcard : ((Finset.range (S / B - 1 + 1)).filter
        (fun b => (r * S + b * B) ∈ offs ∧ blockIntersectsPage B P b j)).card
      ≤ ((Finset.range (S / B - 1 + 1)).filter
          (fun b => blockIntersectsPage B P b j)).card :=
    Finset.card_le_card (by
      intro x hx
      rw [Finset.mem_filter] at hx
      rw [Finset.mem_filter]
      exact ⟨hx.1, hx.2.2⟩)
  have hite : (if (r * S + (S / B - 1) * B) ∈ offs
      then pretendTouch B P RRS ((S / B - 1 + 1) * B) j else 0)
      ≤ pretendTouch B P RRS ((S / B - 1 + 1) * B) j := by
    by_cases h : (r * S + (S / B - 1) * B) ∈ offs
    · rw [if_pos h]
    · rw [if_neg h]
      exact Nat.zero_le _
  constructor
  · intro heq
    have hsplit2 : ((Finset.range (S / B - 1 + 1)).filter
          (fun b => (r * S + b * B) ∈ offs ∧ blockIntersectsPage B P b j)).card
        = ((Finset.range (S / B - 1 + 1)).filter
            (fun b => blockIntersectsPage B P b j)).card
        ∧ (if (r * S + (S / B - 1) * B) ∈ offs
            then pretendTouch B P RRS ((S / B - 1 + 1) * B) j else 0)
          = pretendTouch B P RRS ((S / B - 1 + 1) * B) j := by
      omega
    have hsets : ((Finset.range (S / B - 1 + 1)).filter
          (fun b => (r * S + b * B) ∈ offs ∧ blockIntersectsPage B P b j))
        = ((Finset.range (S / B - 1 + 1)).filter
            (fun b => blockIntersectsPage B P b j)) := by
      apply Finset.eq_of_subset_of_card_le
      · intro x hx
        rw [Finset.mem_filter] at hx
        rw [Finset.mem_filter]
        exact ⟨hx.1, hx.2.2⟩
      · omega
    constructor
    · intro b hb hbip
      have hmem : b ∈ (Finset.range (S / B - 1 + 1)).filter
          (fun b => blockIntersectsPage B P b j) :=
        Finset.mem_filter.mpr ⟨Finset.mem_range.mpr (by omega), hbip⟩
      rw [← hsets, Finset.mem_filter] at hmem
      exact hmem.2.1
    · intro hlt
      have hpos := pretendTouch_pos B P RRS (S / B - 1) j hB hP hjR hlt
      by_cases hm : (r * S + (S / B - 1) * B) ∈ offs
      · exact hm
      · rw [if_neg hm] at hsplit2
        omega
  · rintro ⟨hall, hlast⟩
    have hc2 : ((Finset.range (S / B - 1 + 1)).filter
          (fun b => (r * S + b * B) ∈ offs ∧ blockIntersectsPage B P b j))
        = ((Finset.range (S / B - 1 + 1)).filter
            (fun b => blockIntersectsPage B P b j)) := by
      apply Finset.filter_congr
      intro b hb
      rw [Finset.mem_range] at hb
      constructor
      · intro h
        exact h.2
      · intro h
        exact ⟨hall b (by omega) h, h⟩
    rw [hc2]
    by_cases hlt : (S / B - 1 + 1) * B < (j + 1) * P
    · rw [if_pos (hlast hlt)]
    · have hz : pretendTouch B P RRS ((S / B - 1 + 1) * B) j = 0 :=
        pretendTouch_zero B P RRS (S / B - 1) j hB hP (by omega)
      rw [hz, ite_self]

theorem getPageIndexAux_div (pl x : Nat) :
    getPageIndexAux pl 0 x = x / 2 ^ pl := by
  unfold getPageIndexAux
  rw [Nat.shiftRight_eq_div_pow, Nat.sub_zero]

theorem markLastBlockFuel_spec (B P RRS pl r0 : Nat) (hB : 0 < B)
    (hP2 : P = 2 ^ pl) :
    ∀ (fuel st : Nat) (pm : RegionPageMap), RRS + 1 - st ≤ fuel →
      pm.Inv →
      (∀ j2, j2 < pm.NumCounters →
        pm.get r0 j2 + pretendTouch B P RRS st j2 ≤ pm.CounterMask) →
      (markLastBlockFuel B RRS pl 0 r0 fuel pm st).Inv ∧
      SameLayout pm (markLastBlockFuel B RRS pl 0 r0 fuel pm st) ∧
      (∀ r2 j2, j2 < pm.NumCounters →
        (markLastBlockFuel B RRS pl 0 r0 fuel pm st).get r2 j2
          = pm.get r2 j2
            + (if r2 = r0 then pretendTouch B P RRS st j2 else 0)) := by
  have hP : 0 < P := by
    rw [hP2]
    exact Nat.pos_pow_of_pos pl (by norm_num)
  intro fuel
  induction fuel with
  | zero =>
    intro st pm hfuel hInv hbound
    refine ⟨hInv, sameLayout_self pm, ?_⟩
    intro r2 j2 _
    have hz : pretendTouch B P RRS st j2 = 0 := by
      unfold pretendTouch
      rw [show RRS + 1 - st = 0 from by omega]
      rfl
    rw [hz, ite_self, Nat.add_zero]
    rfl
  | succ fuel ih =>
    intro st pm hfuel hInv hbound
    have hFrom : getPageIndexAux pl 0 st = st / P := by
      rw [getPageIndexAux_div, hP2]
    have hTo : getPageIndexAux pl 0 (st + B - 1) = (st + B - 1) / P := by
      rw [getPageIndexAux_div, hP2]
    by_cases hlt : st < RRS
    · have heq : markLastBlockFuel B RRS pl 0 r0 (fuel + 1) pm st
          = markLastBlockFuel B RRS pl 0 r0 fuel
            (pm.incRange r0 (getPageIndexAux pl 0 st)
              (getPageIndexAux pl 0 (st + B - 1))) (st + B) := by
        show (if 0 < B ∧ st < RRS then
            markLastBlockFuel B RRS pl 0 r0 fuel
              (pm.incRange r0 (getPageIndexAux pl 0 st)
                (getPageIndexAux pl 0 (st + B - 1))) (st + B)
          else pm) = _
        rw [if_pos ⟨hB, hlt⟩]
      rw [heq, hFrom, hTo]
      have hpre : ∀ I, st / P ≤ I →
          I < min ((st + B - 1) / P + 1) pm.NumCounters →
          pm.get r0 I < pm.CounterMask := by
        intro I h1 h2
        have hI : I < pm.NumCounters := by omega
        have hone : 1 ≤ pretendTouch B P RRS st I := by
          rw [pretendTouch_unfold B P RRS st I hB, if_pos hlt,
            if_pos (show st / P ≤ I ∧ I ≤ (st + B - 1) / P
              from ⟨h1, by omega⟩)]
          omega
        have := hbound I hI
        omega
      obtain ⟨iInv, iLay, iGet⟩ := pm.incRange_spec hInv r0 (st / P)
        ((st + B - 1) / P) hpre
      have hNC : (pm.incRange r0 (st / P) ((st + B - 1) / P)).NumCounters
          = pm.NumCounters := iLay.2.1
      have hCM : (pm.incRange r0 (st / P) ((st + B - 1) / P)).CounterMask
          = pm.CounterMask := iLay.2.2.2.1
      have hbound' : ∀ j2,
          j2 < (pm.incRange r0 (st / P) ((st + B - 1) / P)).NumCounters →
          (pm.incRange r0 (st / P) ((st + B - 1) / P)).get r0 j2
            + pretendTouch B P RRS (st + B) j2
            ≤ (pm.incRange r0 (st / P) ((st + B - 1) / P)).CounterMask := by
        intro j2 hj2
        rw [hNC] at hj2
        rw [iGet r0 j2 hj2, hCM]
        have hb2 := hbound j2 hj2
        rw [pretendTouch_unfold B P RRS st j2 hB, if_pos hlt] at hb2
        by_cases hsp : st / P ≤ j2 ∧ j2 ≤ (st + B - 1) / P
        · rw [if_pos hsp] at hb2
          rw [if_pos (show r0 = r0 ∧ st / P ≤ j2
              ∧ j2 < min ((st + B - 1) / P + 1) pm.NumCounters
              from ⟨rfl, hsp.1, by omega⟩)]
          omega
        · rw [if_neg hsp] at hb2
          rw [if_neg (show ¬(r0 = r0 ∧ st / P ≤ j2
              ∧ j2 < min ((st + B - 1) / P + 1) pm.NumCounters) from by
              intro hc
              exact hsp ⟨hc.2.1, by omega⟩)]
          omega
      obtain ⟨fInv, fLay, fGet⟩ := ih (st + B)
        (pm.incRange r0 (st / P) ((st + B - 1) / P)) (by omega) iInv hbound'
      refine ⟨fInv, iLay.trans fLay, ?_⟩
      intro r2 j2 hj2
      rw [fGet r2 j2 (by rw [hNC]; exact hj2), iGet r2 j2 hj2,
        pretendTouch_unfold B P RRS st j2 hB, if_pos hlt]
      by_cases hr2 : r2 = r0
      · rw [if_pos hr2, if_pos hr2]
        by_cases hsp : st / P ≤ j2 ∧ j2 ≤ (st + B - 1) / P
        · rw [if_pos hsp,
            if_pos (show r2 = r0 ∧ st / P ≤ j2
              ∧ j2 < min ((st + B - 1) / P + 1) pm.NumCounters
              from ⟨hr2, hsp.1, by omega⟩)]
          omega
        · rw [if_neg hsp,
            if_neg (show ¬(r2 = r0 ∧ st / P ≤ j2
              ∧ j2 < min ((st + B - 1) / P + 1) pm.NumCounters) from by
              intro hc
              exact hsp ⟨hc.2.1, by omega⟩)]
          omega
      · rw [if_neg hr2, if_neg hr2,
          if_neg (show ¬(r2 = r0 ∧ st / P ≤ j2
            ∧ j2 < min ((st + B - 1) / P + 1) pm.NumCounters) from by
            intro hc
            exact hr2 hc.1)]
    · have heq : markLastBlockFuel B RRS pl 0 r0 (fuel + 1) pm st = pm := by
        show (if 0 < B ∧ st < RRS then
            markLastBlockFuel B RRS pl 0 r0 fuel
              (pm.incRange r0 (getPageIndexAux pl 0 st)
                (getPageIndexAux pl 0 (st + B - 1))) (st + B)
          else pm) = pm
        rw [if_neg (show ¬(0 < B ∧ st < RRS) from by omega)]
      rw [heq]
      refine ⟨hInv, sameLayout_self pm, ?_⟩
      intro r2 j2 _
      have hz : pretendTouch B P RRS st j2 = 0 := by
        rw [pretendTouch_unfold B P RRS st j2 hB, if_neg hlt]
      rw [hz, ite_self, Nat.add_zero]

theorem span_collapse (B P b : Nat) (hB : 0 < B) (hBP : B ≤ P)
    (hmod : P % B = 0) : (b * B + B - 1) / P = b * B / P := by
  have hP : 0 < P := by omega
  have hq : 0 < P / B := Nat.div_pos hBP hB
  have hPf : P = B * (P / B) := by
    have := Nat.div_add_mod P B
    omega
  have hmm : b * B % P = B * (b % (P / B)) := by
    conv_lhs => rw [Nat.mul_comm b B, hPf]
    exact Nat.mul_mod_mul_left B b (P / B)
  have hlt : b % (P / B) < P / B := Nat.mod_lt b hq
  have hble : B * (b % (P / B)) ≤ B * (P / B - 1) :=
    Nat.mul_le_mul_left B (by omega)
  have hBq : B * (P / B - 1) + B = B * (P / B) := by
    rw [← Nat.mul_succ]
    congr 1
    omega
  have hdm := Nat.div_add_mod (b * B) P
  have hmP : b * B % P + B ≤ P := by omega
  have he : b * B + B - 1 = P * (b * B / P) + (b * B % P + B - 1) := by omega
  rw [he, Nat.mul_add_div hP,
    Nat.div_eq_of_lt (show b * B % P + B - 1 < P from by omega), Nat.add_zero]

theorem bIP_self (B P b : Nat) (hB : 0 < B) (hP : 0 < P) :
    blockIntersectsPage B P b (b * B / P) := by
  have hdm := Nat.div_add_mod (b * B) P
  have hm : b * B % P < P := Nat.mod_lt _ hP
  constructor
  · have h1 : (b * B / P + 1) * P = P * (b * B / P) + P := by ring
    omega
  · have h2 : b * B / P * P = P * (b * B / P) := Nat.mul_comm _ _
    omega

theorem markEntry_eq (B P S RRS : Nat) (hB : 0 < B) (hBS : B ≤ S)
    (r2 j2 rr b' : Nat) (hb' : b' ≤ S / B - 1) :
    markEntry B P S RRS r2 j2 (rr * S + b' * B)
      = (if r2 = rr ∧ blockIntersectsPage B P b' j2 then 1 else 0)
        + (if r2 = rr ∧ b' = S / B - 1 then
            pretendTouch B P RRS ((S / B - 1 + 1) * B) j2 else 0) := by
  rw [markEntry_decode B P S RRS r2 j2 rr b' hB hBS hb']
  by_cases hr2 : r2 = rr
  · rw [if_pos hr2.symm]
    have e1 : (if r2 = rr ∧ blockIntersectsPage B P b' j2 then 1 else 0)
        = (if blockIntersectsPage B P b' j2 then 1 else 0) := by
      by_cases hb : blockIntersectsPage B P b' j2
      · rw [if_pos ⟨hr2, hb⟩, if_pos hb]
      · have hn : ¬(r2 = rr ∧ blockIntersectsPage B P b' j2) :=
          fun hc => hb hc.2
        rw [if_neg hn, if_neg hb]
    have e2 : (if r2 = rr ∧ b' = S / B - 1 then
          pretendTouch B P RRS ((S / B - 1 + 1) * B) j2 else 0)
        = (if b' = S / B - 1 then
            pretendTouch B P RRS ((S / B - 1 + 1) * B) j2 else 0) := by
      by_cases hb : b' = S / B - 1
      · rw [if_pos ⟨hr2, hb⟩, if_pos hb]
      · have hn : ¬(r2 = rr ∧ b' = S / B - 1) := fun hc => hb hc.2
        rw [if_neg hn, if_neg hb]
    rw [e1, e2]
  · have hn : ¬(rr = r2) := fun hc => hr2 hc.symm
    have hn1 : ¬(r2 = rr ∧ blockIntersectsPage B P b' j2) := fun hc => hr2 hc.1
    have hn2 : ¬(r2 = rr ∧ b' = S / B - 1) := fun hc => hr2 hc.1
    rw [if_neg hn, if_neg hn1, if_neg hn2]

theorem markStepRange_spec (B P S N RRS RdS pl rho : Nat) (hB : 0 < B)
    (hBS : B ≤ S) (hP2 : P = 2 ^ pl) (hNS : N * S ≤ RdS) (hrho : rho = 0)
    (pm : RegionPageMap) (o rr b' : Nat) (hInv : pm.Inv)
    (hSNC : S ≤ pm.NumCounters * P) (hrr : rr < N) (hb' : b' ≤ S / B - 1)
    (ho : o = rr * S + b' * B)
    (hbound : ∀ r2 j2, j2 < pm.NumCounters →
      pm.get r2 j2 + markEntry B P S RRS r2 j2 o ≤ pm.CounterMask) :
    (markStepRange B S N RRS RdS pl rho pm o).Inv ∧
    SameLayout pm (markStepRange B S N RRS RdS pl rho pm o) ∧
    (∀ r2 j2, j2 < pm.NumCounters →
      (markStepRange B S N RRS RdS pl rho pm o).get r2 j2
        = pm.get r2 j2 + markEntry B P S RRS r2 j2 o) := by
  subst hrho
  have hP : 0 < P := by
    rw [hP2]
    exact Nat.pos_pow_of_pos pl (by norm_num)
  have hblock := blockOffset_lt B S b' hB hBS hb'
  have hoNS : o < N * S := by
    have h1 : rr * S ≤ (N - 1) * S := Nat.mul_le_mul_right S (by omega)
    have h2 : (N - 1) * S = N * S - 1 * S := Nat.sub_mul _ _ _
    have h3 : 1 * S ≤ N * S := Nat.mul_le_mul_right S (by omega)
    omega
  have hRI : (if N = 1 then 0 else o / S) = rr := by
    by_cases hN1 : N = 1
    · rw [if_pos hN1]
      omega
    · rw [if_neg hN1]
      rw [ho]
      exact decode_div B S rr b' hB hBS hb'
  have heq : markStepRange B S N RRS RdS pl 0 pm o
      = if b' * B = (S / B - 1) * B then
          markLastBlockLoop B RRS pl 0 rr
            (pm.incRange rr (b' * B / P) ((b' * B + B - 1) / P))
            ((S / B - 1) * B + B)
        else pm.incRange rr (b' * B / P) ((b' * B + B - 1) / P) := by
    unfold markStepRange
    rw [if_neg (show ¬(o ≥ RdS) from by omega)]
    dsimp only
    rw [hRI, show o - rr * S = b' * B from by omega, getPageIndexAux_div,
      getPageIndexAux_div, ← hP2]
  rw [heq]
  have hentry : ∀ r2 j2, markEntry B P S RRS r2 j2 o
      = (if r2 = rr ∧ blockIntersectsPage B P b' j2 then 1 else 0)
        + (if r2 = rr ∧ b' = S / B - 1 then
            pretendTouch B P RRS ((S / B - 1 + 1) * B) j2 else 0) := by
    intro r2 j2
    rw [ho]
    exact markEntry_eq B P S RRS hB hBS r2 j2 rr b' hb'
  have hpre : ∀ I, b' * B / P ≤ I →
      I < min ((b' * B + B - 1) / P + 1) pm.NumCounters →
      pm.get rr I < pm.CounterMask := by
    intro I h1 h2
    have hI : I < pm.NumCounters := by omega
    have hbip : blockIntersectsPage B P b' I :=
      (bIP_iff_span B P b' I hB hP).mpr ⟨h1, by omega⟩
    have hb := hbound rr I hI
    rw [hentry rr I, if_pos ⟨rfl, hbip⟩] at hb
    omega
  obtain ⟨iInv, iLay, iGet⟩ := pm.incRange_spec hInv rr (b' * B / P)
    ((b' * B + B - 1) / P) hpre
  have hNC : (pm.incRange rr (b' * B / P) ((b' * B + B - 1) / P)).NumCounters
      = pm.NumCounters := iLay.2.1
  have hCM : (pm.incRange rr (b' * B / P) ((b' * B + B - 1) / P)).CounterMask
      = pm.CounterMask := iLay.2.2.2.1
  have iGet2 : ∀ r2 j2, j2 < pm.NumCounters →
      (pm.incRange rr (b' * B / P) ((b' * B + B - 1) / P)).get r2 j2
        = pm.get r2 j2
          + (if r2 = rr ∧ blockIntersectsPage B P b' j2 then 1 else 0) := by
    intro r2 j2 hj2
    rw [iGet r2 j2 hj2]
    by_cases hc : r2 = rr ∧ blockIntersectsPage B P b' j2
    · have hsp := (bIP_iff_span B P b' j2 hB hP).mp hc.2
      rw [if_pos (show r2 = rr ∧ b' * B / P ≤ j2
          ∧ j2 < min ((b' * B + B - 1) / P + 1) pm.NumCounters
          from ⟨hc.1, hsp.1, by omega⟩), if_pos hc]
    · rw [if_neg (show ¬(r2 = rr ∧ b' * B / P ≤ j2
          ∧ j2 < min ((b' * B + B - 1) / P + 1) pm.NumCounters) from by
          intro h2
          exact hc ⟨h2.1, (bIP_iff_span B P b' j2 hB hP).mpr
            ⟨h2.2.1, by omega⟩⟩), if_neg hc, Nat.add_zero]
  by_cases hL : b' = S / B - 1
  · rw [if_pos (show b' * B = (S / B - 1) * B from by rw [hL])]
    rw [show (S / B - 1) * B + B = (S / B - 1 + 1) * B from by ring]
    have hloop : markLastBlockLoop B RRS pl 0 rr
        (pm.incRange rr (b' * B / P) ((b' * B + B - 1) / P))
        ((S / B - 1 + 1) * B)
        = markLastBlockFuel B RRS pl 0 rr
          (RRS + 1 - (S / B - 1 + 1) * B)
          (pm.incRange rr (b' * B / P) ((b' * B + B - 1) / P))
          ((S / B - 1 + 1) * B) := rfl
    rw [hloop]
    have hbound2 : ∀ j2,
        j2 < (pm.incRange rr (b' * B / P)
          ((b' * B + B - 1) / P)).NumCounters →
        (pm.incRange rr (b' * B / P) ((b' * B + B - 1) / P)).get rr j2
          + pretendTouch B P RRS ((S / B - 1 + 1) * B) j2
          ≤ (pm.incRange rr (b' * B / P)
              ((b' * B + B - 1) / P)).CounterMask := by
      intro j2 hj2
      rw [hNC] at hj2
      rw [iGet2 rr j2 hj2, hCM]
      have hb := hbound rr j2 hj2
      rw [hentry rr j2,
        if_pos (show rr = rr ∧ b' = S / B - 1 from ⟨rfl, hL⟩)] at hb
      omega
    obtain ⟨fInv, fLay, fGet⟩ := markLastBlockFuel_spec B P RRS pl rr hB hP2
      (RRS + 1 - (S / B - 1 + 1) * B) ((S / B - 1 + 1) * B)
      (pm.incRange rr (b' * B / P) ((b' * B + B - 1) / P)) (Nat.le_refl _)
      iInv hbound2
    refine ⟨fInv, iLay.trans fLay, ?_⟩
    intro r2 j2 hj2
    rw [fGet r2 j2 (by rw [hNC]; exact hj2), iGet2 r2 j2 hj2, hentry r2 j2]
    have hsecond : (if r2 = rr ∧ b' = S / B - 1 then
          pretendTouch B P RRS ((S / B - 1 + 1) * B) j2 else 0)
        = (if r2 = rr then
            pretendTouch B P RRS ((S / B - 1 + 1) * B) j2 else 0) := by
      by_cases hr2 : r2 = rr
      · rw [if_pos ⟨hr2, hL⟩, if_pos hr2]
      · have hn : ¬(r2 = rr ∧ b' = S / B - 1) := fun hc => hr2 hc.1
        rw [if_neg hn, if_neg hr2]
    rw [hsecond]
    omega
  · rw [if_neg (show ¬(b' * B = (S / B - 1) * B) from by
        intro hc
        exact hL (Nat.eq_of_mul_eq_mul_right hB hc))]
    refine ⟨iInv, iLay, ?_⟩
    intro r2 j2 hj2
    rw [iGet2 r2 j2 hj2, hentry r2 j2]
    have hz : (if r2 = rr ∧ b' = S / B - 1 then
        pretendTouch B P RRS ((S / B - 1 + 1) * B) j2 else 0) = 0 := by
      have hn : ¬(r2 = rr ∧ b' = S / B - 1) := fun hc => hL hc.2
      rw [if_neg hn]
    rw [hz]
    omega

theorem markStepInc_spec (B P S N RRS RdS pl rho : Nat) (hB : 0 < B)
    (hBS : B ≤ S) (hP2 : P = 2 ^ pl) (hNS : N * S ≤ RdS) (hrho : rho = 0)
    (hBP : B ≤ P)
    (hmod : P % B = 0) (pm : RegionPageMap) (o rr b' : Nat) (hInv : pm.Inv)
    (hSNC : S ≤ pm.NumCounters * P) (hrr : rr < N) (hb' : b' ≤ S / B - 1)
    (ho : o = rr * S + b' * B)
    (hbound : ∀ r2 j2, j2 < pm.NumCounters →
      pm.get r2 j2 + markEntry B P S RRS r2 j2 o ≤ pm.CounterMask) :
    (markStepInc B S N RRS RdS pl rho pm o).Inv ∧
    SameLayout pm (markStepInc B S N RRS RdS pl rho pm o) ∧
    (∀ r2 j2, j2 < pm.NumCounters →
      (markStepInc B S N RRS RdS pl rho pm o).get r2 j2
        = pm.get r2 j2 + markEntry B P S RRS r2 j2 o) := by
  subst hrho
  have hP : 0 < P := by
    rw [hP2]
    exact Nat.pos_pow_of_pos pl (by norm_num)
  have hblock := blockOffset_lt B S b' hB hBS hb'
  have hoNS : o < N * S := by
    have h1 : rr * S ≤ (N - 1) * S := Nat.mul_le_mul_right S (by omega)
    have h2 : (N - 1) * S = N * S - 1 * S := Nat.sub_mul _ _ _
    have h3 : 1 * S ≤ N * S := Nat.mul_le_mul_right S (by omega)
    omega
  have hRI : (if N = 1 then 0 else o / S) = rr := by
    by_cases hN1 : N = 1
    · rw [if_pos hN1]
      omega
    · rw [if_neg hN1]
      rw [ho]
      exact decode_div B S rr b' hB hBS hb'
  have heq : markStepInc B S N RRS RdS pl 0 pm o
      = if b' * B = (S / B - 1) * B then
          markLastBlockLoop B RRS pl 0 rr
            (pm.inc rr (b' * B / P)) ((S / B - 1) * B + B)
        else pm.inc rr (b' * B / P) := by
    unfold markStepInc
    rw [if_neg (show ¬(o ≥ RdS) from by omega)]
    dsimp only
    rw [hRI, show o - rr * S = b' * B from by omega, getPageIndexAux_div,
      ← hP2]
  rw [heq]
  have hentry : ∀ r2 j2, markEntry B P S RRS r2 j2 o
      = (if r2 = rr ∧ blockIntersectsPage B P b' j2 then 1 else 0)
        + (if r2 = rr ∧ b' = S / B - 1 then
            pretendTouch B P RRS ((S / B - 1 + 1) * B) j2 else 0) := by
    intro r2 j2
    rw [ho]
    exact markEntry_eq B P S RRS hB hBS r2 j2 rr b' hb'
  have hI : b' * B / P < pm.NumCounters := by
    rw [Nat.div_lt_iff_lt_mul hP]
    omega
  have hlt : pm.get rr (b' * B / P) < pm.CounterMask := by
    have hb := hbound rr (b' * B / P) hI
    rw [hentry rr (b' * B / P),
      if_pos (show rr = rr ∧ blockIntersectsPage B P b' (b' * B / P)
        from ⟨rfl, bIP_self B P b' hB hP⟩)] at hb
    omega
  have iInv : (pm.inc rr (b' * B / P)).Inv := pm.inc_Inv hInv rr _ hI hlt
  have iLay : SameLayout pm (pm.inc rr (b' * B / P)) := SameLayout.inc pm rr _
  have hNC : (pm.inc rr (b' * B / P)).NumCounters = pm.NumCounters := rfl
  have hCM : (pm.inc rr (b' * B / P)).CounterMask = pm.CounterMask := rfl
  have hbiff : ∀ j2, blockIntersectsPage B P b' j2 ↔ j2 = b' * B / P := by
    intro j2
    rw [bIP_iff_span B P b' j2 hB hP, span_collapse B P b' hB hBP hmod]
    omega
  have iGet2 : ∀ r2 j2, j2 < pm.NumCounters →
      (pm.inc rr (b' * B / P)).get r2 j2
        = pm.get r2 j2
          + (if r2 = rr ∧ blockIntersectsPage B P b' j2 then 1 else 0) := by
    intro r2 j2 hj2
    rw [pm.get_inc hInv rr (b' * B / P) r2 j2 hI hj2 hlt]
    by_cases hc : r2 = rr ∧ blockIntersectsPage B P b' j2
    · have hj2e : j2 = b' * B / P := (hbiff j2).mp hc.2
      rw [if_pos ⟨hc.1, hj2e⟩, if_pos hc, hc.1, hj2e]
    · rw [if_neg (show ¬(r2 = rr ∧ j2 = b' * B / P) from by
          intro h2
          exact hc ⟨h2.1, (hbiff j2).mpr h2.2⟩), if_neg hc, Nat.add_zero]
  by_cases hL : b' = S / B - 1
  · rw [if_pos (show b' * B = (S / B - 1) * B from by rw [hL])]
    rw [show (S / B - 1) * B + B = (S / B - 1 + 1) * B from by ring]
    have hloop : markLastBlockLoop B RRS pl 0 rr
        (pm.inc rr (b' * B / P)) ((S / B - 1 + 1) * B)
        = markLastBlockFuel B RRS pl 0 rr
          (RRS + 1 - (S / B - 1 + 1) * B)
          (pm.inc rr (b' * B / P)) ((S / B - 1 + 1) * B) := rfl
    rw [hloop]
    have hbound2 : ∀ j2, j2 < (pm.inc rr (b' * B / P)).NumCounters →
        (pm.inc rr (b' * B / P)).get rr j2
          + pretendTouch B P RRS ((S / B - 1 + 1) * B) j2
          ≤ (pm.inc rr (b' * B / P)).CounterMask := by
      intro j2 hj2
      rw [hNC] at hj2
      rw [iGet2 rr j2 hj2, hCM]
      have hb := hbound rr j2 hj2
      rw [hentry rr j2,
        if_pos (show rr = rr ∧ b' = S / B - 1 from ⟨rfl, hL⟩)] at hb
      omega
    obtain ⟨fInv, fLay, fGet⟩ := markLastBlockFuel_spec B P RRS pl rr hB hP2
      (RRS + 1 - (S / B - 1 + 1) * B) ((S / B - 1 + 1) * B)
      (pm.inc rr (b' * B / P)) (Nat.le_refl _) iInv hbound2
    refine ⟨fInv, iLay.trans fLay, ?_⟩
    intro r2 j2 hj2
    rw [fGet r2 j2 (by rw [hNC]; exact hj2), iGet2 r2 j2 hj2, hentry r2 j2]
    have hsecond : (if r2 = rr ∧ b' = S / B - 1 then
          pretendTouch B P RRS ((S / B - 1 + 1) * B) j2 else 0)
        = (if r2 = rr then
            pretendTouch B P RRS ((S / B - 1 + 1) * B) j2 else 0) := by
      by_cases hr2 : r2 = rr
      · rw [if_pos ⟨hr2, hL⟩, if_pos hr2]
      · have hn : ¬(r2 = rr ∧ b' = S / B - 1) := fun hc => hr2 hc.1
        rw [if_neg hn, if_neg hr2]
    rw [hsecond]
    omega
  · rw [if_neg (show ¬(b' * B = (S / B - 1) * B) from by
        intro hc
        exact hL (Nat.eq_of_mul_eq_mul_right hB hc))]
    refine ⟨iInv, iLay, ?_⟩
    intro r2 j2 hj2
    rw [iGet2 r2 j2 hj2, hentry r2 j2]
    have hz : (if r2 = rr ∧ b' = S / B - 1 then
        pretendTouch B P RRS ((S / B - 1 + 1) * B) j2 else 0) = 0 := by
      have hn : ¬(r2 = rr ∧ b' = S / B - 1) := fun hc => hL hc.2
      rw [if_neg hn]
    rw [hz]
    omega

theorem markFold_spec (B P S N RRS : Nat)
    (f : RegionPageMap → Nat → RegionPageMap)
    (hstep : ∀ (pm : RegionPageMap) (o rr b' : Nat), pm.Inv →
      S ≤ pm.NumCounters * P → rr < N → b' ≤ S / B - 1 →
      o = rr * S + b' * B →
      (∀ r2 j2, j2 < pm.NumCounters →
        pm.get r2 j2 + markEntry B P S RRS r2 j2 o ≤ pm.CounterMask) →
      (f pm o).Inv ∧ SameLayout pm (f pm o) ∧
      (∀ r2 j2, j2 < pm.NumCounters →
        (f pm o).get r2 j2 = pm.get r2 j2 + markEntry B P S RRS r2 j2 o)) :
    ∀ (offs rest pre : List Nat) (pm : RegionPageMap),
      (∀ o ∈ offs, ∃ rr b, rr < N ∧ b ≤ S / B - 1 ∧ o = rr * S + b * B) →
      offs = pre ++ rest → pm.Inv → S ≤ pm.NumCounters * P →
      (∀ r2 j2, j2 < pm.NumCounters →
        pm.get r2 j2 = markedCount B P S RRS pre r2 j2) →
      (∀ r2 j2, j2 < pm.NumCounters →
        markedCount B P S RRS offs r2 j2 ≤ pm.CounterMask) →
      (rest.foldl f pm).Inv ∧ SameLayout pm (rest.foldl f pm) ∧
      (∀ r2 j2, j2 < pm.NumCounters →
        (rest.foldl f pm).get r2 j2 = markedCount B P S RRS offs r2 j2) := by
  intro offs rest
  induction rest with
  | nil =>
    intro pre pm hwf hoffs hInv hSNC hget hmask
    rw [List.append_nil] at hoffs
    subst hoffs
    exact ⟨hInv, sameLayout_self pm, hget⟩
  | cons o rest ih =>
    intro pre pm hwf hoffs hInv hSNC hget hmask
    obtain ⟨rr, b', hrr, hb', ho⟩ := hwf o (by
      rw [hoffs]
      exact List.mem_append_right pre (List.mem_cons_self o rest))
    have hsplit : ∀ r2 j2, markedCount B P S RRS offs r2 j2
        = markedCount B P S RRS pre r2 j2 + markEntry B P S RRS r2 j2 o
          + markedCount B P S RRS rest r2 j2 := by
      intro r2 j2
      rw [hoffs, markedCount_append, markedCount_cons]
      omega
    have hbound : ∀ r2 j2, j2 < pm.NumCounters →
        pm.get r2 j2 + markEntry B P S RRS r2 j2 o ≤ pm.CounterMask := by
      intro r2 j2 hj2
      have h1 := hmask r2 j2 hj2
      rw [hsplit r2 j2] at h1
      rw [hget r2 j2 hj2]
      omega
    obtain ⟨sInv, sLay, sGet⟩ :=
      hstep pm o rr b' hInv hSNC hrr hb' ho hbound
    have hNC : (f pm o).NumCounters = pm.NumCounters := sLay.2.1
    have hCM : (f pm o).CounterMask = pm.CounterMask := sLay.2.2.2.1
    have hoffs2 : offs = (pre ++ [o]) ++ rest := by
      rw [hoffs, List.append_assoc]
      rfl
    have hget2 : ∀ r2 j2, j2 < (f pm o).NumCounters →
        (f pm o).get r2 j2 = markedCount B P S RRS (pre ++ [o]) r2 j2 := by
      intro r2 j2 hj2
      rw [hNC] at hj2
      rw [sGet r2 j2 hj2, hget r2 j2 hj2, markedCount_append,
        markedCount_cons, markedCount_nil]
      omega
    have hmask2 : ∀ r2 j2, j2 < (f pm o).NumCounters →
        markedCount B P S RRS offs r2 j2 ≤ (f pm o).CounterMask := by
      intro r2 j2 hj2
      rw [hNC] at hj2
      rw [hCM]
      exact hmask r2 j2 hj2
    obtain ⟨rInv, rLay, rGet⟩ := ih (pre ++ [o]) (f pm o) hwf hoffs2 sInv
      (by rw [hNC]; exact hSNC) hget2 hmask2
    rw [List.foldl_cons]
    refine ⟨rInv, sLay.trans rLay, ?_⟩
    intro r2 j2 hj2
    exact rGet r2 j2 (by rw [hNC]; exact hj2)

theorem reset_mask_ge (n c m : Nat) (hm : 0 < m) (hm64 : m < 2 ^ 64) :
    m ≤ (RegionPageMap.reset n c m).CounterMask := by
  obtain ⟨k, hk6, hk, hmk⟩ := reset_counterBits m hm hm64
  have h2k : (2 : Nat) ^ k ≤ 64 := by
    calc (2 : Nat) ^ k ≤ 2 ^ 6 := Nat.pow_le_pow_right (by norm_num) hk6
    _ = 64 := by norm_num
  have hmaskval : ((2 : Nat) ^ 64 - 1) >>> (64 - 2 ^ k) = 2 ^ 2 ^ k - 1 := by
    calc ((2 : Nat) ^ 64 - 1) >>> (64 - 2 ^ k)
        = ((2 : Nat) ^ ((64 - 2 ^ k) + 2 ^ k) - 1) / 2 ^ (64 - 2 ^ k) := by
          rw [Nat.shiftRight_eq_div_pow,
            show (64 - 2 ^ k) + 2 ^ k = 64 from by omega]
    _ = 2 ^ 2 ^ k - 1 := pred_pow_shift _ _
  show m ≤ (2 ^ 64 - 1)
    >>> (64 - roundUpPowerOfTwo (getMostSignificantSetBitIndex m + 1))
  rw [hk, hmaskval]
  omega

theorem markFreeBlocks_pm_fast (P B S N : Nat) (FreeList : List (List Nat))
    (hfast : B ≤ P ∧ P % B = 0) :
    ((PageReleaseContext.mk' P B S N S 0).markFreeBlocks FreeList
      (fun y => y) 0).PageMap
      = FreeList.flatten.foldl
          (markStepInc B S N (roundUp S P) (N * roundUp S P) (getLog2 P)
            (0 >>> getLog2 P))
          (RegionPageMap.reset N (roundUp S P / P)
            (PageReleaseContext.mk' P B S N S 0).FullPagesBlockCountMax) := by
  show (if B ≤ P ∧ P % B = 0 then
      FreeList.flatten.foldl
        (markStepInc B S N (roundUp S P) (N * roundUp S P) (getLog2 P)
          (0 >>> getLog2 P))
        (RegionPageMap.reset N (roundUp S P / P)
          (PageReleaseContext.mk' P B S N S 0).FullPagesBlockCountMax)
    else
      FreeList.flatten.foldl
        (markStepRange B S N (roundUp S P) (N * roundUp S P) (getLog2 P)
          (0 >>> getLog2 P))
        (RegionPageMap.reset N (roundUp S P / P)
          (PageReleaseContext.mk' P B S N S 0).FullPagesBlockCountMax))
    = FreeList.flatten.foldl
        (markStepInc B S N (roundUp S P) (N * roundUp S P) (getLog2 P)
          (0 >>> getLog2 P))
        (RegionPageMap.reset N (roundUp S P / P)
          (PageReleaseContext.mk' P B S N S 0).FullPagesBlockCountMax)
  rw [if_pos hfast]

theorem markFreeBlocks_pm_slow (P B S N : Nat) (FreeList : List (List Nat))
    (hslow : ¬(B ≤ P ∧ P % B = 0)) :
    ((PageReleaseContext.mk' P B S N S 0).markFreeBlocks FreeList
      (fun y => y) 0).PageMap
      = FreeList.flatten.foldl
          (markStepRange B S N (roundUp S P) (N * roundUp S P) (getLog2 P)
            (0 >>> getLog2 P))
          (RegionPageMap.reset N (roundUp S P / P)
            (PageReleaseContext.mk' P B S N S 0).FullPagesBlockCountMax) := by
  show (if B ≤ P ∧ P % B = 0 then
      FreeList.flatten.foldl
        (markStepInc B S N (roundUp S P) (N * roundUp S P) (getLog2 P)
          (0 >>> getLog2 P))
        (RegionPageMap.reset N (roundUp S P / P)
          (PageReleaseContext.mk' P B S N S 0).FullPagesBlockCountMax)
    else
      FreeList.flatten.foldl
        (markStepRange B S N (roundUp S P) (N * roundUp S P) (getLog2 P)
          (0 >>> getLog2 P))
        (RegionPageMap.reset N (roundUp S P / P)
          (PageReleaseContext.mk' P B S N S 0).FullPagesBlockCountMax))
    = FreeList.flatten.foldl
        (markStepRange B S N (roundUp S P) (N * roundUp S P) (getLog2 P)
          (0 >>> getLog2 P))
        (RegionPageMap.reset N (roundUp S P / P)
          (PageReleaseContext.mk' P B S N S 0).FullPagesBlockCountMax)
  rw [if_neg hslow]

theorem markFreeBlocks_shape (P B S N Base : Nat) (FreeList : List (List Nat))
    (DecompactPtr : Nat → Nat) :
    (PageReleaseContext.mk' P B S N S 0).markFreeBlocks FreeList
        DecompactPtr Base
      = { PageReleaseContext.mk' P B S N S 0 with
          PageMap := ((PageReleaseContext.mk' P B S N S 0).markFreeBlocks
            FreeList DecompactPtr Base).PageMap } := rfl

theorem markFreeBlocks_spec (P B S N pl : Nat) (FreeList : List (List Nat))
    (hB : 0 < B) (hBS : B ≤ S) (hP2 : P = 2 ^ pl)
    (hwf : ∀ o ∈ FreeList.flatten,
      ∃ rr b, rr < N ∧ b ≤ S / B - 1 ∧ o = rr * S + b * B)
    (hnd : FreeList.flatten.Nodup)
    (hM64 : (PageReleaseContext.mk' P B S N S 0).FullPagesBlockCountMax
      < 2 ^ 64) :
    ((PageReleaseContext.mk' P B S N S 0).markFreeBlocks FreeList
      (fun y => y) 0).PageMap.Inv ∧
    ((PageReleaseContext.mk' P B S N S 0).markFreeBlocks FreeList
      (fun y => y) 0).PageMap.NumCounters = roundUp S P / P ∧
    (PageReleaseContext.mk' P B S N S 0).FullPagesBlockCountMax
      ≤ ((PageReleaseContext.mk' P B S N S 0).markFreeBlocks FreeList
        (fun y => y) 0).PageMap.CounterMask ∧
    (∀ r2 j2, j2 < roundUp S P / P →
      ((PageReleaseContext.mk' P B S N S 0).markFreeBlocks FreeList
        (fun y => y) 0).PageMap.get r2 j2
        = markedCount B P S (roundUp S P) FreeList.flatten r2 j2) := by
  have hP : 0 < P := by
    rw [hP2]
    exact Nat.pos_pow_of_pos pl (by norm_num)
  have hfacts := pageMax_facts P B S N S hB hP
  have hM0 : 0 < (PageReleaseContext.mk' P B S N S 0).FullPagesBlockCountMax :=
    hfacts.1
  have hrInv : (RegionPageMap.reset N (roundUp S P / P)
      (PageReleaseContext.mk' P B S N S 0).FullPagesBlockCountMax).Inv :=
    reset_Inv _ _ _ hM0 hM64
  have hmaskge : (PageReleaseContext.mk' P B S N S 0).FullPagesBlockCountMax
      ≤ (RegionPageMap.reset N (roundUp S P / P)
        (PageReleaseContext.mk' P B S N S
          0).FullPagesBlockCountMax).CounterMask :=
    reset_mask_ge _ _ _ hM0 hM64
  have hrNC : (RegionPageMap.reset N (roundUp S P / P)
      (PageReleaseContext.mk' P B S N S
        0).FullPagesBlockCountMax).NumCounters = roundUp S P / P := rfl
  have hPCp : roundUp S P / P * P = roundUp S P := roundUp_div_mul S P hP
  have hSNC : S ≤ (RegionPageMap.reset N (roundUp S P / P)
      (PageReleaseContext.mk' P B S N S
        0).FullPagesBlockCountMax).NumCounters * P := by
    rw [hrNC, hPCp]
    exact le_roundUp S P hP
  have hget0 : ∀ r2 j2, j2 < (RegionPageMap.reset N (roundUp S P / P)
      (PageReleaseContext.mk' P B S N S
        0).FullPagesBlockCountMax).NumCounters →
      (RegionPageMap.reset N (roundUp S P / P)
        (PageReleaseContext.mk' P B S N S
          0).FullPagesBlockCountMax).get r2 j2
        = markedCount B P S (roundUp S P) [] r2 j2 := by
    intro r2 j2 _
    rw [RegionPageMap.get_reset, markedCount_nil]
  have hmask0 : ∀ r2 j2, j2 < (RegionPageMap.reset N (roundUp S P / P)
      (PageReleaseContext.mk' P B S N S
        0).FullPagesBlockCountMax).NumCounters →
      markedCount B P S (roundUp S P) FreeList.flatten r2 j2
        ≤ (RegionPageMap.reset N (roundUp S P / P)
          (PageReleaseContext.mk' P B S N S
            0).FullPagesBlockCountMax).CounterMask := by
    intro r2 j2 hj2
    rw [hrNC] at hj2
    have hjp : (j2 + 1) * P ≤ roundUp S P := by
      have h1 : (j2 + 1) * P ≤ roundUp S P / P * P :=
        Nat.mul_le_mul_right P (by omega)
      rw [hPCp] at h1
      exact h1
    have h2 := markedCount_le B P S (roundUp S P) hB hBS hP r2 j2
      FreeList.flatten hnd
      (fun o ho => by
        obtain ⟨rr, b, _, hb, hoe⟩ := hwf o ho
        exact ⟨rr, b, hb, hoe⟩) hjp
    have h3 := hfacts.2.2 j2
    omega
  have hlog : getLog2 P = pl := by
    rw [getLog2_eq, hP2]
    exact Nat.log2_two_pow
  have hP2' : P = 2 ^ getLog2 P := by
    rw [hlog]
    exact hP2
  have hNS : N * S ≤ N * roundUp S P :=
    Nat.mul_le_mul_left N (le_roundUp S P hP)
  by_cases hfast : B ≤ P ∧ P % B = 0
  · have hpm := markFreeBlocks_pm_fast P B S N FreeList hfast
    obtain ⟨rInv, rLay, rGet⟩ := markFold_spec B P S N (roundUp S P)
      (markStepInc B S N (roundUp S P) (N * roundUp S P) (getLog2 P)
        (0 >>> getLog2 P))
      (fun pm o rr b' h1 h2 h3 h4 h5 h6 =>
        markStepInc_spec B P S N (roundUp S P) (N * roundUp S P) (getLog2 P)
          (0 >>> getLog2 P) hB hBS hP2' hNS (Nat.zero_shiftRight _)
          hfast.1 hfast.2 pm o rr b' h1 h2 h3 h4 h5 h6)
      FreeList.flatten FreeList.flatten []
      (RegionPageMap.reset N (roundUp S P / P)
        (PageReleaseContext.mk' P B S N S 0).FullPagesBlockCountMax)
      hwf rfl hrInv hSNC hget0 hmask0
    rw [hpm]
    refine ⟨rInv, ?_, ?_, ?_⟩
    · rw [rLay.2.1, hrNC]
    · rw [rLay.2.2.2.1]
      exact hmaskge
    · intro r2 j2 hj2
      exact rGet r2 j2 (by rw [hrNC]; exact hj2)
  · have hpm := markFreeBlocks_pm_slow P B S N FreeList hfast
    obtain ⟨rInv, rLay, rGet⟩ := markFold_spec B P S N (roundUp S P)
      (markStepRange B S N (roundUp S P) (N * roundUp S P) (getLog2 P)
        (0 >>> getLog2 P))
      (fun pm o rr b' h1 h2 h3 h4 h5 h6 =>
        markStepRange_spec B P S N (roundUp S P) (N * roundUp S P) (getLog2 P)
          (0 >>> getLog2 P) hB hBS hP2' hNS (Nat.zero_shiftRight _)
          pm o rr b' h1 h2 h3 h4 h5 h6)
      FreeList.flatten FreeList.flatten []
      (RegionPageMap.reset N (roundUp S P / P)
        (PageReleaseContext.mk' P B S N S 0).FullPagesBlockCountMax)
      hwf rfl hrInv hSNC hget0 hmask0
    rw [hpm]
    refine ⟨rInv, ?_, ?_, ?_⟩
    · rw [rLay.2.1, hrNC]
    · rw [rLay.2.2.2.1]
      exact hmaskge
    · intro r2 j2 hj2
      exact rGet r2 j2 (by rw [hrNC]; exact hj2)

theorem simCovered_close (s : RangeSim) (g : Nat) :
    simCovered s.close g
      ↔ (simCovered s g
         ∨ (s.InRange = true ∧ s.start ≤ g ∧ g + 1 ≤ s.cur)) := by
  unfold simCovered RangeSim.close
  by_cases h : s.InRange = true
  · rw [if_pos h]
    dsimp only
    constructor
    · rintro ⟨e, he, h1, h2⟩
      rw [List.mem_append] at he
      rcases he with he | he
      · exact Or.inl ⟨e, he, h1, h2⟩
      · rw [List.mem_singleton] at he
        subst he
        exact Or.inr ⟨h, h1, h2⟩
    · rintro (⟨e, he, h1, h2⟩ | ⟨_, h1, h2⟩)
      · exact ⟨e, List.mem_append_left _ he, h1, h2⟩
      · exact ⟨((s.start, s.cur), s.epoch),
          List.mem_append_right _ (List.mem_singleton_self _), h1, h2⟩
  · rw [if_neg h]
    constructor
    · intro hc
      exact Or.inl hc
    · rintro (hc | ⟨h1, _, _⟩)
      · exact hc
      · exact absurd h1 h


theorem cov_run : ∀ (bs : List Bool),
    (RangeSim.init.run (bs.map TrackerStep.page)).cur = bs.length ∧
    SimInv (RangeSim.init.run (bs.map TrackerStep.page)) ∧
    (∀ g, g < bs.length →
      ((simCovered (RangeSim.init.run (bs.map TrackerStep.page)) g
        ∨ ((RangeSim.init.run (bs.map TrackerStep.page)).InRange = true
           ∧ (RangeSim.init.run (bs.map TrackerStep.page)).start ≤ g))
        ↔ bs.getD g false = true)) := by
  intro bs
  induction bs using List.reverseRecOn with
  | nil =>
    refine ⟨rfl, simInv_init, ?_⟩
    intro g hg
    exact absurd hg (by simp)
  | append_singleton bs b ih =>
    obtain ⟨hcur, hinv, hcov⟩ := ih
    have hinv2 := SimInv.step hinv (TrackerStep.page b)
    have hrun : RangeSim.init.run ((bs ++ [b]).map TrackerStep.page)
        = (RangeSim.init.run (bs.map TrackerStep.page)).step
            (TrackerStep.page b) := by
      rw [List.map_append]
      unfold RangeSim.run
      rw [List.foldl_append]
      rfl
    rw [hrun, List.length_append]
    generalize hs : RangeSim.init.run (bs.map TrackerStep.page) = s
      at hcur hinv hcov hinv2 ⊢
    rcases Bool.eq_false_or_eq_true b with hb | hb
    · subst hb
      have hlen : ([true] : List Bool).length = 1 := rfl
      rcases Bool.eq_false_or_eq_true s.InRange with hIn | hIn
      · rw [RangeSim.step_page_true_in s hIn] at hinv2 ⊢
        refine ⟨?_, hinv2, ?_⟩
        · show s.cur + 1 = bs.length + [true].length
          rw [hcur, hlen]
        · intro g hg
          by_cases hgb : g < bs.length
          · rw [List.getD_append _ _ false g hgb]
            exact hcov g hgb
          · have hge : g = bs.length := by omega
            rw [List.getD_append_right _ _ false g (by omega),
              show g - bs.length = 0 from by omega]
            constructor
            · intro _
              rfl
            · intro _
              right
              refine ⟨hIn, ?_⟩
              show s.start ≤ g
              have h4 := hinv.2.2.2.1 hIn
              omega
      · rw [RangeSim.step_page_true_out s hIn] at hinv2 ⊢
        refine ⟨?_, hinv2, ?_⟩
        · show s.cur + 1 = bs.length + [true].length
          rw [hcur, hlen]
        · intro g hg
          by_cases hgb : g < bs.length
          · rw [List.getD_append _ _ false g hgb]
            constructor
            · rintro (h | ⟨_, hst⟩)
              · exact (hcov g hgb).mp (Or.inl h)
              · exact absurd (show s.cur ≤ g from hst) (by omega)
            · intro h
              rcases (hcov g hgb).mpr h with h2 | ⟨h3, _⟩
              · exact Or.inl h2
              · rw [hIn] at h3
                exact absurd h3 (by decide)
          · have hge : g = bs.length := by omega
            rw [List.getD_append_right _ _ false g (by omega),
              show g - bs.length = 0 from by omega]
            constructor
            · intro _
              rfl
            · intro _
              right
              refine ⟨rfl, ?_⟩
              show s.cur ≤ g
              omega
    · subst hb
      have hlen : ([false] : List Bool).length = 1 := rfl
      rw [RangeSim.step_page_false s] at hinv2 ⊢
      have hcf := RangeSim.close_facts hinv
      refine ⟨?_, hinv2, ?_⟩
      · show s.close.cur + 1 = bs.length + [false].length
        rw [hcf.2.2.2.2.2.1, hcur, hlen]
      · intro g hg
        by_cases hgb : g < bs.length
        · rw [List.getD_append _ _ false g hgb]
          constructor
          · rintro (h | ⟨hir, _⟩)
            · have h2 : simCovered s.close g := h
              rw [simCovered_close] at h2
              rcases h2 with h3 | ⟨h4, h5, _⟩
              · exact (hcov g hgb).mp (Or.inl h3)
              · exact (hcov g hgb).mp (Or.inr ⟨h4, h5⟩)
            · have h2 : s.close.InRange = true := hir
              rw [hcf.2.2.2.2.1] at h2
              exact absurd h2 (by decide)
          · intro h
            left
            show simCovered s.close g
            rw [simCovered_close]
            rcases (hcov g hgb).mpr h with h2 | ⟨h3, h4⟩
            · exact Or.inl h2
            · right
              exact ⟨h3, h4, by omega⟩
        · have hge : g = bs.length := by omega
          rw [List.getD_append_right _ _ false g (by omega),
            show g - bs.length = 0 from by omega]
          constructor
          · rintro (h | ⟨hir, _⟩)
            · have h2 : simCovered s.close g := h
              obtain ⟨e, he, he1, he2⟩ := h2
              exact absurd (hcf.2.2.2.1 e he) (by omega)
            · have h2 : s.close.InRange = true := hir
              rw [hcf.2.2.2.2.1] at h2
              exact absurd h2 (by decide)
          · intro h
            exact absurd h (by decide)

theorem scanSteps_noskip (pm : RegionPageMap) (N PC : Nat) (M : Nat → Nat) :
    scanSteps pm N PC M (fun _ => false)
      = (pageBools pm N PC M).map TrackerStep.page := by
  unfold scanSteps pageBools
  rw [List.map_flatten, List.map_map]
  apply congrArg List.flatten
  apply List.map_congr_left
  intro r _
  rw [if_neg (show ¬((fun _ => false) r = true)
    from fun h => Bool.noConfusion h)]
  rfl

theorem flatten_getD (PC : Nat) :
    ∀ (L : List (List Bool)), (∀ l ∈ L, l.length = PC) →
      ∀ r j, r < L.length → j < PC →
        (L.flatten).getD (r * PC + j) false = (L.getD r []).getD j false := by
  intro L
  induction L with
  | nil =>
    intro _ r j hr _
    exact absurd hr (by simp)
  | cons hd tl ih =>
    intro hlen r j hr hj
    have hhd : hd.length = PC := hlen hd (List.mem_cons_self hd tl)
    rw [show (hd :: tl).flatten = hd ++ tl.flatten from rfl]
    cases r with
    | zero =>
      rw [Nat.zero_mul, Nat.zero_add,
        List.getD_append hd tl.flatten false j (by rw [hhd]; exact hj)]
      rfl
    | succ r =>
      have h1 : 1 * PC ≤ (r + 1) * PC := Nat.mul_le_mul_right PC (by omega)
      have h2 : (r + 1) * PC = r * PC + PC := by ring
      rw [List.getD_append_right hd tl.flatten false ((r + 1) * PC + j)
        (by rw [hhd]; omega)]
      rw [hhd, show (r + 1) * PC + j - PC = r * PC + j from by omega,
        List.getD_cons_succ]
      have hr2 : r < tl.length := by
        rw [List.length_cons] at hr
        omega
      exact ih (fun l hl => hlen l (List.mem_cons_of_mem hd hl)) r j hr2 hj

theorem pageBools_getD (pm : RegionPageMap) (N PC : Nat) (M : Nat → Nat)
    (r j : Nat) (hr : r < N) (hj : j < PC) :
    (pageBools pm N PC M).getD (r * PC + j) false = canRel pm r j (M j) := by
  unfold pageBools
  rw [flatten_getD PC ((List.range N).map (fun r => regionBools pm M r PC))
    (by
      intro l hl
      rw [List.mem_map] at hl
      obtain ⟨a, _, ha⟩ := hl
      rw [← ha]
      unfold regionBools
      rw [List.length_map, List.length_range])
    r j (by rw [List.length_map, List.length_range]; exact hr) hj]
  have hro : (List.map (fun r => regionBools pm M r PC)
        (List.range N)).getD r [] = regionBools pm M r PC := by
    rw [List.getD_eq_getElem?_getD, List.getElem?_map, List.getElem?_range hr]
    rfl
  rw [hro]
  unfold regionBools
  rw [List.getD_eq_getElem?_getD, List.getElem?_map, List.getElem?_range hj]
  rfl

theorem pageBools_length (pm : RegionPageMap) (N PC : Nat) (M : Nat → Nat) :
    (pageBools pm N PC M).length = N * PC := by
  unfold pageBools
  rw [List.length_flatten, List.map_map]
  have hconst : ((List.range N).map
      (List.length ∘ fun r => regionBools pm M r PC))
      = (List.range N).map (fun _ => PC) := by
    apply List.map_congr_left
    intro a _
    show (regionBools pm M a PC).length = PC
    unfold regionBools
    rw [List.length_map, List.length_range]
  rw [hconst]
  have hsum : ∀ n, ((List.range n).map (fun _ => PC)).sum = n * PC := by
    intro n
    induction n with
    | zero =>
      rw [Nat.zero_mul]
      rfl
    | succ n ihn =>
      rw [List.range_succ, List.map_append, List.sum_append, ihn]
      have h1 : ([PC] : List Nat).sum = PC := by
        show PC + 0 = PC
        omega
      have h2 : (n + 1) * PC = n * PC + PC := by ring
      rw [List.map_cons, List.map_nil, h1, h2]
  rw [hsum]

theorem pageCovered_shift (rec : ReleaseRecorder) (L : Nat) (s : RangeSim)
    (hrel : rec.released = s.log.map (shiftRange L)) (g : Nat) :
    pageCovered rec (2 ^ L) g ↔ simCovered s g := by
  unfold pageCovered simCovered
  rw [hrel]
  have hpos : (0 : Nat) < 2 ^ L := Nat.pos_pow_of_pos L (by norm_num)
  constructor
  · rintro ⟨p, hp, h1, h2⟩
    rw [List.mem_map] at hp
    obtain ⟨e, he, hpe⟩ := hp
    subst hpe
    refine ⟨e, he, ?_, ?_⟩
    · have h1' : e.1.1 * 2 ^ L ≤ g * 2 ^ L := by
        have hsh : (shiftRange L e).1 = e.1.1 * 2 ^ L := by
          show e.1.1 <<< L = e.1.1 * 2 ^ L
          rw [Nat.shiftLeft_eq]
        rw [hsh] at h1
        exact h1
      exact Nat.le_of_mul_le_mul_right h1' hpos
    · have h2' : (g + 1) * 2 ^ L ≤ e.1.2 * 2 ^ L := by
        have hsh : (shiftRange L e).2 = e.1.2 * 2 ^ L := by
          show e.1.2 <<< L = e.1.2 * 2 ^ L
          rw [Nat.shiftLeft_eq]
        rw [hsh] at h2
        exact h2
      exact Nat.le_of_mul_le_mul_right h2' hpos
  · rintro ⟨e, he, h1, h2⟩
    refine ⟨shiftRange L e, List.mem_map_of_mem _ he, ?_, ?_⟩
    · show e.1.1 <<< L ≤ g * 2 ^ L
      rw [Nat.shiftLeft_eq]
      exact Nat.mul_le_mul_right _ h1
    · show (g + 1) * 2 ^ L ≤ e.1.2 <<< L
      rw [Nat.shiftLeft_eq]
      exact Nat.mul_le_mul_right _ h2

/-- C1 (amended): with ReleaseSize = RegionSize and ReleaseOffset = 0, a
power-of-two page size, blocks of size BlockSize ≤ RegionSize, a free list of
distinct in-window block start offsets (DecompactPtr the identity, Base 0)
and a countable FullPagesBlockCountMax, after markFreeBlocks populates the
page map, releaseFreeMemoryToOS with a never-true skip predicate emits page j
of region r inside some released range iff every whole block whose footprint
meets page j is in the free list AND, whenever page j extends past the last
whole block of the region, the last whole block is in the free list as well.
The original claim omits the last conjunct. -/
theorem C1_amended (P pl B S N : Nat) (FreeList : List (List Nat)) (r j : Nat)
    (hP2 : P = 2 ^ pl) (hB : 0 < B) (hBS : B ≤ S)
    (hwf : ∀ o ∈ FreeList.flatten,
      ∃ rr b, rr < N ∧ b ≤ S / B - 1 ∧ o = rr * S + b * B)
    (hnd : FreeList.flatten.Nodup)
    (hM64 : (PageReleaseContext.mk' P B S N S 0).FullPagesBlockCountMax
      < 2 ^ 64)
    (hr : r < N)
    (hj : j < (PageReleaseContext.mk' P B S N S 0).PagesCount) :
    pageCovered
      (releaseFreeMemoryToOS
        ((PageReleaseContext.mk' P B S N S 0).markFreeBlocks FreeList
          (fun y => y) 0)
        (ReleaseRecorder.mk' 0) (fun _ => false)).2
      P (r * (PageReleaseContext.mk' P B S N S 0).PagesCount + j)
    ↔ ((∀ b, b ≤ S / B - 1 → blockIntersectsPage B P b j
          → (r * S + b * B) ∈ FreeList.flatten)
       ∧ ((S / B - 1 + 1) * B < (j + 1) * P
          → (r * S + (S / B - 1) * B) ∈ FreeList.flatten)) := by
  subst hP2
  have hP : (0 : Nat) < 2 ^ pl := Nat.pos_pow_of_pos pl (by norm_num)
  have hfacts := pageMax_facts (2 ^ pl) B S N S hB hP
  obtain ⟨mInv, mNC, mMask, mGet⟩ :=
    markFreeBlocks_spec (2 ^ pl) B S N pl FreeList hB hBS rfl hwf hnd hM64
  have hshape := markFreeBlocks_shape (2 ^ pl) B S N 0 FreeList (fun y => y)
  have hlog : getLog2 (2 ^ pl) = pl := by
    rw [getLog2_eq]
    exact Nat.log2_two_pow
  generalize hctx : (PageReleaseContext.mk' (2 ^ pl) B S N S
      0).markFreeBlocks FreeList (fun y => y) 0 = ctxM
    at mInv mNC mMask mGet hshape ⊢
  have hNR : ctxM.NumberOfRegions = N := by
    rw [hshape]
    rfl
  have hPC : ctxM.PagesCount
      = (PageReleaseContext.mk' (2 ^ pl) B S N S 0).PagesCount := by
    rw [hshape]
  have hPSL : ctxM.PageSizeLog = getLog2 (2 ^ pl) := by
    rw [hshape]
    rfl
  have hMfun : pageMaxFun ctxM
      = pageMaxFun (PageReleaseContext.mk' (2 ^ pl) B S N S 0) := by
    rw [hshape]
    rfl
  have hMj : ∀ j2, pageMaxFun ctxM j2 = numBlocksInPage B (2 ^ pl) j2 := by
    intro j2
    rw [hMfun]
    exact hfacts.2.1 j2
  have hPCval : (PageReleaseContext.mk' (2 ^ pl) B S N S 0).PagesCount
      = roundUp S (2 ^ pl) / 2 ^ pl := rfl
  have hNCeq : ctxM.PageMap.NumCounters = ctxM.PagesCount := by
    rw [mNC, hPC, hPCval]
  rw [← hPC] at hj ⊢
  rw [releaseFreeMemoryToOS_eq_scanAll ctxM (ReleaseRecorder.mk' 0)
    (fun _ => false)]
  dsimp only
  obtain ⟨-, -, -, hTrack⟩ := scanAll_spec ctxM.PagesCount (pageMaxFun ctxM)
    (fun _ => false) ctxM.NumberOfRegions
    (ctxM.PageMap, FreePagesRangeTracker.mk' (ReleaseRecorder.mk' 0)
      ctxM.PageSizeLog)
    mInv (Nat.le_of_eq hNCeq.symm)
  rw [hTrack]
  dsimp only
  rw [hPSL, hlog, scanSteps_noskip]
  have hts := TrackSim.close (trackSim_run
    ((pageBools ctxM.PageMap ctxM.NumberOfRegions ctxM.PagesCount
      (pageMaxFun ctxM)).map TrackerStep.page)
    _ _ (trackSim_init 0 pl))
  have hrel : (((FreePagesRangeTracker.mk' (ReleaseRecorder.mk' 0)
      pl).runSteps
      ((pageBools ctxM.PageMap ctxM.NumberOfRegions ctxM.PagesCount
        (pageMaxFun ctxM)).map TrackerStep.page)).finish).Recorder.released
      = ((RangeSim.init.run
          ((pageBools ctxM.PageMap ctxM.NumberOfRegions ctxM.PagesCount
            (pageMaxFun ctxM)).map TrackerStep.page)).close.log).map
          (shiftRange pl) := by
    have h5 := hts.2.2.2.2
    simp only [FreePagesRangeTracker.finish]
    rw [h5]
    simp [ReleaseRecorder.mk']
  rw [pageCovered_shift _ pl _ hrel]
  have hjlt : j < ctxM.PagesCount := hj
  have hglen : r * ctxM.PagesCount + j
      < (pageBools ctxM.PageMap ctxM.NumberOfRegions ctxM.PagesCount
          (pageMaxFun ctxM)).length := by
    rw [pageBools_length, hNR]
    have h1 : (r + 1) * ctxM.PagesCount ≤ N * ctxM.PagesCount :=
      Nat.mul_le_mul_right _ (by omega)
    have h2 : (r + 1) * ctxM.PagesCount
        = r * ctxM.PagesCount + ctxM.PagesCount := by ring
    omega
  obtain ⟨hcur, hinv, hcov⟩ := cov_run (pageBools ctxM.PageMap
    ctxM.NumberOfRegions ctxM.PagesCount (pageMaxFun ctxM))
  have hcovclose : simCovered ((RangeSim.init.run
      ((pageBools ctxM.PageMap ctxM.NumberOfRegions ctxM.PagesCount
        (pageMaxFun ctxM)).map TrackerStep.page)).close)
      (r * ctxM.PagesCount + j)
      ↔ (pageBools ctxM.PageMap ctxM.NumberOfRegions ctxM.PagesCount
          (pageMaxFun ctxM)).getD (r * ctxM.PagesCount + j) false = true := by
    rw [simCovered_close]
    constructor
    · rintro (h | ⟨h1, h2, _⟩)
      · exact (hcov _ hglen).mp (Or.inl h)
      · exact (hcov _ hglen).mp (Or.inr ⟨h1, h2⟩)
    · intro h
      rcases (hcov _ hglen).mpr h with h2 | ⟨h3, h4⟩
      · exact Or.inl h2
      · refine Or.inr ⟨h3, h4, ?_⟩
        rw [hcur]
        exact hglen
  rw [hcovclose, pageBools_getD ctxM.PageMap ctxM.NumberOfRegions
    ctxM.PagesCount (pageMaxFun ctxM) r j (by rw [hNR]; exact hr) hjlt]
  rw [canRel_iff, hMj j, mGet r j (by rw [← hPCval]; rw [hPC] at hj; exact hj)]
  have hjR : (j + 1) * 2 ^ pl ≤ roundUp S (2 ^ pl) := by
    have hj2 : j < roundUp S (2 ^ pl) / 2 ^ pl := by
      rw [← hPCval, ← hPC]
      exact hj
    have h1 : (j + 1) * 2 ^ pl ≤ roundUp S (2 ^ pl) / 2 ^ pl * 2 ^ pl :=
      Nat.mul_le_mul_right _ (by omega)
    rw [roundUp_div_mul S _ hP] at h1
    exact h1
  have hwf2 : ∀ o ∈ FreeList.flatten,
      ∃ rr b, b ≤ S / B - 1 ∧ o = rr * S + b * B := by
    intro o ho
    obtain ⟨rr, b, _, hb, hoe⟩ := hwf o ho
    exact ⟨rr, b, hb, hoe⟩
  have hmle := markedCount_le B (2 ^ pl) S (roundUp S (2 ^ pl)) hB hBS hP r j
    FreeList.flatten hnd hwf2 hjR
  have hnle := hfacts.2.2 j
  have hrel2 : (markedCount B (2 ^ pl) S (roundUp S (2 ^ pl))
        FreeList.flatten r j = ctxM.PageMap.CounterMask
      ∨ markedCount B (2 ^ pl) S (roundUp S (2 ^ pl))
        FreeList.flatten r j = numBlocksInPage B (2 ^ pl) j)
      ↔ markedCount B (2 ^ pl) S (roundUp S (2 ^ pl))
          FreeList.flatten r j = numBlocksInPage B (2 ^ pl) j := by
    constructor
    · rintro (h | h)
      · omega
      · exact h
    · intro h
      exact Or.inr h
  rw [hrel2, markedCount_eq_iff B (2 ^ pl) S (roundUp S (2 ^ pl)) hB hBS hP
    r j FreeList.flatten hnd hwf2 hjR]

/-- C1 counterexample to the original claim: PageSize 4, BlockSize 2,
RegionSize 5, one region, free list holding only block 0.  No whole block
meets page 1 (bytes [4, 8) hold only the pretend tail), so the claimed
condition "every block whose footprint intersects page 1 is in the free
list" holds vacuously, yet the scan does not emit page 1: the pretend-tail
counts contributed by markLastBlock are charged to the last whole block,
which is not free. -/
theorem C1_counterexample :
    (∀ b, b ≤ 5 / 2 - 1 → blockIntersectsPage 2 4 b 1
      → (0 * 5 + b * 2) ∈ ([[0]] : List (List Nat)).flatten)
    ∧ ¬ pageCovered
        (releaseFreeMemoryToOS
          ((PageReleaseContext.mk' 4 2 5 1 5 0).markFreeBlocks [[0]]
            (fun y => y) 0)
          (ReleaseRecorder.mk' 0) (fun _ => false)).2
        4 (0 * (PageReleaseContext.mk' 4 2 5 1 5 0).PagesCount + 1) := by
  constructor
  · decide
  · decide

theorem C1_amended_witness :
    pageCovered
      (releaseFreeMemoryToOS
        ((PageReleaseContext.mk' 4 2 5 1 5 0).markFreeBlocks [[0, 2]]
          (fun y => y) 0)
        (ReleaseRecorder.mk' 0) (fun _ => false)).2
      4 (0 * (PageReleaseContext.mk' 4 2 5 1 5 0).PagesCount + 1) := by
  have h := C1_amended 4 2 2 5 1 [[0, 2]] 0 1 (by decide) (by decide)
    (by decide)
    (by
      intro o ho
      rw [show ([[0, 2]] : List (List Nat)).flatten = [0, 2] from rfl,
        List.mem_cons, List.mem_singleton] at ho
      rcases ho with rfl | rfl
      · exact ⟨0, 0, by decide, by decide, by decide⟩
      · exact ⟨0, 1, by decide, by decide, by decide⟩)
    (by decide) (by decide) (by decide) (by decide)
  exact h.mpr ⟨by decide, by decide⟩
